import Mathlib

/-!
Shallow embedding of the `a_maze_ing` 3D maze generator (src/maze.py, src/room.py)
and proofs about its specification claims.

Conventions of the embedding:
* Cell coordinates are `(height, row, column)` triples of naturals; all grid
  coordinates manipulated by the program are non-negative.
* Room ids are integers: `0` is the start room, `-1` the goal room, generated
  rooms get ids `1, 2, ...`.
* The grid `maze` is a total function `Cell → Option Int`; `none` models the
  Python `None` placeholder, updates model in-place assignment.
* Python's global `random` stream is modelled by an explicit infinite stream of
  natural draws (`RNG`), threaded through the computation in the exact call
  order of the source; `random.randint(a, b)` maps the next draw into `[a, b]`
  and `random.choice` picks by the next draw modulo the list length.
* Python dictionaries are association lists; `Room` objects, which the source
  hashes and compares by id, are referenced by id.
* Unbounded `while` loops are given explicit fuel that provably dominates the
  source loop's iteration count; fallible lookups produce `Option`.
-/

namespace AMazeIng

/-- Cell coordinates in (height, row, column) order. -/
abbrev Cell := Nat × Nat × Nat

/-- The pseudo-random source: an infinite stream of natural number draws. -/
abbrev RNG := Nat → Nat

/-- Drop the first draw of the stream. -/
def rngTail (g : RNG) : RNG := fun i => g (i + 1)

/-- Model of `random.randint(lo, hi)`: consumes one draw and returns a value in
`[lo, hi]` (for `lo ≤ hi`). -/
def randint (lo hi : Nat) (g : RNG) : Nat × RNG :=
  (lo + g 0 % (hi + 1 - lo), rngTail g)

/-- Model of `random.choice` over a non-empty list of room ids: consumes one
draw and picks the element indexed by it modulo the length. -/
def choice (xs : List Int) (g : RNG) : Int × RNG :=
  (xs.getD (g 0 % xs.length) 0, rngTail g)

/-- Dictionary lookup on an association list (Python `dict` access). -/
def alookup {α β : Type _} [DecidableEq α] (k : α) : List (α × β) → Option β
  | [] => none
  | p :: t => if p.1 = k then some p.2 else alookup k t

/-- `Room` from src/room.py: geometric descriptor plus adjacency and door
bookkeeping.  Neighbours are stored by id (the source compares and hashes
`Room` objects by id). -/
structure Room where
  loc : Cell
  size : Cell
  id : Int
  neighbors : List Int := []
  neighbors_directions : List Nat := []
  doors : List (Int × (Cell × Nat)) := []
deriving Repr, DecidableEq

/-- `Room.add_neighbor`: record a neighbour and its direction, skipping
duplicates. -/
def Room.add_neighbor (r : Room) (nid : Int) (direction : Nat) : Room :=
  if nid ∈ r.neighbors then r
  else { r with neighbors := r.neighbors ++ [nid],
                neighbors_directions := r.neighbors_directions ++ [direction] }

/-- `Room.add_door`: record the door to a neighbour (dictionary assignment:
replace an existing entry, otherwise append). -/
def Room.add_door (r : Room) (nid : Int) (door_loc : Cell) (door_direction : Nat) : Room :=
  if (alookup nid r.doors).isSome then
    { r with doors := r.doors.map (fun p => if p.1 = nid then (nid, (door_loc, door_direction)) else p) }
  else
    { r with doors := r.doors ++ [(nid, (door_loc, door_direction))] }

/-- Configuration dictionary of the generator (src/maze.py docstring). -/
structure Config where
  maze_size : Cell
  start_loc : Cell
  start_room_size : Cell
  goal_loc : Cell
  goal_room_size : Cell
  max_room_size : Cell
deriving Repr, DecidableEq

/-- The whole mutable state of a `Maze` object during construction. -/
structure MazeState where
  mh : Nat
  mr : Nat
  mc : Nat
  maze : Cell → Option Int
  rooms : List Room
  paths : List (Int × Int)
  doors : List (Cell × List Nat)
  solution_path : Option (List Int)
  next_id : Int
  rng : RNG

/-- Cell membership in the axis-aligned box `[loc, loc+size)`. -/
def inBox (loc size c : Cell) : Bool :=
  decide (loc.1 ≤ c.1) && decide (c.1 < loc.1 + size.1) &&
  decide (loc.2.1 ≤ c.2.1) && decide (c.2.1 < loc.2.1 + size.2.1) &&
  decide (loc.2.2 ≤ c.2.2) && decide (c.2.2 < loc.2.2 + size.2.2)

/-- `Maze._set_room`: write `id` into every cell of the box and record the
`Room`. -/
def MazeState.set_room (s : MazeState) (loc size : Cell) (id : Int) : MazeState :=
  { s with
    maze := fun c => if inBox loc size c then some id else s.maze c,
    rooms := s.rooms ++ [{ loc := loc, size := size, id := id }] }

/-- `Maze._init_maze` plus the constructor's field initialisation: empty grid,
then the start room (id 0) and the goal room (id -1). -/
def initStage (cfg : Config) (g : RNG) : MazeState :=
  let s0 : MazeState := {
    mh := cfg.maze_size.1, mr := cfg.maze_size.2.1, mc := cfg.maze_size.2.2,
    maze := fun _ => none, rooms := [], paths := [], doors := [],
    solution_path := none, next_id := 1, rng := g }
  (s0.set_room cfg.start_loc cfg.start_room_size 0).set_room cfg.goal_loc cfg.goal_room_size (-1)

/-- Bounded increment loop: `while cur < cap ∧ p cur: cur += 1`, with fuel
`cap - cur`; used for all four extent-growing loops of `_generate_rooms`. -/
def growLimit (p : Nat → Bool) : Nat → Nat → Nat
  | 0, cur => cur
  | fuel + 1, cur => if p cur then growLimit p fuel (cur + 1) else cur

/-- Row-growth occupancy check: the candidate row slice at offset `k` is free
across the full chosen height. -/
def rowFree (g : Cell → Option Int) (hi ri ci room_h k : Nat) : Bool :=
  (List.range room_h).all fun hj => (g (hi + hj, ri + k, ci)).isNone

/-- Column-growth occupancy check: the candidate column slice at offset `k` is
free across the full chosen height × row footprint. -/
def colFree (g : Cell → Option Int) (hi ri ci room_h room_r k : Nat) : Bool :=
  (List.range room_h).all fun hj =>
    (List.range room_r).all fun rj => (g (hi + hj, ri + rj, ci + k)).isNone

/-- The random height extent chosen at an unclaimed cell: grow downwards while
free and under the cap, then draw uniformly in `[1, max reachable]`. -/
def growH (cfg : Config) (s : MazeState) (hi ri ci : Nat) : Nat × RNG :=
  let maxh := growLimit
    (fun k => decide (hi + k < s.mh) && (s.maze (hi + k, ri, ci)).isNone)
    (cfg.max_room_size.1 - 1) 1
  randint 1 maxh s.rng

/-- The random row extent chosen after the height: grow along rows while the
whole height slice is free and under the cap, then draw uniformly. -/
def growR (cfg : Config) (s : MazeState) (hi ri ci room_h : Nat) (g : RNG) : Nat × RNG :=
  let maxr := growLimit
    (fun k => decide (ri + k < s.mr) && rowFree s.maze hi ri ci room_h k)
    (cfg.max_room_size.2.1 - 1) 1
  randint 1 maxr g

/-- The column extent chosen after height and rows, with the source's three
special cases (1×1 rooms grow 1D; a single-unit extent forces column 1 unless
the start cell sits on the last height layer or last row, where the column
instead grows greedily). -/
def growC (cfg : Config) (s : MazeState) (hi ri ci room_h room_r : Nat) (g : RNG) : Nat × RNG :=
  if room_h = 1 ∧ room_r = 1 then
    let maxc := growLimit
      (fun k => decide (ci + k < s.mc) && (s.maze (hi, ri, ci + k)).isNone)
      (cfg.max_room_size.2.2 - 1) 1
    randint 1 maxc g
  else if room_h = 1 ∨ room_r = 1 then
    if hi = s.mh - 1 ∨ ri = s.mr - 1 then
      (growLimit
        (fun k => decide (ci + k < s.mc) && colFree s.maze hi ri ci room_h room_r k)
        (cfg.max_room_size.2.2 - 1) 1, g)
    else (1, g)
  else
    let maxc := growLimit
      (fun k => decide (ci + k < s.mc) && colFree s.maze hi ri ci room_h room_r k)
      (cfg.max_room_size.2.2 - 1) 1
    randint 1 maxc g

/-- The whole random size of the room grown at an unclaimed cell, with the
stream left after the draws. -/
def growRoomSize (cfg : Config) (s : MazeState) (hi ri ci : Nat) : Cell × RNG :=
  let hres := growH cfg s hi ri ci
  let rres := growR cfg s hi ri ci hres.1 hres.2
  let cres := growC cfg s hi ri ci hres.1 rres.1 rres.2
  ((hres.1, rres.1, cres.1), cres.2)

/-- Body of the `_generate_rooms` triple loop for one cell: if the cell is
unclaimed, grow a room there (height, then rows, then columns) and claim it. -/
def genRoomAt (cfg : Config) (s : MazeState) (cell : Cell) : MazeState :=
  match cell with
  | (hi, ri, ci) =>
    if (s.maze (hi, ri, ci)).isSome then s
    else
      let sr := growRoomSize cfg s hi ri ci
      let s1 := { s with rng := sr.2 }
      let s2 := s1.set_room (hi, ri, ci) sr.1 s.next_id
      { s2 with next_id := s.next_id + 1 }

/-- All cells of the grid in the scan order of the source: floor by floor, row
by row, column by column. -/
def allCells (mh mr mc : Nat) : List Cell :=
  (List.range mh).flatMap fun hi =>
    (List.range mr).flatMap fun ri =>
      (List.range mc).map fun ci => (hi, ri, ci)

/-- `Maze._generate_rooms`: scan all cells in order and fill unclaimed cells
with fresh rooms. -/
def generate_rooms (cfg : Config) (s : MazeState) : MazeState :=
  (allCells s.mh s.mr s.mc).foldl (genRoomAt cfg) s

/-- `[a, a+1, ..., a+n-1]`. -/
def rangeFrom (a n : Nat) : List Nat := (List.range n).map (a + ·)

/-- The outward-adjacent layer of cells scanned for direction `d` in
`_generate_maze_network` (empty when the face is at the grid boundary),
in the iteration order of the source. -/
def faceCells (s : MazeState) (r : Room) (d : Nat) : List Cell :=
  match d with
  | 0 =>
    if 0 < r.loc.1 then
      (rangeFrom r.loc.2.1 r.size.2.1).flatMap fun ri =>
        (rangeFrom r.loc.2.2 r.size.2.2).map fun ci => (r.loc.1 - 1, ri, ci)
    else []
  | 1 =>
    if r.loc.1 + r.size.1 < s.mh then
      (rangeFrom r.loc.2.1 r.size.2.1).flatMap fun ri =>
        (rangeFrom r.loc.2.2 r.size.2.2).map fun ci => (r.loc.1 + r.size.1, ri, ci)
    else []
  | 2 =>
    if 0 < r.loc.2.1 then
      (rangeFrom r.loc.1 r.size.1).flatMap fun hi =>
        (rangeFrom r.loc.2.2 r.size.2.2).map fun ci => (hi, r.loc.2.1 - 1, ci)
    else []
  | 3 =>
    if r.loc.2.1 + r.size.2.1 < s.mr then
      (rangeFrom r.loc.1 r.size.1).flatMap fun hi =>
        (rangeFrom r.loc.2.2 r.size.2.2).map fun ci => (hi, r.loc.2.1 + r.size.2.1, ci)
    else []
  | 4 =>
    if 0 < r.loc.2.2 then
      (rangeFrom r.loc.1 r.size.1).flatMap fun hi =>
        (rangeFrom r.loc.2.1 r.size.2.1).map fun ri => (hi, ri, r.loc.2.2 - 1)
    else []
  | 5 =>
    if r.loc.2.2 + r.size.2.2 < s.mc then
      (rangeFrom r.loc.1 r.size.1).flatMap fun hi =>
        (rangeFrom r.loc.2.1 r.size.2.1).map fun ri => (hi, ri, r.loc.2.2 + r.size.2.2)
    else []
  | _ => []

/-- Add as neighbours (with direction `d`) the rooms found at each cell of a
face scan list. -/
def scanFace (g : Cell → Option Int) (r : Room) (cells : List Cell) (d : Nat) : Room :=
  cells.foldl (fun acc c => acc.add_neighbor ((g c).getD (-2)) d) r

/-- One room's pass of `_generate_maze_network`: scan all six directions. -/
def build_network_room (s : MazeState) (r : Room) : Room :=
  [0, 1, 2, 3, 4, 5].foldl (fun acc d => scanFace s.maze acc (faceCells s r d) d) r

/-- `Maze._generate_maze_network`: discover the neighbours of every room. -/
def generate_maze_network (s : MazeState) : MazeState :=
  { s with rooms := s.rooms.map (build_network_room s) }

/-- `self.rooms[i]`: fetch the room with the given id (a dummy room stands in
for the source's KeyError on a missing id; never reached on the paths the
program exercises). -/
def MazeState.getRoom (s : MazeState) (i : Int) : Room :=
  (s.rooms.find? (fun r => r.id = i)).getD { loc := (0, 0, 0), size := (0, 0, 0), id := i }

/-- Write back a mutated room into the room table. -/
def replaceRoom (rooms : List Room) (r : Room) : List Room :=
  rooms.map fun x => if x.id = r.id then r else x

/-- Update of the global door registry `self.doors`: ensure a direction set at
the cell and add the pierced-axis code. -/
def upsertDoorSet (ds : List (Cell × List Nat)) (c : Cell) (dd : Nat) : List (Cell × List Nat) :=
  match alookup c ds with
  | some l => ds.map fun p => if p.1 = c then (c, if dd ∈ l then l else l ++ [dd]) else p
  | none => ds ++ [(c, [dd])]

/-- Tail of `_add_door`: record the door in the registry and in both rooms'
door maps (`room2`'s cell offset by +1 along the pierced axis). -/
def doorFinish (s : MazeState) (r1 r2 : Room) (dd : Nat) (cell : Cell) (g : RNG) : MazeState :=
  let doors2 := upsertDoorSet s.doors cell dd
  let r1a := r1.add_door r2.id cell (dd * 2 + 1)
  let cell2 : Cell :=
    if dd = 0 then (cell.1 + 1, cell.2.1, cell.2.2)
    else if dd = 1 then (cell.1, cell.2.1 + 1, cell.2.2)
    else (cell.1, cell.2.1, cell.2.2 + 1)
  let r2a := r2.add_door r1.id cell2 (dd * 2)
  { s with rooms := replaceRoom (replaceRoom s.rooms r1a) r2a, doors := doors2, rng := g }

/-- `Maze._add_door`: place a door between two neighbouring rooms.  The room
on the lower side of the pierced axis becomes `r1`; cross-axis coordinates are
drawn from the face overlap except that the height of a horizontally pierced
door is the lowest overlapping layer. -/
def add_door (s : MazeState) (room1 room2 : Room) : MazeState :=
  let direction := room1.neighbors_directions.getD (room1.neighbors.indexOf room2.id) 0
  let r1 := if direction % 2 = 0 then room2 else room1
  let r2 := if direction % 2 = 0 then room1 else room2
  let dd := direction / 2
  if dd = 0 then
    let dr0 := max r1.loc.2.1 r2.loc.2.1
    let dr1 := min (r1.loc.2.1 + r1.size.2.1) (r2.loc.2.1 + r2.size.2.1)
    let rres := randint dr0 (dr1 - 1) s.rng
    let dc0 := max r1.loc.2.2 r2.loc.2.2
    let dc1 := min (r1.loc.2.2 + r1.size.2.2) (r2.loc.2.2 + r2.size.2.2)
    let cres := randint dc0 (dc1 - 1) rres.2
    let door_h := r1.loc.1 + r1.size.1 - 1
    doorFinish s r1 r2 dd (door_h, rres.1, cres.1) cres.2
  else if dd = 1 then
    let door_h := min (r1.loc.1 + r1.size.1) (r2.loc.1 + r2.size.1) - 1
    let dc0 := max r1.loc.2.2 r2.loc.2.2
    let dc1 := min (r1.loc.2.2 + r1.size.2.2) (r2.loc.2.2 + r2.size.2.2)
    let cres := randint dc0 (dc1 - 1) s.rng
    let door_r := r1.loc.2.1 + r1.size.2.1 - 1
    doorFinish s r1 r2 dd (door_h, door_r, cres.1) cres.2
  else
    let door_h := min (r1.loc.1 + r1.size.1) (r2.loc.1 + r2.size.1) - 1
    let dr0 := max r1.loc.2.1 r2.loc.2.1
    let dr1 := min (r1.loc.2.1 + r1.size.2.1) (r2.loc.2.1 + r2.size.2.1)
    let rres := randint dr0 (dr1 - 1) s.rng
    let door_c := r1.loc.2.2 + r1.size.2.2 - 1
    doorFinish s r1 r2 dd (door_h, rres.1, door_c) rres.2

/-- Phase 1 of `_generate_spanning_tree`: randomized DFS from the start room,
stopping (and popping) when the goal surfaces at the top of the stack.  The
stack top is the list's last element, as in the source.  `fuel` dominates the
iteration count of the source loop. -/
def phase1 (fuel : Nat) (s : MazeState) (stack visited : List Int) :
    MazeState × List Int × List Int :=
  match fuel with
  | 0 => (s, stack, visited)
  | fuel + 1 =>
    match stack.getLast? with
    | none => (s, stack, visited)
    | some top =>
      if top = -1 then (s, stack.dropLast, visited)
      else
        let room := s.getRoom top
        let ns := room.neighbors.filter (fun n => decide (n ∉ visited))
        if ns.isEmpty then phase1 fuel s stack.dropLast visited
        else
          let nres := choice ns s.rng
          let nb := nres.1
          let s1 := { s with rng := nres.2, paths := (nb, top) :: s.paths }
          let s2 := add_door s1 (s1.getRoom top) (s1.getRoom nb)
          phase1 fuel s2 (stack ++ [nb]) (nb :: visited)

/-- Phase 2 of `_generate_spanning_tree`: expand the tree from a uniformly
random stack index until the frontier is exhausted. -/
def phase2 (fuel : Nat) (s : MazeState) (stack visited : List Int) :
    MazeState × List Int × List Int :=
  match fuel with
  | 0 => (s, stack, visited)
  | fuel + 1 =>
    if stack.isEmpty then (s, stack, visited)
    else
      let ires := randint 0 (stack.length - 1) s.rng
      let i := ires.1
      let s0 := { s with rng := ires.2 }
      let top := stack.getD i 0
      let room := s0.getRoom top
      let ns := room.neighbors.filter (fun n => decide (n ∉ visited))
      if ns.isEmpty then phase2 fuel s0 (stack.eraseIdx i) visited
      else
        let nres := choice ns s0.rng
        let nb := nres.1
        let s1 := { s0 with rng := nres.2, paths := (nb, top) :: s0.paths }
        let s2 := add_door s1 (s1.getRoom top) (s1.getRoom nb)
        phase2 fuel s2 (stack ++ [nb]) (nb :: visited)

/-- The backward walk producing `solution_path`: repeatedly prepend the parent
of the front room until the front is the start room.  `none` models the
source's unchecked dictionary lookup failing (or the walk not terminating). -/
def buildSolution (paths : List (Int × Int)) : Nat → List Int → Option (List Int)
  | fuel, acc =>
    match acc.head? with
    | none => none
    | some a =>
      if a = 0 then some acc
      else
        match fuel with
        | 0 => none
        | fuel + 1 => (alookup a paths).bind fun p => buildSolution paths fuel (p :: acc)

/-- `Maze._generate_spanning_tree`: seed path, tree expansion, then the
backward walk from the goal. -/
def generate_spanning_tree (s : MazeState) : MazeState :=
  let fuel := 2 * s.rooms.length + 2
  let p1 := phase1 fuel s [0] [0]
  let p2 := phase2 fuel p1.1 p1.2.1 p1.2.2
  { p2.1 with solution_path := buildSolution p2.1.paths (p2.1.rooms.length + 1) [-1] }

/-- `Maze.__init__`: the full construction pipeline. -/
def Maze.build (cfg : Config) (g : RNG) : MazeState :=
  generate_spanning_tree (generate_maze_network (generate_rooms cfg (initStage cfg g)))

/-- The state after `_generate_rooms`. -/
def roomsStage (cfg : Config) (g : RNG) : MazeState :=
  generate_rooms cfg (initStage cfg g)

/-- The state after `_generate_maze_network`. -/
def networkStage (cfg : Config) (g : RNG) : MazeState :=
  generate_maze_network (roomsStage cfg g)

/-- A room box fits inside the grid and has positive extents. -/
def boxFits (ms loc size : Cell) : Bool :=
  decide (1 ≤ size.1) && decide (1 ≤ size.2.1) && decide (1 ≤ size.2.2) &&
  decide (loc.1 + size.1 ≤ ms.1) && decide (loc.2.1 + size.2.1 ≤ ms.2.1) &&
  decide (loc.2.2 + size.2.2 ≤ ms.2.2)

/-- Two boxes are disjoint (separated on some axis). -/
def boxesApart (l1 s1 l2 s2 : Cell) : Bool :=
  decide (l1.1 + s1.1 ≤ l2.1) || decide (l2.1 + s2.1 ≤ l1.1) ||
  decide (l1.2.1 + s1.2.1 ≤ l2.2.1) || decide (l2.2.1 + s2.2.1 ≤ l1.2.1) ||
  decide (l1.2.2 + s1.2.2 ≤ l2.2.2) || decide (l2.2.2 + s2.2.2 ≤ l1.2.2)

/-- Validity of a configuration (section 6 of the specification): start and
goal rooms fit in the grid and are disjoint, `max_room_size` is positive. -/
def validConfig (cfg : Config) : Bool :=
  boxFits cfg.maze_size cfg.start_loc cfg.start_room_size &&
  boxFits cfg.maze_size cfg.goal_loc cfg.goal_room_size &&
  boxesApart cfg.start_loc cfg.start_room_size cfg.goal_loc cfg.goal_room_size &&
  decide (1 ≤ cfg.max_room_size.1) &&
  decide (1 ≤ cfg.max_room_size.2.1) &&
  decide (1 ≤ cfg.max_room_size.2.2)

end AMazeIng

namespace AMazeIng

/-! ## Generic helper lemmas -/

theorem foldl_preserves {α σ : Type _} (P : σ → Prop) (f : σ → α → σ) :
    ∀ (l : List α) (s : σ), P s → (∀ s a, a ∈ l → P s → P (f s a)) → P (l.foldl f s) := by
  intro l
  induction l with
  | nil => intro s hs _; simpa using hs
  | cons a t ih =>
    intro s hs hstep
    simpa using ih (f s a) (hstep s a (by simp) hs)
      (fun s b hb h => hstep s b (by simp [hb]) h)

theorem growLimit_lower (p : Nat → Bool) : ∀ fuel cur, cur ≤ growLimit p fuel cur := by
  intro fuel
  induction fuel with
  | zero => intro cur; simp [growLimit]
  | succ n ih =>
    intro cur
    by_cases h : p cur
    · calc cur ≤ cur + 1 := Nat.le_succ cur
        _ ≤ growLimit p n (cur + 1) := ih (cur + 1)
        _ = growLimit p (n + 1) cur := by simp [growLimit, h]
    · simp [growLimit, h]

theorem growLimit_upper (p : Nat → Bool) : ∀ fuel cur, growLimit p fuel cur ≤ cur + fuel := by
  intro fuel
  induction fuel with
  | zero => intro cur; simp [growLimit]
  | succ n ih =>
    intro cur
    by_cases h : p cur
    · calc growLimit p (n + 1) cur = growLimit p n (cur + 1) := by simp [growLimit, h]
        _ ≤ cur + 1 + n := ih (cur + 1)
        _ = cur + (n + 1) := by omega
    · rw [show growLimit p (n + 1) cur = cur from by simp [growLimit, h]]
      omega

theorem growLimit_sat (p : Nat → Bool) :
    ∀ fuel cur k, cur ≤ k → k < growLimit p fuel cur → p k = true := by
  intro fuel
  induction fuel with
  | zero => intro cur k hk hlt; simp [growLimit] at hlt; omega
  | succ n ih =>
    intro cur k hk hlt
    by_cases h : p cur
    · rcases Nat.eq_or_lt_of_le hk with heq | hlt2
      · simpa [heq] using h
      · exact ih (cur + 1) k hlt2 (by simpa [growLimit, h] using hlt)
    · simp [growLimit, h] at hlt; omega

theorem randint_mem (lo hi : Nat) (g : RNG) (h : lo ≤ hi) :
    lo ≤ (randint lo hi g).1 ∧ (randint lo hi g).1 ≤ hi := by
  constructor
  · simp [randint]
  · have hpos : 0 < hi + 1 - lo := by omega
    have := Nat.mod_lt (g 0) hpos
    simp only [randint]
    omega

theorem randint_surj (lo hi v : Nat) (h1 : lo ≤ v) (h2 : v ≤ hi) :
    ∃ g : RNG, (randint lo hi g).1 = v := by
  refine ⟨fun _ => v - lo, ?_⟩
  have : (v - lo) % (hi + 1 - lo) = v - lo := Nat.mod_eq_of_lt (by omega)
  simp only [randint, this]
  omega

theorem find?_replaceRoom_self (r : Room) :
    ∀ rooms : List Room, (∃ x ∈ rooms, x.id = r.id) →
      (replaceRoom rooms r).find? (fun x => x.id = r.id) = some r := by
  intro rooms
  induction rooms with
  | nil => simp
  | cons a t ih =>
    intro hx
    by_cases ha : a.id = r.id
    · simp [replaceRoom, ha, List.find?]
    · have : ∃ x ∈ t, x.id = r.id := by
        rcases hx with ⟨x, hx1, hx2⟩
        rcases List.mem_cons.mp hx1 with h | h
        · exact absurd (h ▸ hx2) ha
        · exact ⟨x, h, hx2⟩
      simpa [replaceRoom, List.find?, ha] using ih this

theorem find?_replaceRoom_other (r : Room) (i : Int) (hne : i ≠ r.id) :
    ∀ rooms : List Room,
      (replaceRoom rooms r).find? (fun x => x.id = i) = rooms.find? (fun x => x.id = i) := by
  intro rooms
  induction rooms with
  | nil => rfl
  | cons a t ih =>
    have hstep : replaceRoom (a :: t) r = (if a.id = r.id then r else a) :: replaceRoom t r := rfl
    rw [hstep, List.find?_cons, List.find?_cons]
    by_cases ha : a.id = r.id
    · have h1 : ¬ (r.id = i) := fun h => hne h.symm
      have h2 : ¬ (a.id = i) := by rw [ha]; exact h1
      rw [if_pos ha, decide_eq_false h1, decide_eq_false h2]
      exact ih
    · rw [if_neg ha]
      cases hd : decide (a.id = i) with
      | true => rfl
      | false => exact ih

theorem mem_replaceRoom_other {rooms : List Room} {x : Room} (r : Room)
    (hx : x ∈ rooms) (hne : x.id ≠ r.id) : x ∈ replaceRoom rooms r := by
  have : (if x.id = r.id then r else x) = x := by simp [hne]
  simpa [replaceRoom, this] using List.mem_map_of_mem (fun y => if y.id = r.id then r else y) hx

/-! ## Direction and box geometry vocabulary (for stating the claims) -/

/-- Coordinate of a cell along axis `ax` (0 = height, 1 = row, 2 = column). -/
def proj (c : Cell) (ax : Nat) : Nat :=
  match ax with
  | 0 => c.1
  | 1 => c.2.1
  | _ => c.2.2

/-- Axis of a direction code (0,1 ↦ height; 2,3 ↦ row; 4,5 ↦ column). -/
def axOf (d : Nat) : Nat := d / 2

/-- Whether a direction code points to the positive side of its axis. -/
def posOf (d : Nat) : Bool := decide (d % 2 = 1)

/-- The axis-opposite direction code. -/
def oppDir (d : Nat) : Nat := if d % 2 = 0 then d + 1 else d - 1

/-- `b` touches `a` flush along axis `ax`, on `a`'s positive side iff `pos`. -/
def touchesAt (a b : Room) (ax : Nat) (pos : Bool) : Bool :=
  if pos then decide (proj b.loc ax = proj a.loc ax + proj a.size ax)
  else decide (proj a.loc ax = proj b.loc ax + proj b.size ax)

/-- Lower end of the overlap of the two rooms' extents along axis `ax`. -/
def overlapLo (a b : Room) (ax : Nat) : Nat := max (proj a.loc ax) (proj b.loc ax)

/-- Upper end (exclusive) of the overlap of the two rooms' extents along `ax`. -/
def overlapHi (a b : Room) (ax : Nat) : Nat :=
  min (proj a.loc ax + proj a.size ax) (proj b.loc ax + proj b.size ax)

/-- The two rooms' extents overlap in at least one cell along axis `ax`. -/
def overlapsAt (a b : Room) (ax : Nat) : Bool :=
  decide (overlapLo a b ax < overlapHi a b ax)

/-- `b` shares wall area with `a` across `a`'s face `d`: flush contact on the
axis of `d` and at least one cell of overlap on both cross axes. -/
def boxAdjAt (a b : Room) (d : Nat) : Prop :=
  d < 6 ∧ touchesAt a b (axOf d) (posOf d) = true ∧
  ∀ ax, ax < 3 → ax ≠ axOf d → overlapsAt a b ax = true

/-- Shift a cell by one along axis `ax`. -/
def bumpAxis (c : Cell) (ax : Nat) : Cell :=
  match ax with
  | 0 => (c.1 + 1, c.2.1, c.2.2)
  | 1 => (c.1, c.2.1 + 1, c.2.2)
  | _ => (c.1, c.2.1, c.2.2 + 1)

/-! ## Room list well-formedness (claim C10) -/

/-- The parallel neighbour lists of a room are aligned and duplicate-free. -/
def roomWF (r : Room) : Prop :=
  r.neighbors.length = r.neighbors_directions.length ∧ r.neighbors.Nodup

/-- The two mutating operations a `Room` ever undergoes in the source. -/
inductive RoomOp where
  | addNb (nid : Int) (d : Nat)
  | addDr (nid : Int) (c : Cell) (d : Nat)

/-- Apply one mutating operation to a room. -/
def applyRoomOp (r : Room) : RoomOp → Room
  | .addNb nid d => r.add_neighbor nid d
  | .addDr nid c d => r.add_door nid c d

/-- Apply a whole construction history to a room. -/
def applyRoomOps (r : Room) (ops : List RoomOp) : Room := ops.foldl applyRoomOp r

theorem roomWF_add_neighbor {r : Room} (h : roomWF r) (nid : Int) (d : Nat) :
    roomWF (r.add_neighbor nid d) := by
  rcases h with ⟨hlen, hnd⟩
  by_cases hm : nid ∈ r.neighbors
  · simpa [Room.add_neighbor, hm] using ⟨hlen, hnd⟩
  · refine ⟨?_, ?_⟩
    · simp [Room.add_neighbor, hm, hlen]
    · have hnd2 : (r.neighbors ++ [nid]).Nodup := by
        simp [List.nodup_append, hnd, List.disjoint_singleton, hm]
      simpa [Room.add_neighbor, hm] using hnd2

theorem roomWF_add_door {r : Room} (h : roomWF r) (nid : Int) (c : Cell) (d : Nat) :
    roomWF (r.add_door nid c d) := by
  rcases h with ⟨hlen, hnd⟩
  unfold Room.add_door
  split <;> exact ⟨hlen, hnd⟩

theorem roomWF_applyRoomOps (r : Room) (h : roomWF r) (ops : List RoomOp) :
    roomWF (applyRoomOps r ops) := by
  unfold applyRoomOps
  refine foldl_preserves roomWF applyRoomOp ops r h ?_
  intro s a _ hs
  cases a with
  | addNb nid d => exact roomWF_add_neighbor hs nid d
  | addDr nid c d => exact roomWF_add_door hs nid c d

/-- All rooms currently in the table are well-formed. -/
def roomsWF (s : MazeState) : Prop := ∀ r ∈ s.rooms, roomWF r

theorem roomsWF_set_room {s : MazeState} (h : roomsWF s) (loc size : Cell) (id : Int) :
    roomsWF (s.set_room loc size id) := by
  intro r hr
  rcases List.mem_append.mp hr with h1 | h1
  · exact h r h1
  · simp at h1
    subst h1
    exact ⟨rfl, List.nodup_nil⟩

theorem genRoomAt_rooms (cfg : Config) (s : MazeState) (hi ri ci : Nat) :
    (genRoomAt cfg s (hi, ri, ci)).rooms = s.rooms ∨
    (genRoomAt cfg s (hi, ri, ci)).rooms = s.rooms ++
      [{ loc := (hi, ri, ci), size := (growRoomSize cfg s hi ri ci).1, id := s.next_id }] := by
  by_cases hocc : (s.maze (hi, ri, ci)).isSome
  · left; simp [genRoomAt, hocc]
  · right; simp [genRoomAt, hocc, MazeState.set_room]

theorem roomsWF_genRoomAt {s : MazeState} (h : roomsWF s) (cfg : Config) (cell : Cell) :
    roomsWF (genRoomAt cfg s cell) := by
  rcases cell with ⟨hi, ri, ci⟩
  intro r hr
  rcases genRoomAt_rooms cfg s hi ri ci with he | he
  · exact h r (he ▸ hr)
  · rw [he] at hr
    rcases List.mem_append.mp hr with h1 | h1
    · exact h r h1
    · simp at h1
      subst h1
      exact ⟨rfl, List.nodup_nil⟩

theorem roomsWF_generate_rooms {s : MazeState} (h : roomsWF s) (cfg : Config) :
    roomsWF (generate_rooms cfg s) := by
  unfold generate_rooms
  exact foldl_preserves roomsWF (genRoomAt cfg) _ s h
    (fun s c _ hs => roomsWF_genRoomAt hs cfg c)

theorem roomWF_scanFace {r : Room} (h : roomWF r) (g : Cell → Option Int)
    (cells : List Cell) (d : Nat) : roomWF (scanFace g r cells d) := by
  unfold scanFace
  exact foldl_preserves roomWF _ cells r h
    (fun r c _ hr => roomWF_add_neighbor hr _ _)

theorem roomWF_build_network_room {r : Room} (h : roomWF r) (s : MazeState) :
    roomWF (build_network_room s r) := by
  unfold build_network_room
  exact foldl_preserves roomWF _ _ r h
    (fun acc d _ hacc => roomWF_scanFace hacc _ _ _)

theorem roomsWF_generate_maze_network {s : MazeState} (h : roomsWF s) :
    roomsWF (generate_maze_network s) := by
  intro r hr
  simp only [generate_maze_network] at hr
  rcases List.mem_map.mp hr with ⟨r0, hr0, rfl⟩
  exact roomWF_build_network_room (h r0 hr0) s

theorem roomWF_getRoom {s : MazeState} (h : roomsWF s) (i : Int) :
    roomWF (s.getRoom i) := by
  unfold MazeState.getRoom
  cases hf : s.rooms.find? (fun r => r.id = i) with
  | none => exact ⟨rfl, List.nodup_nil⟩
  | some r => exact h r (List.mem_of_find?_eq_some hf)

theorem roomsWF_replaceRoom {s : List Room} (h : ∀ r ∈ s, roomWF r) {r : Room}
    (hr : roomWF r) : ∀ x ∈ replaceRoom s r, roomWF x := by
  intro x hx
  rcases List.mem_map.mp hx with ⟨y, hy, rfl⟩
  by_cases hid : y.id = r.id
  · simpa [hid] using hr
  · simpa [hid] using h y hy

theorem roomsWF_doorFinish {s : MazeState} (h : roomsWF s) {r1 r2 : Room}
    (h1 : roomWF r1) (h2 : roomWF r2) (dd : Nat) (cell : Cell) (g : RNG) :
    roomsWF (doorFinish s r1 r2 dd cell g) := by
  intro x hx
  simp only [doorFinish] at hx
  exact roomsWF_replaceRoom
    (roomsWF_replaceRoom h (roomWF_add_door h1 _ _ _)) (roomWF_add_door h2 _ _ _) x hx

theorem add_door_shape (s : MazeState) (room1 room2 : Room) :
    ∃ (r1 r2 : Room) (dd : Nat) (cell : Cell) (g : RNG),
      add_door s room1 room2 = doorFinish s r1 r2 dd cell g ∧
      ((r1 = room1 ∧ r2 = room2) ∨ (r1 = room2 ∧ r2 = room1)) := by
  unfold add_door
  dsimp only
  by_cases hpar :
      (room1.neighbors_directions.getD (room1.neighbors.indexOf room2.id) 0) % 2 = 0
  · simp only [if_pos hpar]
    split
    · exact ⟨_, _, _, _, _, rfl, Or.inr ⟨rfl, rfl⟩⟩
    · split
      · exact ⟨_, _, _, _, _, rfl, Or.inr ⟨rfl, rfl⟩⟩
      · exact ⟨_, _, _, _, _, rfl, Or.inr ⟨rfl, rfl⟩⟩
  · simp only [if_neg hpar]
    split
    · exact ⟨_, _, _, _, _, rfl, Or.inl ⟨rfl, rfl⟩⟩
    · split
      · exact ⟨_, _, _, _, _, rfl, Or.inl ⟨rfl, rfl⟩⟩
      · exact ⟨_, _, _, _, _, rfl, Or.inl ⟨rfl, rfl⟩⟩

theorem roomsWF_add_door {s : MazeState} (h : roomsWF s) {room1 room2 : Room}
    (h1 : roomWF room1) (h2 : roomWF room2) : roomsWF (add_door s room1 room2) := by
  obtain ⟨r1, r2, dd, cell, g, heq, hcases⟩ := add_door_shape s room1 room2
  rw [heq]
  rcases hcases with ⟨e1, e2⟩ | ⟨e1, e2⟩ <;> subst e1 <;> subst e2
  · exact roomsWF_doorFinish h h1 h2 _ _ _
  · exact roomsWF_doorFinish h h2 h1 _ _ _

/-! ### Step equations for the two spanning-tree loops -/

/-- The unexplored neighbours of the room `top` in state `s`. -/
def frontier (s : MazeState) (visited : List Int) (top : Int) : List Int :=
  (s.getRoom top).neighbors.filter (fun n => decide (n ∉ visited))

/-- The state after one expansion step of either phase: record the tree edge
`nb ↦ top` and place the door. -/
def expandStep (s : MazeState) (top nb : Int) (g : RNG) : MazeState :=
  let s1 : MazeState := { s with rng := g, paths := (nb, top) :: s.paths }
  add_door s1 (s1.getRoom top) (s1.getRoom nb)

theorem phase1_nil (n : Nat) (s : MazeState) (stack visited : List Int)
    (hl : stack.getLast? = none) :
    phase1 (n + 1) s stack visited = (s, stack, visited) := by
  simp [phase1, hl]

theorem phase1_goal_top (n : Nat) (s : MazeState) (stack visited : List Int)
    (hl : stack.getLast? = some (-1)) :
    phase1 (n + 1) s stack visited = (s, stack.dropLast, visited) := by
  simp [phase1, hl]

theorem phase1_pop (n : Nat) (s : MazeState) (stack visited : List Int) (top : Int)
    (hl : stack.getLast? = some top) (ht : ¬ top = -1)
    (hempty : (frontier s visited top).isEmpty = true) :
    phase1 (n + 1) s stack visited = phase1 n s stack.dropLast visited := by
  rw [show phase1 (n + 1) s stack visited =
    match stack.getLast? with
    | none => (s, stack, visited)
    | some top =>
      if top = -1 then (s, stack.dropLast, visited)
      else
        let ns := (s.getRoom top).neighbors.filter (fun n => decide (n ∉ visited))
        if ns.isEmpty then phase1 n s stack.dropLast visited
        else
          let nres := choice ns s.rng
          let nb := nres.1
          let s1 := { s with rng := nres.2, paths := (nb, top) :: s.paths }
          let s2 := add_door s1 (s1.getRoom top) (s1.getRoom nb)
          phase1 n s2 (stack ++ [nb]) (nb :: visited) from rfl]
  rw [hl]
  simp only [if_neg ht]
  rw [show ((s.getRoom top).neighbors.filter (fun n => decide (n ∉ visited))) =
    frontier s visited top from rfl, hempty]
  rfl

theorem phase1_push (n : Nat) (s : MazeState) (stack visited : List Int) (top : Int)
    (hl : stack.getLast? = some top) (ht : ¬ top = -1)
    (hne : (frontier s visited top).isEmpty = false) :
    phase1 (n + 1) s stack visited =
      phase1 n
        (expandStep s top (choice (frontier s visited top) s.rng).1
          (choice (frontier s visited top) s.rng).2)
        (stack ++ [(choice (frontier s visited top) s.rng).1])
        ((choice (frontier s visited top) s.rng).1 :: visited) := by
  rw [show phase1 (n + 1) s stack visited =
    match stack.getLast? with
    | none => (s, stack, visited)
    | some top =>
      if top = -1 then (s, stack.dropLast, visited)
      else
        let ns := (s.getRoom top).neighbors.filter (fun n => decide (n ∉ visited))
        if ns.isEmpty then phase1 n s stack.dropLast visited
        else
          let nres := choice ns s.rng
          let nb := nres.1
          let s1 := { s with rng := nres.2, paths := (nb, top) :: s.paths }
          let s2 := add_door s1 (s1.getRoom top) (s1.getRoom nb)
          phase1 n s2 (stack ++ [nb]) (nb :: visited) from rfl]
  rw [hl]
  simp only [if_neg ht]
  rw [show ((s.getRoom top).neighbors.filter (fun n => decide (n ∉ visited))) =
    frontier s visited top from rfl, hne]
  rfl

theorem phase2_nil (n : Nat) (s : MazeState) (stack visited : List Int)
    (hl : stack.isEmpty = true) :
    phase2 (n + 1) s stack visited = (s, stack, visited) := by
  simp [phase2, hl]

theorem phase2_pop (n : Nat) (s : MazeState) (stack visited : List Int)
    (hl : stack.isEmpty = false)
    (hempty : (frontier s visited
        (stack.getD (randint 0 (stack.length - 1) s.rng).1 0)).isEmpty = true) :
    phase2 (n + 1) s stack visited =
      phase2 n { s with rng := (randint 0 (stack.length - 1) s.rng).2 }
        (stack.eraseIdx (randint 0 (stack.length - 1) s.rng).1) visited := by
  rw [show phase2 (n + 1) s stack visited =
    (if stack.isEmpty then (s, stack, visited)
    else
      let ires := randint 0 (stack.length - 1) s.rng
      let i := ires.1
      let s0 : MazeState := { s with rng := ires.2 }
      let top := stack.getD i 0
      let ns := (s0.getRoom top).neighbors.filter (fun n => decide (n ∉ visited))
      if ns.isEmpty then phase2 n s0 (stack.eraseIdx i) visited
      else
        let nres := choice ns s0.rng
        let nb := nres.1
        let s1 : MazeState := { s0 with rng := nres.2, paths := (nb, top) :: s0.paths }
        let s2 := add_door s1 (s1.getRoom top) (s1.getRoom nb)
        phase2 n s2 (stack ++ [nb]) (nb :: visited)) from rfl]
  rw [if_neg (by simp [hl])]
  have hfr : ((MazeState.getRoom { s with rng := (randint 0 (stack.length - 1) s.rng).2 }
      (stack.getD (randint 0 (stack.length - 1) s.rng).1 0)).neighbors.filter
        (fun n => decide (n ∉ visited))) =
      frontier s visited (stack.getD (randint 0 (stack.length - 1) s.rng).1 0) := rfl
  simp only [hfr, hempty]
  rfl

theorem phase2_push (n : Nat) (s : MazeState) (stack visited : List Int)
    (hl : stack.isEmpty = false)
    (hne : (frontier s visited
        (stack.getD (randint 0 (stack.length - 1) s.rng).1 0)).isEmpty = false) :
    phase2 (n + 1) s stack visited =
      (let i := (randint 0 (stack.length - 1) s.rng).1
      let g2 := (randint 0 (stack.length - 1) s.rng).2
      let top := stack.getD i 0
      let nb := (choice (frontier s visited top) g2).1
      phase2 n
        (expandStep { s with rng := g2 } top nb (choice (frontier s visited top) g2).2)
        (stack ++ [nb]) (nb :: visited)) := by
  rw [show phase2 (n + 1) s stack visited =
    (if stack.isEmpty then (s, stack, visited)
    else
      let ires := randint 0 (stack.length - 1) s.rng
      let i := ires.1
      let s0 : MazeState := { s with rng := ires.2 }
      let top := stack.getD i 0
      let ns := (s0.getRoom top).neighbors.filter (fun n => decide (n ∉ visited))
      if ns.isEmpty then phase2 n s0 (stack.eraseIdx i) visited
      else
        let nres := choice ns s0.rng
        let nb := nres.1
        let s1 : MazeState := { s0 with rng := nres.2, paths := (nb, top) :: s0.paths }
        let s2 := add_door s1 (s1.getRoom top) (s1.getRoom nb)
        phase2 n s2 (stack ++ [nb]) (nb :: visited)) from rfl]
  rw [if_neg (by simp [hl])]
  have hfr : ((MazeState.getRoom { s with rng := (randint 0 (stack.length - 1) s.rng).2 }
      (stack.getD (randint 0 (stack.length - 1) s.rng).1 0)).neighbors.filter
        (fun n => decide (n ∉ visited))) =
      frontier s visited (stack.getD (randint 0 (stack.length - 1) s.rng).1 0) := rfl
  simp only [hfr, hne]
  rfl

theorem roomsWF_expandStep {s : MazeState} (h : roomsWF s) (top nb : Int) (g : RNG) :
    roomsWF (expandStep s top nb g) := by
  have h1 : roomsWF { s with rng := g, paths := (nb, top) :: s.paths } := h
  exact roomsWF_add_door h1 (roomWF_getRoom h1 top) (roomWF_getRoom h1 nb)

theorem roomsWF_phase1 : ∀ (fuel : Nat) (s : MazeState) (stack visited : List Int),
    roomsWF s → roomsWF (phase1 fuel s stack visited).1 := by
  intro fuel
  induction fuel with
  | zero => intro s stack visited h; simpa [phase1] using h
  | succ n ih =>
    intro s stack visited h
    cases hl : stack.getLast? with
    | none => rw [phase1_nil n s stack visited hl]; exact h
    | some top =>
      by_cases ht : top = -1
      · subst ht
        rw [phase1_goal_top n s stack visited hl]
        exact h
      · cases hfr : (frontier s visited top).isEmpty with
        | true => rw [phase1_pop n s stack visited top hl ht hfr]; exact ih _ _ _ h
        | false =>
          rw [phase1_push n s stack visited top hl ht hfr]
          exact ih _ _ _ (roomsWF_expandStep h _ _ _)

theorem roomsWF_phase2 : ∀ (fuel : Nat) (s : MazeState) (stack visited : List Int),
    roomsWF s → roomsWF (phase2 fuel s stack visited).1 := by
  intro fuel
  induction fuel with
  | zero => intro s stack visited h; simpa [phase2] using h
  | succ n ih =>
    intro s stack visited h
    cases hl : stack.isEmpty with
    | true => rw [phase2_nil n s stack visited hl]; exact h
    | false =>
      cases hfr : (frontier s visited
          (stack.getD (randint 0 (stack.length - 1) s.rng).1 0)).isEmpty with
      | true => rw [phase2_pop n s stack visited hl hfr]; exact ih _ _ _ h
      | false =>
        rw [phase2_push n s stack visited hl hfr]
        exact ih _ _ _ (roomsWF_expandStep h _ _ _)

theorem roomsWF_build (cfg : Config) (g : RNG) : roomsWF (Maze.build cfg g) := by
  have h0 : roomsWF (initStage cfg g) := by
    refine roomsWF_set_room (roomsWF_set_room ?_ _ _ _) _ _ _
    intro r hr
    simp at hr
  have h1 := roomsWF_generate_rooms h0 cfg
  have h2 := roomsWF_generate_maze_network h1
  unfold Maze.build generate_spanning_tree
  intro r hr
  exact roomsWF_phase2 _ _ _ _ (roomsWF_phase1 _ _ _ _ h2) r hr

end AMazeIng

namespace AMazeIng

/-! ## Concrete configurations and streams used for witnesses and
counterexamples -/

/-- The all-zero random stream. -/
def rngZero : RNG := fun _ => 0

/-- The all-one random stream. -/
def rngOne : RNG := fun _ => 1

/-- The concrete scenario of specification section 8: a 1×2×2 maze of four
unit rooms. -/
def cfgTiny : Config :=
  { maze_size := (1, 2, 2), start_loc := (0, 0, 0), start_room_size := (1, 1, 1),
    goal_loc := (0, 1, 1), goal_room_size := (1, 1, 1), max_room_size := (1, 1, 1) }

/-- A valid 1×1×3 configuration in which the goal room sits between the start
room and the third cell, so the room behind the goal can never join the
spanning tree. -/
def cfgBlocked : Config :=
  { maze_size := (1, 1, 3), start_loc := (0, 0, 0), start_room_size := (1, 1, 1),
    goal_loc := (0, 0, 1), goal_room_size := (1, 1, 1), max_room_size := (1, 1, 1) }

/-- A valid 1×2×3 configuration whose first generated room starts on the last
height layer, has height extent 1 and row extent 2, and grows to column
extent 2. -/
def cfgBoundary : Config :=
  { maze_size := (1, 2, 3), start_loc := (0, 0, 2), start_room_size := (1, 1, 1),
    goal_loc := (0, 1, 2), goal_room_size := (1, 1, 1), max_room_size := (1, 2, 2) }

/-! ## Claim C10: neighbour lists stay aligned and duplicate-free -/

/-- C10: every `Room`, at every point during and after construction, keeps its
`neighbors` and `neighbors_directions` lists of equal length (index-aligned)
and lists each distinct neighbour at most once: the invariant `roomWF` holds
for any history of the two mutating operations applied to a fresh room, and
for every room of every constructed maze. -/
theorem C10_neighbor_lists_wf :
    (∀ (loc size : Cell) (id : Int) (ops : List RoomOp),
        roomWF (applyRoomOps { loc := loc, size := size, id := id } ops)) ∧
    (∀ (cfg : Config) (g : RNG), ∀ r ∈ (Maze.build cfg g).rooms, roomWF r) :=
  ⟨fun loc size id ops => roomWF_applyRoomOps _ ⟨rfl, List.nodup_nil⟩ ops,
   fun cfg g r hr => roomsWF_build cfg g r hr⟩

/-- The start room of the tiny maze as it stands after full construction. -/
def roomTiny0 : Room :=
  { loc := (0, 0, 0), size := (1, 1, 1), id := 0, neighbors := [2, 1],
    neighbors_directions := [3, 5],
    doors := [(2, ((0, 0, 0), 3)), (1, ((0, 0, 0), 5))] }

/-- Witness for C10 at concrete inputs: a concrete operation history (with a
duplicate insertion) and a concrete room of the tiny constructed maze. -/
theorem C10_neighbor_lists_wf_witness :
    roomWF (applyRoomOps { loc := (0, 0, 0), size := (1, 1, 1), id := 5 }
      [RoomOp.addNb 2 3, RoomOp.addNb 2 3, RoomOp.addDr 2 (0, 0, 0) 1]) ∧
    roomWF roomTiny0 :=
  ⟨C10_neighbor_lists_wf.1 (0, 0, 0) (1, 1, 1) 5 _,
   C10_neighbor_lists_wf.2 cfgTiny rngZero roomTiny0 (by decide)⟩

/-! ## Claim C7: determinism in configuration and random stream -/

/-- C7: maze construction is a function of the configuration and the random
stream: two constructions from the same configuration and the same stream of
pseudo-random draws agree on the grid, the paths map, the door registry, the
per-room door maps and the solution path. -/
theorem C7_determinism (cfg : Config) (g1 g2 : RNG) (h : g1 = g2) :
    (Maze.build cfg g1).maze = (Maze.build cfg g2).maze ∧
    (Maze.build cfg g1).paths = (Maze.build cfg g2).paths ∧
    (Maze.build cfg g1).doors = (Maze.build cfg g2).doors ∧
    (Maze.build cfg g1).rooms.map (fun r => (r.id, r.doors)) =
      (Maze.build cfg g2).rooms.map (fun r => (r.id, r.doors)) ∧
    (Maze.build cfg g1).solution_path = (Maze.build cfg g2).solution_path := by
  subst h
  exact ⟨rfl, rfl, rfl, rfl, rfl⟩

/-- Witness for C7 at the tiny configuration and the all-zero stream. -/
theorem C7_determinism_witness :
    (Maze.build cfgTiny rngZero).maze = (Maze.build cfgTiny rngZero).maze ∧
    (Maze.build cfgTiny rngZero).paths = (Maze.build cfgTiny rngZero).paths ∧
    (Maze.build cfgTiny rngZero).doors = (Maze.build cfgTiny rngZero).doors ∧
    (Maze.build cfgTiny rngZero).rooms.map (fun r => (r.id, r.doors)) =
      (Maze.build cfgTiny rngZero).rooms.map (fun r => (r.id, r.doors)) ∧
    (Maze.build cfgTiny rngZero).solution_path =
      (Maze.build cfgTiny rngZero).solution_path :=
  C7_determinism cfgTiny rngZero rngZero rfl

/-! ## Claim C1: the paths map need not cover every room (code bug) -/

/-- C1 (failing input): on the valid configuration `cfgBlocked` the goal room
sits between the start room and room 1, the goal is popped by phase 1 and
never expanded, so room 1 — present in the grid — never receives a `paths`
entry.  This contradicts the claim (and the source's own docstring) that the
spanning tree connects all the rooms. -/
theorem C1_goal_blocks_coverage :
    validConfig cfgBlocked = true ∧
    (Maze.build cfgBlocked rngZero).maze (0, 0, 2) = some 1 ∧
    alookup 1 (Maze.build cfgBlocked rngZero).paths = none := by decide

/-! ## Claim C4: the column-extent special case (corrected) -/

/-- The column extent is forced to 1 in the single-unit-extent branch exactly
when the start cell is away from the last height layer and the last row. -/
theorem growC_forced (cfg : Config) (s : MazeState) (hi ri ci room_h room_r : Nat) (g : RNG)
    (hx : (room_h = 1 ∧ ¬ room_r = 1) ∨ (¬ room_h = 1 ∧ room_r = 1))
    (hb1 : ¬ hi = s.mh - 1) (hb2 : ¬ ri = s.mr - 1) :
    (growC cfg s hi ri ci room_h room_r g).1 = 1 := by
  have h11 : ¬ (room_h = 1 ∧ room_r = 1) := by
    rcases hx with ⟨h1, h2⟩ | ⟨h1, h2⟩
    · exact fun hc => h2 hc.2
    · exact fun hc => h1 hc.1
  have h1or : room_h = 1 ∨ room_r = 1 := by
    rcases hx with ⟨h1, _⟩ | ⟨_, h2⟩
    · exact Or.inl h1
    · exact Or.inr h2
  have hbor : ¬ (hi = s.mh - 1 ∨ ri = s.mr - 1) := by
    rintro (h | h)
    · exact hb1 h
    · exact hb2 h
  simp [growC, h11, h1or, hbor]

/-- C4 (amended): in the partitioner's column-extent stage, for a room grown
at an unclaimed cell whose chosen height and row extents have exactly one
equal to 1, the column extent is forced to 1 precisely when the cell is *not*
on the last height layer and *not* on the last row (when it is, the column
extent instead grows greedily and can exceed 1). -/
theorem C4_column_forced (cfg : Config) (s : MazeState) (hi ri ci : Nat)
    (hfree : s.maze (hi, ri, ci) = none)
    (hb1 : ¬ hi = s.mh - 1) (hb2 : ¬ ri = s.mr - 1) :
    ∀ r ∈ (genRoomAt cfg s (hi, ri, ci)).rooms, r ∉ s.rooms →
      ((r.size.1 = 1 ∧ ¬ r.size.2.1 = 1) ∨ (¬ r.size.1 = 1 ∧ r.size.2.1 = 1)) →
      r.size.2.2 = 1 := by
  intro r hr hnew hx
  rcases genRoomAt_rooms cfg s hi ri ci with he | he
  · exact absurd (he ▸ hr) hnew
  · rw [he] at hr
    rcases List.mem_append.mp hr with h1 | h1
    · exact absurd h1 hnew
    · simp only [List.mem_singleton] at h1
      subst h1
      simp only [growRoomSize] at hx ⊢
      exact growC_forced cfg s hi ri ci _ _ _ hx hb1 hb2

/-- A 2×2×2 configuration with start and goal rooms in opposite corners. -/
def cfgCube : Config :=
  { maze_size := (2, 2, 2), start_loc := (0, 0, 0), start_room_size := (1, 1, 1),
    goal_loc := (1, 1, 1), goal_room_size := (1, 1, 1), max_room_size := (2, 2, 2) }

/-- Witness for C4 (amended) at a concrete state: the interior cell (0,0,1)
of a 2×2×2 maze right after start/goal placement. -/
theorem C4_column_forced_witness :
    (initStage cfgCube rngZero).maze (0, 0, 1) = none ∧
    (∀ r ∈ (genRoomAt cfgCube (initStage cfgCube rngZero) (0, 0, 1)).rooms,
      r ∉ (initStage cfgCube rngZero).rooms →
      ((r.size.1 = 1 ∧ ¬ r.size.2.1 = 1) ∨ (¬ r.size.1 = 1 ∧ r.size.2.1 = 1)) →
      r.size.2.2 = 1) :=
  ⟨by decide, C4_column_forced cfgCube (initStage cfgCube rngZero) 0 0 1
    (by decide) (by decide) (by decide)⟩

/-- C4 (counterexample to the claim as stated): on the valid configuration
`cfgBoundary`, the generated room 1 has height extent 1 and row extent 2
(exactly one equal to 1), touches the outer boundary of the non-unit row
dimension on both sides (and of the height dimension too), yet its column
extent is 2, not 1 — because its start cell lies on the last height layer, the
code grows the column extent greedily rather than forcing it to 1. -/
theorem C4_boundary_not_forced :
    validConfig cfgBoundary = true ∧
    ∃ r ∈ (roomsStage cfgBoundary rngOne).rooms,
      r.id = 1 ∧ r.size.1 = 1 ∧ r.size.2.1 = 2 ∧
      r.loc.1 = 0 ∧ r.loc.1 + r.size.1 = (roomsStage cfgBoundary rngOne).mh ∧
      r.loc.2.1 = 0 ∧ r.loc.2.1 + r.size.2.1 = (roomsStage cfgBoundary rngOne).mr ∧
      ¬ r.size.2.2 = 1 := by decide

end AMazeIng

namespace AMazeIng

/-! ## Door recording lemmas (towards claim C3) -/

theorem alookup_map_replace {α β : Type _} [DecidableEq α] (k : α) (v : β) :
    ∀ l : List (α × β),
      alookup k (l.map (fun p => if p.1 = k then (k, v) else p)) =
        if (alookup k l).isSome then some v else none := by
  intro l
  induction l with
  | nil => simp [alookup]
  | cons a t ih =>
    by_cases ha : a.1 = k
    · simp [alookup, ha]
    · simp [alookup, ha, ih]

theorem alookup_append_single {α β : Type _} [DecidableEq α] (k : α) (v : β) :
    ∀ l : List (α × β), alookup k l = none → alookup k (l ++ [(k, v)]) = some v := by
  intro l
  induction l with
  | nil => intro _; simp [alookup]
  | cons a t ih =>
    intro h
    by_cases ha : a.1 = k
    · simp [alookup, ha] at h
    · simp [alookup, ha] at h ⊢
      exact ih h

theorem alookup_append_other {α β : Type _} [DecidableEq α] (k k2 : α) (v : β)
    (hne : k2 ≠ k) :
    ∀ l : List (α × β), alookup k (l ++ [(k2, v)]) = alookup k l := by
  intro l
  induction l with
  | nil => simp [alookup, hne]
  | cons a t ih =>
    by_cases ha : a.1 = k
    · simp [alookup, ha]
    · simp [alookup, ha, ih]

theorem add_door_lookup (r : Room) (nid : Int) (loc : Cell) (d : Nat) :
    alookup nid (r.add_door nid loc d).doors = some (loc, d) := by
  unfold Room.add_door
  split
  · next h =>
    show alookup nid (r.doors.map (fun p => if p.1 = nid then (nid, (loc, d)) else p)) =
      some (loc, d)
    rw [alookup_map_replace nid (loc, d) r.doors, if_pos h]
  · next h =>
    show alookup nid (r.doors ++ [(nid, (loc, d))]) = some (loc, d)
    have hn : alookup nid r.doors = none := by
      cases hx : alookup nid r.doors
      · rfl
      · rw [hx] at h; simp at h
    exact alookup_append_single nid (loc, d) r.doors hn

theorem add_door_id (r : Room) (nid : Int) (loc : Cell) (d : Nat) :
    (r.add_door nid loc d).id = r.id := by
  unfold Room.add_door
  split <;> rfl

theorem getRoom_of_find {s : MazeState} {i : Int} {r : Room}
    (h : s.rooms.find? (fun x => x.id = i) = some r) : s.getRoom i = r := by
  unfold MazeState.getRoom
  rw [h]
  rfl

theorem doorCell2_eq (cell : Cell) (dd : Nat) :
    (if dd = 0 then (cell.1 + 1, cell.2.1, cell.2.2)
     else if dd = 1 then (cell.1, cell.2.1 + 1, cell.2.2)
     else (cell.1, cell.2.1, cell.2.2 + 1)) = bumpAxis cell dd := by
  match dd with
  | 0 => rfl
  | 1 => rfl
  | n + 2 => rfl

theorem doorFinish_rooms (s : MazeState) (r1 r2 : Room) (dd : Nat) (cell : Cell) (g : RNG) :
    (doorFinish s r1 r2 dd cell g).rooms =
      replaceRoom (replaceRoom s.rooms (r1.add_door r2.id cell (dd * 2 + 1)))
        (r2.add_door r1.id (bumpAxis cell dd) (dd * 2)) := by
  unfold doorFinish
  dsimp only
  rw [doorCell2_eq]

theorem doorFinish_getRoom1 (s : MazeState) (r1 r2 : Room) (dd : Nat) (cell : Cell) (g : RNG)
    (h1 : ∃ x ∈ s.rooms, x.id = r1.id) (hne : r1.id ≠ r2.id) :
    (doorFinish s r1 r2 dd cell g).getRoom r1.id =
      r1.add_door r2.id cell (dd * 2 + 1) := by
  have hid1 : (r1.add_door r2.id cell (dd * 2 + 1)).id = r1.id := add_door_id r1 _ _ _
  apply getRoom_of_find
  rw [doorFinish_rooms]
  rw [find?_replaceRoom_other (r2.add_door r1.id (bumpAxis cell dd) (dd * 2)) r1.id
    (by rw [add_door_id]; exact hne)]
  have hmem : ∃ x ∈ s.rooms, x.id = (r1.add_door r2.id cell (dd * 2 + 1)).id := by
    rcases h1 with ⟨x, hx, hxid⟩
    exact ⟨x, hx, by rw [hid1, hxid]⟩
  have hfind := find?_replaceRoom_self (r1.add_door r2.id cell (dd * 2 + 1)) s.rooms hmem
  rw [hid1] at hfind
  exact hfind

theorem doorFinish_getRoom2 (s : MazeState) (r1 r2 : Room) (dd : Nat) (cell : Cell) (g : RNG)
    (h2 : ∃ x ∈ s.rooms, x.id = r2.id) (hne : r1.id ≠ r2.id) :
    (doorFinish s r1 r2 dd cell g).getRoom r2.id =
      r2.add_door r1.id (bumpAxis cell dd) (dd * 2) := by
  have hid2 : (r2.add_door r1.id (bumpAxis cell dd) (dd * 2)).id = r2.id :=
    add_door_id r2 _ _ _
  apply getRoom_of_find
  rw [doorFinish_rooms]
  have hmem : ∃ x ∈ replaceRoom s.rooms (r1.add_door r2.id cell (dd * 2 + 1)),
      x.id = (r2.add_door r1.id (bumpAxis cell dd) (dd * 2)).id := by
    rcases h2 with ⟨x, hx, hxid⟩
    refine ⟨x, ?_, by rw [hid2, hxid]⟩
    apply mem_replaceRoom_other _ hx
    rw [hxid, add_door_id]
    exact fun h => hne h.symm
  have hfind := find?_replaceRoom_self (r2.add_door r1.id (bumpAxis cell dd) (dd * 2))
    (replaceRoom s.rooms (r1.add_door r2.id cell (dd * 2 + 1))) hmem
  rw [hid2] at hfind
  exact hfind

end AMazeIng

namespace AMazeIng

/-- `_add_door` with the looked-up direction made explicit (definitionally the
body of `add_door` after the `direction` lookup). -/
def addDoorWith (s : MazeState) (room1 room2 : Room) (direction : Nat) : MazeState :=
  let r1 := if direction % 2 = 0 then room2 else room1
  let r2 := if direction % 2 = 0 then room1 else room2
  let dd := direction / 2
  if dd = 0 then
    let dr0 := max r1.loc.2.1 r2.loc.2.1
    let dr1 := min (r1.loc.2.1 + r1.size.2.1) (r2.loc.2.1 + r2.size.2.1)
    let rres := randint dr0 (dr1 - 1) s.rng
    let dc0 := max r1.loc.2.2 r2.loc.2.2
    let dc1 := min (r1.loc.2.2 + r1.size.2.2) (r2.loc.2.2 + r2.size.2.2)
    let cres := randint dc0 (dc1 - 1) rres.2
    let door_h := r1.loc.1 + r1.size.1 - 1
    doorFinish s r1 r2 dd (door_h, rres.1, cres.1) cres.2
  else if dd = 1 then
    let door_h := min (r1.loc.1 + r1.size.1) (r2.loc.1 + r2.size.1) - 1
    let dc0 := max r1.loc.2.2 r2.loc.2.2
    let dc1 := min (r1.loc.2.2 + r1.size.2.2) (r2.loc.2.2 + r2.size.2.2)
    let cres := randint dc0 (dc1 - 1) s.rng
    let door_r := r1.loc.2.1 + r1.size.2.1 - 1
    doorFinish s r1 r2 dd (door_h, door_r, cres.1) cres.2
  else
    let door_h := min (r1.loc.1 + r1.size.1) (r2.loc.1 + r2.size.1) - 1
    let dr0 := max r1.loc.2.1 r2.loc.2.1
    let dr1 := min (r1.loc.2.1 + r1.size.2.1) (r2.loc.2.1 + r2.size.2.1)
    let rres := randint dr0 (dr1 - 1) s.rng
    let door_c := r1.loc.2.2 + r1.size.2.2 - 1
    doorFinish s r1 r2 dd (door_h, rres.1, door_c) rres.2

theorem add_door_eq_addDoorWith (s : MazeState) (room1 room2 : Room) :
    add_door s room1 room2 = addDoorWith s room1 room2
      (room1.neighbors_directions.getD (room1.neighbors.indexOf room2.id) 0) := rfl

theorem doorFinish_records (s : MazeState) (r1 r2 : Room) (dd : Nat) (cell : Cell) (g : RNG)
    (h1 : ∃ x ∈ s.rooms, x.id = r1.id) (h2 : ∃ x ∈ s.rooms, x.id = r2.id)
    (hne : r1.id ≠ r2.id) :
    alookup r2.id ((doorFinish s r1 r2 dd cell g).getRoom r1.id).doors =
      some (cell, dd * 2 + 1) ∧
    alookup r1.id ((doorFinish s r1 r2 dd cell g).getRoom r2.id).doors =
      some (bumpAxis cell dd, dd * 2) := by
  constructor
  · rw [doorFinish_getRoom1 s r1 r2 dd cell g h1 hne]
    exact add_door_lookup r1 r2.id cell (dd * 2 + 1)
  · rw [doorFinish_getRoom2 s r1 r2 dd cell g h2 hne]
    exact add_door_lookup r2 r1.id (bumpAxis cell dd) (dd * 2)

/-- The conclusion of claim C3 (amended), as a predicate of the two argument
rooms, the normalized pair, the pierced-axis code `dd` and the stream. -/
def doorSpec (s : MazeState) (room1 room2 r1 r2 : Room) (dd : Nat) (g : RNG) : Prop :=
  (∃ cell : Cell,
    alookup r2.id ((add_door { s with rng := g } room1 room2).getRoom r1.id).doors =
      some (cell, dd * 2 + 1) ∧
    alookup r1.id ((add_door { s with rng := g } room1 room2).getRoom r2.id).doors =
      some (bumpAxis cell dd, dd * 2) ∧
    proj cell dd = proj r1.loc dd + proj r1.size dd - 1 ∧
    proj (bumpAxis cell dd) dd = proj r2.loc dd ∧
    (∀ ax, ax < 3 → ax ≠ dd →
      overlapLo r1 r2 ax ≤ proj cell ax ∧ proj cell ax < overlapHi r1 r2 ax) ∧
    (¬ dd = 0 → cell.1 = overlapHi r1 r2 0 - 1)) ∧
  (dd = 0 → ∀ vr vc, overlapLo r1 r2 1 ≤ vr → vr < overlapHi r1 r2 1 →
    overlapLo r1 r2 2 ≤ vc → vc < overlapHi r1 r2 2 →
    ∃ g2 : RNG,
      alookup r2.id ((add_door { s with rng := g2 } room1 room2).getRoom r1.id).doors =
        some ((proj r1.loc 0 + proj r1.size 0 - 1, vr, vc), 1)) ∧
  (dd = 1 → ∀ vc, overlapLo r1 r2 2 ≤ vc → vc < overlapHi r1 r2 2 →
    ∃ g2 : RNG,
      alookup r2.id ((add_door { s with rng := g2 } room1 room2).getRoom r1.id).doors =
        some ((overlapHi r1 r2 0 - 1, proj r1.loc 1 + proj r1.size 1 - 1, vc), 3)) ∧
  (dd = 2 → ∀ vr, overlapLo r1 r2 1 ≤ vr → vr < overlapHi r1 r2 1 →
    ∃ g2 : RNG,
      alookup r2.id ((add_door { s with rng := g2 } room1 room2).getRoom r1.id).doors =
        some ((overlapHi r1 r2 0 - 1, vr, proj r1.loc 2 + proj r1.size 2 - 1), 5))

theorem C3core1 (s : MazeState) (room1 room2 r1 r2 : Room) (g : RNG)
    (h1x : ∃ x ∈ s.rooms, x.id = r1.id) (h2x : ∃ x ∈ s.rooms, x.id = r2.id)
    (hne : r1.id ≠ r2.id)
    (htouch : proj r2.loc 1 = proj r1.loc 1 + proj r1.size 1)
    (hov0 : overlapLo r1 r2 0 < overlapHi r1 r2 0)
    (hov2 : overlapLo r1 r2 2 < overlapHi r1 r2 2)
    (hsz : 1 ≤ proj r1.size 1)
    (hrun : ∀ gx : RNG, add_door { s with rng := gx } room1 room2 =
      doorFinish { s with rng := gx } r1 r2 1
        (overlapHi r1 r2 0 - 1, proj r1.loc 1 + proj r1.size 1 - 1,
          (randint (overlapLo r1 r2 2) (overlapHi r1 r2 2 - 1) gx).1)
        (randint (overlapLo r1 r2 2) (overlapHi r1 r2 2 - 1) gx).2) :
    doorSpec s room1 room2 r1 r2 1 g := by
  have hlo12 : overlapLo r1 r2 2 ≤ overlapHi r1 r2 2 - 1 := by omega
  refine ⟨?_, fun h => absurd h (by decide), ?_, fun h => absurd h (by decide)⟩
  · refine ⟨(overlapHi r1 r2 0 - 1, proj r1.loc 1 + proj r1.size 1 - 1,
      (randint (overlapLo r1 r2 2) (overlapHi r1 r2 2 - 1) g).1), ?_, ?_, ?_, ?_, ?_, ?_⟩
    · rw [hrun g]
      exact (doorFinish_records _ r1 r2 1 _ _ h1x h2x hne).1
    · rw [hrun g]
      exact (doorFinish_records _ r1 r2 1 _ _ h1x h2x hne).2
    · rfl
    · show proj r1.loc 1 + proj r1.size 1 - 1 + 1 = proj r2.loc 1
      omega
    · intro ax hax hne1
      match ax, hax with
      | 0, _ =>
        show overlapLo r1 r2 0 ≤ overlapHi r1 r2 0 - 1 ∧ overlapHi r1 r2 0 - 1 < overlapHi r1 r2 0
        omega
      | 1, _ => exact absurd rfl hne1
      | 2, _ =>
        have hm := randint_mem (overlapLo r1 r2 2) (overlapHi r1 r2 2 - 1) g hlo12
        refine ⟨hm.1, ?_⟩
        show (randint (overlapLo r1 r2 2) (overlapHi r1 r2 2 - 1) g).1 < overlapHi r1 r2 2
        omega
    · intro _
      rfl
  · intro _ vc hlo hhi
    refine ⟨fun _ => vc - overlapLo r1 r2 2, ?_⟩
    have hv : (randint (overlapLo r1 r2 2) (overlapHi r1 r2 2 - 1)
        (fun _ => vc - overlapLo r1 r2 2)).1 = vc := by
      show overlapLo r1 r2 2 + (vc - overlapLo r1 r2 2) %
        (overlapHi r1 r2 2 - 1 + 1 - overlapLo r1 r2 2) = vc
      rw [Nat.mod_eq_of_lt (by omega)]
      omega
    rw [hrun (fun _ => vc - overlapLo r1 r2 2), hv]
    exact (doorFinish_records _ r1 r2 1 _ _ h1x h2x hne).1

end AMazeIng

namespace AMazeIng

theorem overlapLo_comm (a b : Room) (ax : Nat) : overlapLo a b ax = overlapLo b a ax :=
  Nat.max_comm _ _

theorem overlapHi_comm (a b : Room) (ax : Nat) : overlapHi a b ax = overlapHi b a ax :=
  Nat.min_comm _ _

theorem C3core0 (s : MazeState) (room1 room2 r1 r2 : Room) (g : RNG)
    (h1x : ∃ x ∈ s.rooms, x.id = r1.id) (h2x : ∃ x ∈ s.rooms, x.id = r2.id)
    (hne : r1.id ≠ r2.id)
    (htouch : proj r2.loc 0 = proj r1.loc 0 + proj r1.size 0)
    (hov1 : overlapLo r1 r2 1 < overlapHi r1 r2 1)
    (hov2 : overlapLo r1 r2 2 < overlapHi r1 r2 2)
    (hsz : 1 ≤ proj r1.size 0)
    (hrun : ∀ gx : RNG, add_door { s with rng := gx } room1 room2 =
      doorFinish { s with rng := gx } r1 r2 0
        (proj r1.loc 0 + proj r1.size 0 - 1,
          (randint (overlapLo r1 r2 1) (overlapHi r1 r2 1 - 1) gx).1,
          (randint (overlapLo r1 r2 2) (overlapHi r1 r2 2 - 1)
            (randint (overlapLo r1 r2 1) (overlapHi r1 r2 1 - 1) gx).2).1)
        (randint (overlapLo r1 r2 2) (overlapHi r1 r2 2 - 1)
          (randint (overlapLo r1 r2 1) (overlapHi r1 r2 1 - 1) gx).2).2) :
    doorSpec s room1 room2 r1 r2 0 g := by
  have hlo1 : overlapLo r1 r2 1 ≤ overlapHi r1 r2 1 - 1 := by omega
  have hlo2 : overlapLo r1 r2 2 ≤ overlapHi r1 r2 2 - 1 := by omega
  refine ⟨?_, ?_, fun h => absurd h (by decide), fun h => absurd h (by decide)⟩
  · refine ⟨(proj r1.loc 0 + proj r1.size 0 - 1,
      (randint (overlapLo r1 r2 1) (overlapHi r1 r2 1 - 1) g).1,
      (randint (overlapLo r1 r2 2) (overlapHi r1 r2 2 - 1)
        (randint (overlapLo r1 r2 1) (overlapHi r1 r2 1 - 1) g).2).1), ?_, ?_, ?_, ?_, ?_, ?_⟩
    · rw [hrun g]
      exact (doorFinish_records _ r1 r2 0 _ _ h1x h2x hne).1
    · rw [hrun g]
      exact (doorFinish_records _ r1 r2 0 _ _ h1x h2x hne).2
    · rfl
    · show proj r1.loc 0 + proj r1.size 0 - 1 + 1 = proj r2.loc 0
      omega
    · intro ax hax hne0
      match ax, hax with
      | 0, _ => exact absurd rfl hne0
      | 1, _ =>
        have hm := randint_mem (overlapLo r1 r2 1) (overlapHi r1 r2 1 - 1) g hlo1
        refine ⟨hm.1, ?_⟩
        show (randint (overlapLo r1 r2 1) (overlapHi r1 r2 1 - 1) g).1 < overlapHi r1 r2 1
        omega
      | 2, _ =>
        have hm := randint_mem (overlapLo r1 r2 2) (overlapHi r1 r2 2 - 1)
          (randint (overlapLo r1 r2 1) (overlapHi r1 r2 1 - 1) g).2 hlo2
        refine ⟨hm.1, ?_⟩
        show (randint (overlapLo r1 r2 2) (overlapHi r1 r2 2 - 1)
          (randint (overlapLo r1 r2 1) (overlapHi r1 r2 1 - 1) g).2).1 < overlapHi r1 r2 2
        omega
    · intro h
      exact absurd rfl h
  · intro _ vr vc hlor hhir hloc hhic
    refine ⟨fun i => if i = 0 then vr - overlapLo r1 r2 1 else vc - overlapLo r1 r2 2, ?_⟩
    have hv1 : (randint (overlapLo r1 r2 1) (overlapHi r1 r2 1 - 1)
        (fun i => if i = 0 then vr - overlapLo r1 r2 1 else vc - overlapLo r1 r2 2)).1 = vr := by
      show overlapLo r1 r2 1 +
        (if (0 : Nat) = 0 then vr - overlapLo r1 r2 1 else vc - overlapLo r1 r2 2) %
          (overlapHi r1 r2 1 - 1 + 1 - overlapLo r1 r2 1) = vr
      rw [if_pos rfl, Nat.mod_eq_of_lt (by omega)]
      omega
    have hv2 : (randint (overlapLo r1 r2 2) (overlapHi r1 r2 2 - 1)
        (randint (overlapLo r1 r2 1) (overlapHi r1 r2 1 - 1)
          (fun i => if i = 0 then vr - overlapLo r1 r2 1 else vc - overlapLo r1 r2 2)).2).1 = vc := by
      show overlapLo r1 r2 2 +
        (if (0 : Nat) + 1 = 0 then vr - overlapLo r1 r2 1 else vc - overlapLo r1 r2 2) %
          (overlapHi r1 r2 2 - 1 + 1 - overlapLo r1 r2 2) = vc
      rw [if_neg (by omega), Nat.mod_eq_of_lt (by omega)]
      omega
    rw [hrun (fun i => if i = 0 then vr - overlapLo r1 r2 1 else vc - overlapLo r1 r2 2),
      hv1, hv2]
    exact (doorFinish_records _ r1 r2 0 _ _ h1x h2x hne).1

theorem C3core2 (s : MazeState) (room1 room2 r1 r2 : Room) (g : RNG)
    (h1x : ∃ x ∈ s.rooms, x.id = r1.id) (h2x : ∃ x ∈ s.rooms, x.id = r2.id)
    (hne : r1.id ≠ r2.id)
    (htouch : proj r2.loc 2 = proj r1.loc 2 + proj r1.size 2)
    (hov0 : overlapLo r1 r2 0 < overlapHi r1 r2 0)
    (hov1 : overlapLo r1 r2 1 < overlapHi r1 r2 1)
    (hsz : 1 ≤ proj r1.size 2)
    (hrun : ∀ gx : RNG, add_door { s with rng := gx } room1 room2 =
      doorFinish { s with rng := gx } r1 r2 2
        (overlapHi r1 r2 0 - 1,
          (randint (overlapLo r1 r2 1) (overlapHi r1 r2 1 - 1) gx).1,
          proj r1.loc 2 + proj r1.size 2 - 1)
        (randint (overlapLo r1 r2 1) (overlapHi r1 r2 1 - 1) gx).2) :
    doorSpec s room1 room2 r1 r2 2 g := by
  have hlo1 : overlapLo r1 r2 1 ≤ overlapHi r1 r2 1 - 1 := by omega
  refine ⟨?_, fun h => absurd h (by decide), fun h => absurd h (by decide), ?_⟩
  · refine ⟨(overlapHi r1 r2 0 - 1,
      (randint (overlapLo r1 r2 1) (overlapHi r1 r2 1 - 1) g).1,
      proj r1.loc 2 + proj r1.size 2 - 1), ?_, ?_, ?_, ?_, ?_, ?_⟩
    · rw [hrun g]
      exact (doorFinish_records _ r1 r2 2 _ _ h1x h2x hne).1
    · rw [hrun g]
      exact (doorFinish_records _ r1 r2 2 _ _ h1x h2x hne).2
    · rfl
    · show proj r1.loc 2 + proj r1.size 2 - 1 + 1 = proj r2.loc 2
      omega
    · intro ax hax hne2
      match ax, hax with
      | 0, _ =>
        show overlapLo r1 r2 0 ≤ overlapHi r1 r2 0 - 1 ∧
          overlapHi r1 r2 0 - 1 < overlapHi r1 r2 0
        omega
      | 1, _ =>
        have hm := randint_mem (overlapLo r1 r2 1) (overlapHi r1 r2 1 - 1) g hlo1
        refine ⟨hm.1, ?_⟩
        show (randint (overlapLo r1 r2 1) (overlapHi r1 r2 1 - 1) g).1 < overlapHi r1 r2 1
        omega
      | 2, _ => exact absurd rfl hne2
    · intro _
      rfl
  · intro _ vr hlo hhi
    refine ⟨fun _ => vr - overlapLo r1 r2 1, ?_⟩
    have hv : (randint (overlapLo r1 r2 1) (overlapHi r1 r2 1 - 1)
        (fun _ => vr - overlapLo r1 r2 1)).1 = vr := by
      show overlapLo r1 r2 1 + (vr - overlapLo r1 r2 1) %
        (overlapHi r1 r2 1 - 1 + 1 - overlapLo r1 r2 1) = vr
      rw [Nat.mod_eq_of_lt (by omega)]
      omega
    rw [hrun (fun _ => vr - overlapLo r1 r2 1), hv]
    exact (doorFinish_records _ r1 r2 2 _ _ h1x h2x hne).1

end AMazeIng

namespace AMazeIng

/-- C3 (amended): for a tree edge between `room1` and `room2` whose recorded
direction is `d` and whose boxes share a wall across face `d`, the door placed
by `_add_door` is recorded in both rooms' door maps; with `r1` the room on the
lower side of the pierced axis (code parity normalization) and `r2` the other:
the pierced-axis coordinate of the door cell is `r1`'s far boundary
(`loc+size-1`), offset by +1 on `r2`'s side; every cross-axis coordinate lies
inside the overlap of the shared face; when the pierced axis is the height
both cross-axis coordinates are drawn from the overlap and every value pair in
the overlap is attainable by some random stream; when the pierced axis is the
row or the column, only the other horizontal cross-axis is drawn at random
(every overlap value attainable), while the height coordinate is
deterministically the lowest overlapping layer (`min` of the two height ends,
minus 1). -/
theorem C3_door_placement (s : MazeState) (room1 room2 r1 r2 : Room) (d dd : Nat) (g : RNG)
    (h1 : room1 ∈ s.rooms) (h2 : room2 ∈ s.rooms) (hne : room1.id ≠ room2.id)
    (hdir : room1.neighbors_directions.getD (room1.neighbors.indexOf room2.id) 0 = d)
    (hadj : boxAdjAt room1 room2 d)
    (hsz1 : ∀ ax, ax < 3 → 1 ≤ proj room1.size ax)
    (hsz2 : ∀ ax, ax < 3 → 1 ≤ proj room2.size ax)
    (hr1 : r1 = if d % 2 = 0 then room2 else room1)
    (hr2 : r2 = if d % 2 = 0 then room1 else room2)
    (hdd : dd = d / 2) :
    doorSpec s room1 room2 r1 r2 dd g := by
  have hd6 : d < 6 := hadj.1
  obtain ⟨-, htch, hovs⟩ := hadj
  subst hr1
  subst hr2
  subst hdd
  interval_cases d
  · show doorSpec s room1 room2 room2 room1 0 g
    have ho1 := hovs 1 (by decide) (by decide)
    have ho2 := hovs 2 (by decide) (by decide)
    simp only [overlapsAt, decide_eq_true_eq] at ho1 ho2
    simp [touchesAt, axOf, posOf] at htch
    refine C3core0 s room1 room2 room2 room1 g ⟨room2, h2, rfl⟩ ⟨room1, h1, rfl⟩
      (Ne.symm hne) htch ?_ ?_ (hsz2 0 (by decide)) ?_
    · rw [overlapLo_comm room2 room1 1, overlapHi_comm room2 room1 1]
      exact ho1
    · rw [overlapLo_comm room2 room1 2, overlapHi_comm room2 room1 2]
      exact ho2
    · intro gx
      rw [add_door_eq_addDoorWith, hdir]
      rfl
  · show doorSpec s room1 room2 room1 room2 0 g
    have ho1 := hovs 1 (by decide) (by decide)
    have ho2 := hovs 2 (by decide) (by decide)
    simp only [overlapsAt, decide_eq_true_eq] at ho1 ho2
    simp [touchesAt, axOf, posOf] at htch
    refine C3core0 s room1 room2 room1 room2 g ⟨room1, h1, rfl⟩ ⟨room2, h2, rfl⟩
      hne htch ho1 ho2 (hsz1 0 (by decide)) ?_
    intro gx
    rw [add_door_eq_addDoorWith, hdir]
    rfl
  · show doorSpec s room1 room2 room2 room1 1 g
    have ho0 := hovs 0 (by decide) (by decide)
    have ho2 := hovs 2 (by decide) (by decide)
    simp only [overlapsAt, decide_eq_true_eq] at ho0 ho2
    simp [touchesAt, axOf, posOf] at htch
    refine C3core1 s room1 room2 room2 room1 g ⟨room2, h2, rfl⟩ ⟨room1, h1, rfl⟩
      (Ne.symm hne) htch ?_ ?_ (hsz2 1 (by decide)) ?_
    · rw [overlapLo_comm room2 room1 0, overlapHi_comm room2 room1 0]
      exact ho0
    · rw [overlapLo_comm room2 room1 2, overlapHi_comm room2 room1 2]
      exact ho2
    · intro gx
      rw [add_door_eq_addDoorWith, hdir]
      rfl
  · show doorSpec s room1 room2 room1 room2 1 g
    have ho0 := hovs 0 (by decide) (by decide)
    have ho2 := hovs 2 (by decide) (by decide)
    simp only [overlapsAt, decide_eq_true_eq] at ho0 ho2
    simp [touchesAt, axOf, posOf] at htch
    refine C3core1 s room1 room2 room1 room2 g ⟨room1, h1, rfl⟩ ⟨room2, h2, rfl⟩
      hne htch ho0 ho2 (hsz1 1 (by decide)) ?_
    intro gx
    rw [add_door_eq_addDoorWith, hdir]
    rfl
  · show doorSpec s room1 room2 room2 room1 2 g
    have ho0 := hovs 0 (by decide) (by decide)
    have ho1 := hovs 1 (by decide) (by decide)
    simp only [overlapsAt, decide_eq_true_eq] at ho0 ho1
    simp [touchesAt, axOf, posOf] at htch
    refine C3core2 s room1 room2 room2 room1 g ⟨room2, h2, rfl⟩ ⟨room1, h1, rfl⟩
      (Ne.symm hne) htch ?_ ?_ (hsz2 2 (by decide)) ?_
    · rw [overlapLo_comm room2 room1 0, overlapHi_comm room2 room1 0]
      exact ho0
    · rw [overlapLo_comm room2 room1 1, overlapHi_comm room2 room1 1]
      exact ho1
    · intro gx
      rw [add_door_eq_addDoorWith, hdir]
      rfl
  · show doorSpec s room1 room2 room1 room2 2 g
    have ho0 := hovs 0 (by decide) (by decide)
    have ho1 := hovs 1 (by decide) (by decide)
    simp only [overlapsAt, decide_eq_true_eq] at ho0 ho1
    simp [touchesAt, axOf, posOf] at htch
    refine C3core2 s room1 room2 room1 room2 g ⟨room1, h1, rfl⟩ ⟨room2, h2, rfl⟩
      hne htch ho0 ho1 (hsz1 2 (by decide)) ?_
    intro gx
    rw [add_door_eq_addDoorWith, hdir]
    rfl

end AMazeIng

namespace AMazeIng

/-- Concrete 1×1×1 room at the origin, with its +R neighbour recorded. -/
def roomW1 : Room :=
  { loc := (0, 0, 0), size := (1, 1, 1), id := 1,
    neighbors := [2], neighbors_directions := [3] }

/-- Concrete 1×1×1 room one row further, with its -R neighbour recorded. -/
def roomW2 : Room :=
  { loc := (0, 1, 0), size := (1, 1, 1), id := 2,
    neighbors := [1], neighbors_directions := [2] }

/-- A minimal state holding the two wired rooms `roomW1`, `roomW2`. -/
def stateW : MazeState :=
  { mh := 1, mr := 2, mc := 1, maze := fun _ => none, rooms := [roomW1, roomW2],
    paths := [], doors := [], solution_path := none, next_id := 3, rng := rngZero }

/-- Witness for C3 (amended) at the concrete wired pair `roomW1`, `roomW2`. -/
theorem C3_door_placement_witness : doorSpec stateW roomW1 roomW2 roomW1 roomW2 1 rngZero :=
  C3_door_placement stateW roomW1 roomW2 roomW1 roomW2 3 1 rngZero
    (by decide) (by decide) (by decide) (by decide)
    ⟨by decide, by decide, by decide⟩
    (by decide) (by decide) (by decide) (by decide) (by decide)

/-- Concrete room of height 2 at the origin, with its +R neighbour recorded. -/
def roomT1 : Room :=
  { loc := (0, 0, 0), size := (2, 1, 1), id := 1,
    neighbors := [2], neighbors_directions := [3] }

/-- Concrete room of height 2 one row further. -/
def roomT2 : Room :=
  { loc := (0, 1, 0), size := (2, 1, 1), id := 2,
    neighbors := [1], neighbors_directions := [2] }

/-- A minimal state holding the two tall wired rooms. -/
def stateT : MazeState :=
  { mh := 2, mr := 2, mc := 1, maze := fun _ => none, rooms := [roomT1, roomT2],
    paths := [], doors := [], solution_path := none, next_id := 3, rng := rngZero }

/-- C3 (counterexample to the claim as stated): for the row-pierced tree edge
between `roomT1` and `roomT2`, whose shared face spans heights 0 and 1
(`overlapLo`..`overlapHi` on the height cross-axis is [0, 2)), no random
stream ever places the door cell at height 0: the height cross-axis
coordinate is not drawn from the overlapping cell range — the code pins it to
the lowest overlapping layer (height 1). -/
theorem C3_height_not_random :
    (¬ ∃ g : RNG, ∃ vc : Nat,
      alookup 2 ((add_door { stateT with rng := g } roomT1 roomT2).getRoom 1).doors =
        some ((0, 0, vc), 3)) ∧
    overlapLo roomT1 roomT2 0 = 0 ∧ overlapHi roomT1 roomT2 0 = 2 ∧ axOf 3 = 1 := by
  refine ⟨?_, by decide, by decide, rfl⟩
  rintro ⟨g, vc, h⟩
  rw [show alookup 2 ((add_door { stateT with rng := g } roomT1 roomT2).getRoom 1).doors =
    some ((1, 0, 0 + g 0 % 1), 3) from rfl] at h
  simp at h

end AMazeIng

namespace AMazeIng

/-! ## Partition stage: the grid is exactly tiled by the room boxes (C2, C8) -/

/-- The cell lies inside the grid of state `s`. -/
def cellIn (s : MazeState) (c : Cell) : Prop :=
  c.1 < s.mh ∧ c.2.1 < s.mr ∧ c.2.2 < s.mc

/-- The room box has positive extents and fits inside the grid of `s`. -/
def boxWithin (s : MazeState) (r : Room) : Prop :=
  1 ≤ r.size.1 ∧ 1 ≤ r.size.2.1 ∧ 1 ≤ r.size.2.2 ∧
  r.loc.1 + r.size.1 ≤ s.mh ∧ r.loc.2.1 + r.size.2.1 ≤ s.mr ∧ r.loc.2.2 + r.size.2.2 ≤ s.mc

/-- The grid stores exactly the ids of the rooms whose boxes contain each
cell. -/
def gridMatches (s : MazeState) : Prop :=
  ∀ c i, s.maze c = some i ↔ ∃ r ∈ s.rooms, r.id = i ∧ inBox r.loc r.size c = true

/-- The ids of the rooms in the table, in order. -/
def roomIds (s : MazeState) : List Int := s.rooms.map (fun r => r.id)

theorem inBox_iff (loc size c : Cell) :
    inBox loc size c = true ↔
      loc.1 ≤ c.1 ∧ c.1 < loc.1 + size.1 ∧
      loc.2.1 ≤ c.2.1 ∧ c.2.1 < loc.2.1 + size.2.1 ∧
      loc.2.2 ≤ c.2.2 ∧ c.2.2 < loc.2.2 + size.2.2 := by
  simp [inBox]
  tauto

theorem rowFree_iff (g : Cell → Option Int) (hi ri ci room_h k : Nat) :
    rowFree g hi ri ci room_h k = true ↔
      ∀ hj, hj < room_h → g (hi + hj, ri + k, ci) = none := by
  simp [rowFree, List.all_eq_true, Option.isNone_iff_eq_none]

theorem colFree_iff (g : Cell → Option Int) (hi ri ci room_h room_r k : Nat) :
    colFree g hi ri ci room_h room_r k = true ↔
      ∀ hj rj, hj < room_h → rj < room_r → g (hi + hj, ri + rj, ci + k) = none := by
  simp [colFree, List.all_eq_true, Option.isNone_iff_eq_none]
  tauto

theorem growH_spec (cfg : Config) (s : MazeState) (hi ri ci : Nat)
    (hmax : 1 ≤ cfg.max_room_size.1) (hin : hi < s.mh)
    (hfree : s.maze (hi, ri, ci) = none) :
    1 ≤ (growH cfg s hi ri ci).1 ∧
    (growH cfg s hi ri ci).1 ≤ cfg.max_room_size.1 ∧
    hi + (growH cfg s hi ri ci).1 ≤ s.mh ∧
    ∀ hj, hj < (growH cfg s hi ri ci).1 → s.maze (hi + hj, ri, ci) = none := by
  have hlow := growLimit_lower
    (fun k => decide (hi + k < s.mh) && (s.maze (hi + k, ri, ci)).isNone)
    (cfg.max_room_size.1 - 1) 1
  have hup := growLimit_upper
    (fun k => decide (hi + k < s.mh) && (s.maze (hi + k, ri, ci)).isNone)
    (cfg.max_room_size.1 - 1) 1
  have hsat := growLimit_sat
    (fun k => decide (hi + k < s.mh) && (s.maze (hi + k, ri, ci)).isNone)
    (cfg.max_room_size.1 - 1) 1
  have hmem := randint_mem 1
    (growLimit (fun k => decide (hi + k < s.mh) && (s.maze (hi + k, ri, ci)).isNone)
      (cfg.max_room_size.1 - 1) 1) s.rng hlow
  have hsat2 : ∀ k, 1 ≤ k →
      k < growLimit (fun k => decide (hi + k < s.mh) && (s.maze (hi + k, ri, ci)).isNone)
        (cfg.max_room_size.1 - 1) 1 →
      hi + k < s.mh ∧ s.maze (hi + k, ri, ci) = none := by
    intro k h1 h2
    have := hsat k h1 h2
    simp [Option.isNone_iff_eq_none] at this
    exact this
  rw [show growH cfg s hi ri ci = randint 1
    (growLimit (fun k => decide (hi + k < s.mh) && (s.maze (hi + k, ri, ci)).isNone)
      (cfg.max_room_size.1 - 1) 1) s.rng from rfl]
  refine ⟨hmem.1, by omega, ?_, ?_⟩
  · rcases Nat.eq_or_lt_of_le hmem.1 with he | hl
    · omega
    · have := (hsat2 ((randint 1 (growLimit
        (fun k => decide (hi + k < s.mh) && (s.maze (hi + k, ri, ci)).isNone)
        (cfg.max_room_size.1 - 1) 1) s.rng).1 - 1) (by omega) (by omega)).1
      omega
  · intro hj hjlt
    rcases Nat.eq_zero_or_pos hj with rfl | hpos
    · simpa using hfree
    · exact (hsat2 hj hpos (by omega)).2

theorem growR_spec (cfg : Config) (s : MazeState) (hi ri ci room_h : Nat) (g : RNG)
    (hmax : 1 ≤ cfg.max_room_size.2.1) (hin : ri < s.mr) :
    1 ≤ (growR cfg s hi ri ci room_h g).1 ∧
    (growR cfg s hi ri ci room_h g).1 ≤ cfg.max_room_size.2.1 ∧
    ri + (growR cfg s hi ri ci room_h g).1 ≤ s.mr ∧
    ∀ rj hj, 1 ≤ rj → rj < (growR cfg s hi ri ci room_h g).1 → hj < room_h →
      s.maze (hi + hj, ri + rj, ci) = none := by
  have hlow := growLimit_lower
    (fun k => decide (ri + k < s.mr) && rowFree s.maze hi ri ci room_h k)
    (cfg.max_room_size.2.1 - 1) 1
  have hup := growLimit_upper
    (fun k => decide (ri + k < s.mr) && rowFree s.maze hi ri ci room_h k)
    (cfg.max_room_size.2.1 - 1) 1
  have hsat := growLimit_sat
    (fun k => decide (ri + k < s.mr) && rowFree s.maze hi ri ci room_h k)
    (cfg.max_room_size.2.1 - 1) 1
  have hmem := randint_mem 1
    (growLimit (fun k => decide (ri + k < s.mr) && rowFree s.maze hi ri ci room_h k)
      (cfg.max_room_size.2.1 - 1) 1) g hlow
  have hsat2 : ∀ k, 1 ≤ k →
      k < growLimit (fun k => decide (ri + k < s.mr) && rowFree s.maze hi ri ci room_h k)
        (cfg.max_room_size.2.1 - 1) 1 →
      ri + k < s.mr ∧ ∀ hj, hj < room_h → s.maze (hi + hj, ri + k, ci) = none := by
    intro k h1 h2
    have := hsat k h1 h2
    rw [Bool.and_eq_true, decide_eq_true_eq, rowFree_iff] at this
    exact this
  rw [show growR cfg s hi ri ci room_h g = randint 1
    (growLimit (fun k => decide (ri + k < s.mr) && rowFree s.maze hi ri ci room_h k)
      (cfg.max_room_size.2.1 - 1) 1) g from rfl]
  refine ⟨hmem.1, by omega, ?_, ?_⟩
  · rcases Nat.eq_or_lt_of_le hmem.1 with he | hl
    · omega
    · have := (hsat2 ((randint 1 (growLimit
        (fun k => decide (ri + k < s.mr) && rowFree s.maze hi ri ci room_h k)
        (cfg.max_room_size.2.1 - 1) 1) g).1 - 1) (by omega) (by omega)).1
      omega
  · intro rj hj h1 h2 h3
    exact (hsat2 rj h1 (by omega)).2 hj h3

theorem growC_spec (cfg : Config) (s : MazeState) (hi ri ci room_h room_r : Nat) (g : RNG)
    (hmax : 1 ≤ cfg.max_room_size.2.2) (hin : ci < s.mc)
    (hh : 1 ≤ room_h) (hr : 1 ≤ room_r) :
    1 ≤ (growC cfg s hi ri ci room_h room_r g).1 ∧
    (growC cfg s hi ri ci room_h room_r g).1 ≤ cfg.max_room_size.2.2 ∧
    ci + (growC cfg s hi ri ci room_h room_r g).1 ≤ s.mc ∧
    ∀ cj hj rj, 1 ≤ cj → cj < (growC cfg s hi ri ci room_h room_r g).1 →
      hj < room_h → rj < room_r → s.maze (hi + hj, ri + rj, ci + cj) = none := by
  by_cases h11 : room_h = 1 ∧ room_r = 1
  · have heq : growC cfg s hi ri ci room_h room_r g =
        randint 1 (growLimit (fun k => decide (ci + k < s.mc) && (s.maze (hi, ri, ci + k)).isNone)
          (cfg.max_room_size.2.2 - 1) 1) g := by
      simp [growC, h11]
    have hlow := growLimit_lower
      (fun k => decide (ci + k < s.mc) && (s.maze (hi, ri, ci + k)).isNone)
      (cfg.max_room_size.2.2 - 1) 1
    have hup := growLimit_upper
      (fun k => decide (ci + k < s.mc) && (s.maze (hi, ri, ci + k)).isNone)
      (cfg.max_room_size.2.2 - 1) 1
    have hsat := growLimit_sat
      (fun k => decide (ci + k < s.mc) && (s.maze (hi, ri, ci + k)).isNone)
      (cfg.max_room_size.2.2 - 1) 1
    have hmem := randint_mem 1
      (growLimit (fun k => decide (ci + k < s.mc) && (s.maze (hi, ri, ci + k)).isNone)
        (cfg.max_room_size.2.2 - 1) 1) g hlow
    have hsat2 : ∀ k, 1 ≤ k →
        k < growLimit (fun k => decide (ci + k < s.mc) && (s.maze (hi, ri, ci + k)).isNone)
          (cfg.max_room_size.2.2 - 1) 1 →
        ci + k < s.mc ∧ s.maze (hi, ri, ci + k) = none := by
      intro k h1 h2
      have := hsat k h1 h2
      simp [Option.isNone_iff_eq_none] at this
      exact this
    rw [heq]
    refine ⟨hmem.1, by omega, ?_, ?_⟩
    · rcases Nat.eq_or_lt_of_le hmem.1 with he | hl
      · omega
      · have := (hsat2 ((randint 1 (growLimit
          (fun k => decide (ci + k < s.mc) && (s.maze (hi, ri, ci + k)).isNone)
          (cfg.max_room_size.2.2 - 1) 1) g).1 - 1) (by omega) (by omega)).1
        omega
    · intro cj hj rj h1 h2 h3 h4
      have hj0 : hj = 0 := by omega
      have rj0 : rj = 0 := by omega
      subst hj0
      subst rj0
      simpa using (hsat2 cj h1 (by omega)).2
  · by_cases h1or : room_h = 1 ∨ room_r = 1
    · by_cases hbd : hi = s.mh - 1 ∨ ri = s.mr - 1
      · have heq : growC cfg s hi ri ci room_h room_r g =
            (growLimit (fun k => decide (ci + k < s.mc) &&
                colFree s.maze hi ri ci room_h room_r k)
              (cfg.max_room_size.2.2 - 1) 1, g) := by
          simp [growC, h11, h1or, hbd]
        have hlow := growLimit_lower
          (fun k => decide (ci + k < s.mc) && colFree s.maze hi ri ci room_h room_r k)
          (cfg.max_room_size.2.2 - 1) 1
        have hup := growLimit_upper
          (fun k => decide (ci + k < s.mc) && colFree s.maze hi ri ci room_h room_r k)
          (cfg.max_room_size.2.2 - 1) 1
        have hsat := growLimit_sat
          (fun k => decide (ci + k < s.mc) && colFree s.maze hi ri ci room_h room_r k)
          (cfg.max_room_size.2.2 - 1) 1
        have hsat2 : ∀ k, 1 ≤ k →
            k < growLimit (fun k => decide (ci + k < s.mc) &&
              colFree s.maze hi ri ci room_h room_r k) (cfg.max_room_size.2.2 - 1) 1 →
            ci + k < s.mc ∧ ∀ hj rj, hj < room_h → rj < room_r →
              s.maze (hi + hj, ri + rj, ci + k) = none := by
          intro k h1 h2
          have := hsat k h1 h2
          rw [Bool.and_eq_true, decide_eq_true_eq, colFree_iff] at this
          exact this
        rw [heq]
        refine ⟨hlow, by omega, ?_, ?_⟩
        · rcases Nat.eq_or_lt_of_le hlow with he | hl
          · omega
          · have := (hsat2 (growLimit
              (fun k => decide (ci + k < s.mc) && colFree s.maze hi ri ci room_h room_r k)
              (cfg.max_room_size.2.2 - 1) 1 - 1) (by omega) (by omega)).1
            omega
        · intro cj hj rj h1 h2 h3 h4
          exact (hsat2 cj h1 (by omega)).2 hj rj h3 h4
      · have heq : growC cfg s hi ri ci room_h room_r g = (1, g) := by
          simp [growC, h11, h1or, hbd]
        rw [heq]
        refine ⟨le_refl 1, hmax, by omega, ?_⟩
        intro cj hj rj h1 h2 h3 h4
        omega
    · have heq : growC cfg s hi ri ci room_h room_r g =
          randint 1 (growLimit (fun k => decide (ci + k < s.mc) &&
              colFree s.maze hi ri ci room_h room_r k)
            (cfg.max_room_size.2.2 - 1) 1) g := by
        simp [growC, h11, h1or]
      have hlow := growLimit_lower
        (fun k => decide (ci + k < s.mc) && colFree s.maze hi ri ci room_h room_r k)
        (cfg.max_room_size.2.2 - 1) 1
      have hup := growLimit_upper
        (fun k => decide (ci + k < s.mc) && colFree s.maze hi ri ci room_h room_r k)
        (cfg.max_room_size.2.2 - 1) 1
      have hsat := growLimit_sat
        (fun k => decide (ci + k < s.mc) && colFree s.maze hi ri ci room_h room_r k)
        (cfg.max_room_size.2.2 - 1) 1
      have hmem := randint_mem 1
        (growLimit (fun k => decide (ci + k < s.mc) && colFree s.maze hi ri ci room_h room_r k)
          (cfg.max_room_size.2.2 - 1) 1) g hlow
      have hsat2 : ∀ k, 1 ≤ k →
          k < growLimit (fun k => decide (ci + k < s.mc) &&
            colFree s.maze hi ri ci room_h room_r k) (cfg.max_room_size.2.2 - 1) 1 →
          ci + k < s.mc ∧ ∀ hj rj, hj < room_h → rj < room_r →
            s.maze (hi + hj, ri + rj, ci + k) = none := by
        intro k h1 h2
        have := hsat k h1 h2
        rw [Bool.and_eq_true, decide_eq_true_eq, colFree_iff] at this
        exact this
      rw [heq]
      refine ⟨hmem.1, by omega, ?_, ?_⟩
      · rcases Nat.eq_or_lt_of_le hmem.1 with he | hl
        · omega
        · have := (hsat2 ((randint 1 (growLimit
            (fun k => decide (ci + k < s.mc) && colFree s.maze hi ri ci room_h room_r k)
            (cfg.max_room_size.2.2 - 1) 1) g).1 - 1) (by omega) (by omega)).1
          omega
      · intro cj hj rj h1 h2 h3 h4
        exact (hsat2 cj h1 (by omega)).2 hj rj h3 h4

end AMazeIng

namespace AMazeIng

theorem growRoomSize_spec (cfg : Config) (s : MazeState) (hi ri ci : Nat)
    (hmx1 : 1 ≤ cfg.max_room_size.1) (hmx2 : 1 ≤ cfg.max_room_size.2.1)
    (hmx3 : 1 ≤ cfg.max_room_size.2.2)
    (hin1 : hi < s.mh) (hin2 : ri < s.mr) (hin3 : ci < s.mc)
    (hfree : s.maze (hi, ri, ci) = none) :
    (1 ≤ (growRoomSize cfg s hi ri ci).1.1 ∧
      (growRoomSize cfg s hi ri ci).1.1 ≤ cfg.max_room_size.1) ∧
    (1 ≤ (growRoomSize cfg s hi ri ci).1.2.1 ∧
      (growRoomSize cfg s hi ri ci).1.2.1 ≤ cfg.max_room_size.2.1) ∧
    (1 ≤ (growRoomSize cfg s hi ri ci).1.2.2 ∧
      (growRoomSize cfg s hi ri ci).1.2.2 ≤ cfg.max_room_size.2.2) ∧
    hi + (growRoomSize cfg s hi ri ci).1.1 ≤ s.mh ∧
    ri + (growRoomSize cfg s hi ri ci).1.2.1 ≤ s.mr ∧
    ci + (growRoomSize cfg s hi ri ci).1.2.2 ≤ s.mc ∧
    ∀ hj rj cj, hj < (growRoomSize cfg s hi ri ci).1.1 →
      rj < (growRoomSize cfg s hi ri ci).1.2.1 →
      cj < (growRoomSize cfg s hi ri ci).1.2.2 →
      s.maze (hi + hj, ri + rj, ci + cj) = none := by
  have e1 : (growRoomSize cfg s hi ri ci).1.1 = (growH cfg s hi ri ci).1 := rfl
  have e2 : (growRoomSize cfg s hi ri ci).1.2.1 =
    (growR cfg s hi ri ci (growH cfg s hi ri ci).1 (growH cfg s hi ri ci).2).1 := rfl
  have e3 : (growRoomSize cfg s hi ri ci).1.2.2 =
    (growC cfg s hi ri ci (growH cfg s hi ri ci).1
      (growR cfg s hi ri ci (growH cfg s hi ri ci).1 (growH cfg s hi ri ci).2).1
      (growR cfg s hi ri ci (growH cfg s hi ri ci).1 (growH cfg s hi ri ci).2).2).1 := rfl
  have hH := growH_spec cfg s hi ri ci hmx1 hin1 hfree
  have hR := growR_spec cfg s hi ri ci (growH cfg s hi ri ci).1
    (growH cfg s hi ri ci).2 hmx2 hin2
  have hC := growC_spec cfg s hi ri ci (growH cfg s hi ri ci).1
    (growR cfg s hi ri ci (growH cfg s hi ri ci).1 (growH cfg s hi ri ci).2).1
    (growR cfg s hi ri ci (growH cfg s hi ri ci).1 (growH cfg s hi ri ci).2).2
    hmx3 hin3 hH.1 hR.1
  rw [e1, e2, e3]
  refine ⟨⟨hH.1, hH.2.1⟩, ⟨hR.1, hR.2.1⟩, ⟨hC.1, hC.2.1⟩,
    hH.2.2.1, hR.2.2.1, hC.2.2.1, ?_⟩
  intro hj rj cj h1 h2 h3
  rcases Nat.eq_zero_or_pos cj with rfl | hcj
  · rcases Nat.eq_zero_or_pos rj with rfl | hrj
    · simpa using hH.2.2.2 hj h1
    · simpa using hR.2.2.2 rj hj hrj h2 h1
  · exact hC.2.2.2 cj hj rj hcj h3 h1 h2

/-- The partition-stage invariant: the grid matches the room table, room ids
are distinct and sane, boxes are inside the grid, generated rooms respect the
size caps, and adjacency/door fields are still empty. -/
structure PartInv (cfg : Config) (s : MazeState) : Prop where
  gm : gridMatches s
  nodup : (roomIds s).Nodup
  boxes : ∀ r ∈ s.rooms, boxWithin s r
  idlt : ∀ r ∈ s.rooms, r.id < s.next_id
  sane : ∀ r ∈ s.rooms, -1 ≤ r.id
  one_le : 1 ≤ s.next_id
  fresh : ∀ r ∈ s.rooms, r.neighbors = [] ∧ r.neighbors_directions = [] ∧ r.doors = []
  genBound : ∀ r ∈ s.rooms, ¬ r.id = 0 → ¬ r.id = -1 →
    r.size.1 ≤ cfg.max_room_size.1 ∧ r.size.2.1 ≤ cfg.max_room_size.2.1 ∧
    r.size.2.2 ≤ cfg.max_room_size.2.2

theorem set_room_gridMatches {s : MazeState} (hgm : gridMatches s) (loc size : Cell) (id : Int)
    (hnone : ∀ c : Cell, inBox loc size c = true → s.maze c = none) :
    gridMatches (s.set_room loc size id) := by
  intro c i
  constructor
  · intro h
    by_cases hb : inBox loc size c = true
    · have : some id = some i := by
        rw [show (s.set_room loc size id).maze c = some id from by
          simp [MazeState.set_room, hb]] at h
        exact h
      refine ⟨{ loc := loc, size := size, id := id }, ?_, Option.some.inj this, hb⟩
      simp [MazeState.set_room]
    · have hm : (s.set_room loc size id).maze c = s.maze c := by
        simp [MazeState.set_room, hb]
      rw [hm] at h
      obtain ⟨r, hr, hid, hbox⟩ := (hgm c i).mp h
      exact ⟨r, by simp [MazeState.set_room, hr], hid, hbox⟩
  · rintro ⟨r, hr, hid, hbox⟩
    simp only [MazeState.set_room] at hr
    rcases List.mem_append.mp hr with hr | hr
    · have hold : s.maze c = some i := (hgm c i).mpr ⟨r, hr, hid, hbox⟩
      have hnb : ¬ inBox loc size c = true := by
        intro hb
        rw [hnone c hb] at hold
        exact Option.noConfusion hold
      simp [MazeState.set_room, hnb, hold]
    · simp only [List.mem_singleton] at hr
      subst hr
      simp only at hid
      simp [MazeState.set_room, hbox, hid]

theorem genRoomAt_spec (cfg : Config) {s : MazeState} (hI : PartInv cfg s)
    (hmx1 : 1 ≤ cfg.max_room_size.1) (hmx2 : 1 ≤ cfg.max_room_size.2.1)
    (hmx3 : 1 ≤ cfg.max_room_size.2.2)
    (hi ri ci : Nat) (hin1 : hi < s.mh) (hin2 : ri < s.mr) (hin3 : ci < s.mc) :
    PartInv cfg (genRoomAt cfg s (hi, ri, ci)) ∧
    (∀ c i, s.maze c = some i → (genRoomAt cfg s (hi, ri, ci)).maze c = some i) ∧
    ((genRoomAt cfg s (hi, ri, ci)).maze (hi, ri, ci)).isSome ∧
    (genRoomAt cfg s (hi, ri, ci)).mh = s.mh ∧
    (genRoomAt cfg s (hi, ri, ci)).mr = s.mr ∧
    (genRoomAt cfg s (hi, ri, ci)).mc = s.mc := by
  by_cases hocc : (s.maze (hi, ri, ci)).isSome
  · have he : genRoomAt cfg s (hi, ri, ci) = s := by
      simp [genRoomAt, hocc]
    rw [he]
    exact ⟨hI, fun c i h => h, hocc, rfl, rfl, rfl⟩
  · have hfree : s.maze (hi, ri, ci) = none := by
      cases hx : s.maze (hi, ri, ci)
      · rfl
      · rw [hx] at hocc; simp at hocc
    have he : genRoomAt cfg s (hi, ri, ci) =
        { (({ s with rng := (growRoomSize cfg s hi ri ci).2 } : MazeState).set_room
          (hi, ri, ci) (growRoomSize cfg s hi ri ci).1 s.next_id) with
            next_id := s.next_id + 1 } := by
      simp [genRoomAt, hocc]
    have hspec := growRoomSize_spec cfg s hi ri ci hmx1 hmx2 hmx3 hin1 hin2 hin3 hfree
    have hnone : ∀ c : Cell, inBox (hi, ri, ci) (growRoomSize cfg s hi ri ci).1 c = true →
        s.maze c = none := by
      intro c hb
      rw [inBox_iff] at hb
      have hb' : hi ≤ c.1 ∧ c.1 < hi + (growRoomSize cfg s hi ri ci).1.1 ∧
          ri ≤ c.2.1 ∧ c.2.1 < ri + (growRoomSize cfg s hi ri ci).1.2.1 ∧
          ci ≤ c.2.2 ∧ c.2.2 < ci + (growRoomSize cfg s hi ri ci).1.2.2 := hb
      clear hb
      have := hspec.2.2.2.2.2.2 (c.1 - hi) (c.2.1 - ri) (c.2.2 - ci)
        (by omega) (by omega) (by omega)
      have hc : (hi + (c.1 - hi), ri + (c.2.1 - ri), ci + (c.2.2 - ci)) = c := by
        rcases c with ⟨a, b, d⟩
        simp only at hb' ⊢
        refine congrArg₂ Prod.mk (by omega) (congrArg₂ Prod.mk (by omega) (by omega))
      rwa [hc] at this
    have hgm2 : gridMatches ({ s with rng := (growRoomSize cfg s hi ri ci).2 } : MazeState) :=
      fun c i => (hI.gm c i).trans
        ⟨fun ⟨r, hr, h2, h3⟩ => ⟨r, hr, h2, h3⟩, fun ⟨r, hr, h2, h3⟩ => ⟨r, hr, h2, h3⟩⟩
    rw [he]
    constructor
    · constructor
      · -- gm
        intro c i
        exact set_room_gridMatches hgm2 (hi, ri, ci) (growRoomSize cfg s hi ri ci).1
          s.next_id hnone c i
      · -- nodup
        show ((s.rooms ++ [_]).map (fun r : Room => r.id)).Nodup
        rw [List.map_append, List.nodup_append]
        refine ⟨hI.nodup, by simp, ?_⟩
        intro x hx hy
        simp only [List.map_cons, List.map_nil, List.mem_singleton] at hy
        rcases List.mem_map.mp hx with ⟨r, hr, rfl⟩
        have hlt := hI.idlt r hr
        have hy' : r.id = s.next_id := hy
        omega
      · -- boxes
        intro r hr
        rcases List.mem_append.mp hr with hr | hr
        · have := hI.boxes r hr
          exact this
        · simp only [List.mem_singleton] at hr
          subst hr
          exact ⟨hspec.1.1, hspec.2.1.1, hspec.2.2.1.1,
            hspec.2.2.2.1, hspec.2.2.2.2.1, hspec.2.2.2.2.2.1⟩
      · -- idlt
        intro r hr
        rcases List.mem_append.mp hr with hr | hr
        · have := hI.idlt r hr
          simp only
          omega
        · simp only [List.mem_singleton] at hr
          subst hr
          simp only
          omega
      · -- sane
        intro r hr
        rcases List.mem_append.mp hr with hr | hr
        · exact hI.sane r hr
        · simp only [List.mem_singleton] at hr
          subst hr
          have := hI.one_le
          simp only
          omega
      · -- one_le
        have := hI.one_le
        simp only
        omega
      · -- fresh
        intro r hr
        rcases List.mem_append.mp hr with hr | hr
        · exact hI.fresh r hr
        · simp only [List.mem_singleton] at hr
          subst hr
          exact ⟨rfl, rfl, rfl⟩
      · -- genBound
        intro r hr h0 h1
        rcases List.mem_append.mp hr with hr | hr
        · exact hI.genBound r hr h0 h1
        · simp only [List.mem_singleton] at hr
          subst hr
          exact ⟨hspec.1.2, hspec.2.1.2, hspec.2.2.1.2⟩
    · refine ⟨?_, ?_, rfl, rfl, rfl⟩
      · intro c i h
        have hnb : ¬ inBox (hi, ri, ci) (growRoomSize cfg s hi ri ci).1 c = true := by
          intro hb
          rw [hnone c hb] at h
          exact Option.noConfusion h
        simpa [MazeState.set_room, hnb] using h
      · have hb : inBox (hi, ri, ci) (growRoomSize cfg s hi ri ci).1 (hi, ri, ci) = true := by
          rw [inBox_iff]
          have h1 := hspec.1.1
          have h2 := hspec.2.1.1
          have h3 := hspec.2.2.1.1
          simp only
          omega
        simp [MazeState.set_room, hb]

end AMazeIng

namespace AMazeIng

theorem allCells_mem (mh mr mc : Nat) (c : Cell) :
    c ∈ allCells mh mr mc ↔ c.1 < mh ∧ c.2.1 < mr ∧ c.2.2 < mc := by
  rcases c with ⟨a, b, d⟩
  simp only [allCells, List.mem_flatMap, List.mem_map, List.mem_range]
  constructor
  · rintro ⟨hi, h1, ri, h2, ci, h3, heq⟩
    simp only [Prod.mk.injEq] at heq
    obtain ⟨e1, e2, e3⟩ := heq
    subst e1; subst e2; subst e3
    exact ⟨h1, h2, h3⟩
  · rintro ⟨h1, h2, h3⟩
    exact ⟨a, h1, b, h2, d, h3, rfl⟩

theorem fold_genRoomAt_spec (cfg : Config)
    (hmx1 : 1 ≤ cfg.max_room_size.1) (hmx2 : 1 ≤ cfg.max_room_size.2.1)
    (hmx3 : 1 ≤ cfg.max_room_size.2.2) :
    ∀ (l : List Cell) (s : MazeState), PartInv cfg s →
      (∀ c ∈ l, c.1 < s.mh ∧ c.2.1 < s.mr ∧ c.2.2 < s.mc) →
      PartInv cfg (l.foldl (genRoomAt cfg) s) ∧
      (∀ c i, s.maze c = some i → (l.foldl (genRoomAt cfg) s).maze c = some i) ∧
      (∀ c ∈ l, ((l.foldl (genRoomAt cfg) s).maze c).isSome) ∧
      (l.foldl (genRoomAt cfg) s).mh = s.mh ∧
      (l.foldl (genRoomAt cfg) s).mr = s.mr ∧
      (l.foldl (genRoomAt cfg) s).mc = s.mc := by
  intro l
  induction l with
  | nil =>
    intro s hI _
    exact ⟨hI, fun c i h => h, by simp, rfl, rfl, rfl⟩
  | cons c t ih =>
    intro s hI hb
    have hc := hb c (List.mem_cons_self c t)
    have hspec := genRoomAt_spec cfg hI hmx1 hmx2 hmx3 c.1 c.2.1 c.2.2 hc.1 hc.2.1 hc.2.2
    have hcc : (c.1, c.2.1, c.2.2) = c := rfl
    rw [hcc] at hspec
    obtain ⟨hI', hmono, hsome, e1, e2, e3⟩ := hspec
    have hb' : ∀ x ∈ t, x.1 < (genRoomAt cfg s c).mh ∧ x.2.1 < (genRoomAt cfg s c).mr ∧
        x.2.2 < (genRoomAt cfg s c).mc := by
      intro x hx
      rw [e1, e2, e3]
      exact hb x (List.mem_cons_of_mem c hx)
    obtain ⟨kI, kmono, kcov, k1, k2, k3⟩ := ih (genRoomAt cfg s c) hI' hb'
    have hfold : (c :: t).foldl (genRoomAt cfg) s = t.foldl (genRoomAt cfg) (genRoomAt cfg s c) :=
      rfl
    rw [hfold]
    refine ⟨kI, fun x i h => kmono x i (hmono x i h), ?_, k1.trans e1, k2.trans e2, k3.trans e3⟩
    intro x hx
    rcases List.mem_cons.mp hx with rfl | hx
    · rcases Option.isSome_iff_exists.mp hsome with ⟨i, hi⟩
      rw [kmono x i hi]
      rfl
    · exact kcov x hx

/-- The fresh state built by the `Maze` constructor before any room is
placed. -/
def emptyState (cfg : Config) (g : RNG) : MazeState :=
  { mh := cfg.maze_size.1, mr := cfg.maze_size.2.1, mc := cfg.maze_size.2.2,
    maze := fun _ => none, rooms := [], paths := [], doors := [],
    solution_path := none, next_id := 1, rng := g }

theorem initStage_eq (cfg : Config) (g : RNG) :
    initStage cfg g =
      ((emptyState cfg g).set_room cfg.start_loc cfg.start_room_size 0).set_room
        cfg.goal_loc cfg.goal_room_size (-1) := rfl

theorem initStage_PartInv (cfg : Config) (g : RNG) (hv : validConfig cfg = true) :
    PartInv cfg (initStage cfg g) := by
  have hv' := hv
  rw [validConfig] at hv'
  simp only [Bool.and_eq_true, decide_eq_true_eq] at hv'
  obtain ⟨⟨⟨⟨⟨hfs, hfg⟩, hap⟩, hm1⟩, hm2⟩, hm3⟩ := hv'
  rw [boxFits] at hfs hfg
  simp only [Bool.and_eq_true, decide_eq_true_eq] at hfs hfg
  rw [boxesApart] at hap
  simp only [Bool.or_eq_true, decide_eq_true_eq, or_assoc] at hap
  have hgm0 : gridMatches (emptyState cfg g) := by
    intro c i
    simp [emptyState, gridMatches]
  have hgm1 : gridMatches ((emptyState cfg g).set_room cfg.start_loc cfg.start_room_size 0) :=
    set_room_gridMatches hgm0 cfg.start_loc cfg.start_room_size 0 (fun c _ => rfl)
  have hdisj : ∀ c : Cell, inBox cfg.goal_loc cfg.goal_room_size c = true →
      ¬ inBox cfg.start_loc cfg.start_room_size c = true := by
    intro c hbg hbs
    have hg' := (inBox_iff _ _ _).mp hbg
    have hs' := (inBox_iff _ _ _).mp hbs
    rcases hap with h | h | h | h | h | h <;> omega
  have hgm2 : gridMatches (initStage cfg g) := by
    rw [initStage_eq]
    apply set_room_gridMatches hgm1 cfg.goal_loc cfg.goal_room_size (-1)
    intro c hb
    have hns := hdisj c hb
    simp [MazeState.set_room, hns, emptyState]
  have hrooms : (initStage cfg g).rooms =
      [{ loc := cfg.start_loc, size := cfg.start_room_size, id := 0 },
       { loc := cfg.goal_loc, size := cfg.goal_room_size, id := (-1 : Int) }] := rfl
  refine ⟨hgm2, ?_, ?_, ?_, ?_, ?_, ?_, ?_⟩
  · rw [show roomIds (initStage cfg g) = [0, -1] from rfl]
    decide
  · intro r hr
    rw [hrooms] at hr
    simp only [List.mem_cons, List.mem_singleton, List.not_mem_nil, or_false] at hr
    rcases hr with rfl | rfl
    · exact ⟨hfs.1.1.1.1.1, hfs.1.1.1.1.2, hfs.1.1.1.2, hfs.1.1.2, hfs.1.2, hfs.2⟩
    · exact ⟨hfg.1.1.1.1.1, hfg.1.1.1.1.2, hfg.1.1.1.2, hfg.1.1.2, hfg.1.2, hfg.2⟩
  · intro r hr
    rw [hrooms] at hr
    simp only [List.mem_cons, List.mem_singleton, List.not_mem_nil, or_false] at hr
    rcases hr with rfl | rfl
    · exact show (0 : Int) < 1 by decide
    · exact show (-1 : Int) < 1 by decide
  · intro r hr
    rw [hrooms] at hr
    simp only [List.mem_cons, List.mem_singleton, List.not_mem_nil, or_false] at hr
    rcases hr with rfl | rfl
    · exact show (-1 : Int) ≤ 0 by decide
    · exact show (-1 : Int) ≤ -1 by decide
  · exact le_refl 1
  · intro r hr
    rw [hrooms] at hr
    simp only [List.mem_cons, List.mem_singleton, List.not_mem_nil, or_false] at hr
    rcases hr with rfl | rfl
    · exact ⟨rfl, rfl, rfl⟩
    · exact ⟨rfl, rfl, rfl⟩
  · intro r hr h0 h1
    rw [hrooms] at hr
    simp only [List.mem_cons, List.mem_singleton, List.not_mem_nil, or_false] at hr
    rcases hr with rfl | rfl
    · exact absurd rfl h0
    · exact absurd rfl h1

theorem roomsStage_spec (cfg : Config) (g : RNG) (hv : validConfig cfg = true) :
    PartInv cfg (roomsStage cfg g) ∧
    (∀ c : Cell, cellIn (roomsStage cfg g) c → ((roomsStage cfg g).maze c).isSome) ∧
    (roomsStage cfg g).mh = cfg.maze_size.1 ∧
    (roomsStage cfg g).mr = cfg.maze_size.2.1 ∧
    (roomsStage cfg g).mc = cfg.maze_size.2.2 := by
  have hv' := hv
  rw [validConfig] at hv'
  simp only [Bool.and_eq_true, decide_eq_true_eq] at hv'
  obtain ⟨⟨⟨-, hm1⟩, hm2⟩, hm3⟩ := hv'
  have hI0 := initStage_PartInv cfg g hv
  have key := fold_genRoomAt_spec cfg hm1 hm2 hm3
    (allCells (initStage cfg g).mh (initStage cfg g).mr (initStage cfg g).mc)
    (initStage cfg g) hI0
    (fun c hc => (allCells_mem _ _ _ c).mp hc)
  have he : roomsStage cfg g =
      (allCells (initStage cfg g).mh (initStage cfg g).mr (initStage cfg g).mc).foldl
        (genRoomAt cfg) (initStage cfg g) := rfl
  rw [he]
  refine ⟨key.1, ?_, key.2.2.2.1, key.2.2.2.2.1, key.2.2.2.2.2⟩
  intro c hc
  apply key.2.2.1 c
  rw [allCells_mem]
  have h1 := key.2.2.2.1
  have h2 := key.2.2.2.2.1
  have h3 := key.2.2.2.2.2
  rcases hc with ⟨a1, a2, a3⟩
  rw [h1] at a1
  rw [h2] at a2
  rw [h3] at a3
  exact ⟨a1, a2, a3⟩

end AMazeIng

namespace AMazeIng

theorem rooms_id_inj {cfg : Config} {s : MazeState} (hI : PartInv cfg s)
    {r1 r2 : Room} (h1 : r1 ∈ s.rooms) (h2 : r2 ∈ s.rooms) (hid : r1.id = r2.id) :
    r1 = r2 :=
  List.inj_on_of_nodup_map hI.nodup h1 h2 hid

/-- C2: for every valid configuration and every random stream, after the
partitioning stage every in-grid cell carries the id of one of the recorded
rooms; the cells carrying a room's id are exactly its declared box; every box
lies inside the grid with positive extents; and two distinct rooms' boxes
never share a cell. -/
theorem C2_partition (cfg : Config) (g : RNG) (hv : validConfig cfg = true) :
    (∀ c : Cell, cellIn (roomsStage cfg g) c →
      ∃ r, r ∈ (roomsStage cfg g).rooms ∧ (roomsStage cfg g).maze c = some r.id) ∧
    (∀ r, r ∈ (roomsStage cfg g).rooms → ∀ c : Cell,
      ((roomsStage cfg g).maze c = some r.id ↔ inBox r.loc r.size c = true)) ∧
    (∀ r, r ∈ (roomsStage cfg g).rooms → boxWithin (roomsStage cfg g) r) ∧
    (∀ r1 r2, r1 ∈ (roomsStage cfg g).rooms → r2 ∈ (roomsStage cfg g).rooms → r1 ≠ r2 →
      ∀ c : Cell, ¬ (inBox r1.loc r1.size c = true ∧ inBox r2.loc r2.size c = true)) := by
  obtain ⟨hI, hcov, -, -, -⟩ := roomsStage_spec cfg g hv
  refine ⟨?_, ?_, hI.boxes, ?_⟩
  · intro c hc
    rcases Option.isSome_iff_exists.mp (hcov c hc) with ⟨i, hi⟩
    obtain ⟨r, hr, hid, -⟩ := (hI.gm c i).mp hi
    exact ⟨r, hr, by rw [hi, hid]⟩
  · intro r hr c
    constructor
    · intro h
      obtain ⟨r', hr', hid, hbox⟩ := (hI.gm c r.id).mp h
      have := rooms_id_inj hI hr' hr hid
      rwa [this] at hbox
    · intro hb
      exact (hI.gm c r.id).mpr ⟨r, hr, rfl, hb⟩
  · intro r1 r2 h1 h2 hne c hcc
    have e1 : (roomsStage cfg g).maze c = some r1.id :=
      (hI.gm c r1.id).mpr ⟨r1, h1, rfl, hcc.1⟩
    have e2 : (roomsStage cfg g).maze c = some r2.id :=
      (hI.gm c r2.id).mpr ⟨r2, h2, rfl, hcc.2⟩
    rw [e1] at e2
    exact hne (rooms_id_inj hI h1 h2 (Option.some.inj e2))

theorem C2_partition_witness :
    validConfig cfgTiny = true ∧
    cellIn (roomsStage cfgTiny rngZero) (0, 1, 1) ∧
    ∃ r, r ∈ (roomsStage cfgTiny rngZero).rooms ∧
      (roomsStage cfgTiny rngZero).maze (0, 1, 1) = some r.id :=
  ⟨by decide, ⟨by decide, by decide, by decide⟩,
    (C2_partition cfgTiny rngZero (by decide)).1 (0, 1, 1)
      ⟨by decide, by decide, by decide⟩⟩

end AMazeIng

namespace AMazeIng

/-- The identity, placement and extents of a room: the fields never touched by
the adjacency and door passes. -/
def core (r : Room) : Int × Cell × Cell := (r.id, r.loc, r.size)

theorem core_add_neighbor (r : Room) (n : Int) (d : Nat) :
    core (r.add_neighbor n d) = core r := by
  rw [Room.add_neighbor]
  split <;> rfl

theorem core_add_door (r : Room) (n : Int) (c : Cell) (d : Nat) :
    core (r.add_door n c d) = core r := by
  rw [Room.add_door]
  split <;> rfl

theorem core_scanFace (g : Cell → Option Int) (cells : List Cell) :
    ∀ (r : Room) (d : Nat), core (scanFace g r cells d) = core r := by
  induction cells with
  | nil => intro r d; rfl
  | cons c cs ih =>
    intro r d
    have hstep : scanFace g r (c :: cs) d =
        scanFace g (r.add_neighbor ((g c).getD (-2)) d) cs d := rfl
    rw [hstep, ih, core_add_neighbor]

theorem core_build_network_room (s : MazeState) (r : Room) :
    core (build_network_room s r) = core r := by
  show core (scanFace s.maze (scanFace s.maze (scanFace s.maze (scanFace s.maze
    (scanFace s.maze (scanFace s.maze r (faceCells s r 0) 0) (faceCells s r 1) 1)
    (faceCells s r 2) 2) (faceCells s r 3) 3) (faceCells s r 4) 4) (faceCells s r 5) 5) = core r
  rw [core_scanFace, core_scanFace, core_scanFace, core_scanFace, core_scanFace, core_scanFace]

theorem mem_replaceRoom_cases {rooms : List Room} {x : Room} (r : Room)
    (hx : x ∈ replaceRoom rooms r) :
    x ∈ rooms ∨ (x = r ∧ ∃ y ∈ rooms, y.id = r.id) := by
  rcases List.mem_map.mp hx with ⟨y, hy, he⟩
  by_cases h : y.id = r.id
  · right
    refine ⟨?_, y, hy, h⟩
    rw [← he]
    simp [h]
  · left
    rw [← he]
    simp only [if_neg h]
    exact hy

/-- Every room of the state satisfies `Q` on its core fields. -/
def coreQ (Q : Int × Cell × Cell → Prop) (s : MazeState) : Prop :=
  ∀ r ∈ s.rooms, Q (core r)

theorem coreQ_doorFinish {Q : Int × Cell × Cell → Prop} {s : MazeState} {r1 r2 : Room}
    (dd : Nat) (cell : Cell) (g : RNG) (hQ : coreQ Q s)
    (h1 : (∃ y ∈ s.rooms, y.id = r1.id) → Q (core r1))
    (h2 : (∃ y ∈ s.rooms, y.id = r2.id) → Q (core r2)) :
    coreQ Q (doorFinish s r1 r2 dd cell g) := by
  intro x hx
  rw [doorFinish_rooms] at hx
  rcases mem_replaceRoom_cases _ hx with hx1 | ⟨rfl, hex⟩
  · rcases mem_replaceRoom_cases _ hx1 with hx2 | ⟨rfl, hex1⟩
    · exact hQ x hx2
    · rw [core_add_door]
      apply h1
      rcases hex1 with ⟨y, hy, hyid⟩
      exact ⟨y, hy, by rwa [add_door_id] at hyid⟩
  · rw [core_add_door]
    apply h2
    rcases hex with ⟨y, hy, hyid⟩
    rw [add_door_id] at hyid
    rcases mem_replaceRoom_cases _ hy with hy2 | ⟨rfl, hex2⟩
    · exact ⟨y, hy2, hyid⟩
    · rcases hex2 with ⟨z, hz, hzid⟩
      rw [add_door_id] at hyid
      refine ⟨z, hz, ?_⟩
      rw [hzid, add_door_id]
      exact hyid

theorem coreQ_add_door {Q : Int × Cell × Cell → Prop} {s : MazeState} {room1 room2 : Room}
    (hQ : coreQ Q s)
    (h1 : (∃ y ∈ s.rooms, y.id = room1.id) → Q (core room1))
    (h2 : (∃ y ∈ s.rooms, y.id = room2.id) → Q (core room2)) :
    coreQ Q (add_door s room1 room2) := by
  obtain ⟨r1, r2, dd, cell, g, heq, hcases⟩ := add_door_shape s room1 room2
  rw [heq]
  rcases hcases with ⟨e1, e2⟩ | ⟨e1, e2⟩ <;> subst e1 <;> subst e2
  · exact coreQ_doorFinish dd cell g hQ h1 h2
  · exact coreQ_doorFinish dd cell g hQ h2 h1

theorem getRoom_id (s : MazeState) (i : Int) : (s.getRoom i).id = i := by
  unfold MazeState.getRoom
  cases hf : s.rooms.find? (fun r => r.id = i) with
  | none => rfl
  | some r =>
    have := List.find?_some hf
    simp only [decide_eq_true_eq] at this
    simpa using this

theorem getRoom_mem_or (s : MazeState) (i : Int) :
    s.getRoom i ∈ s.rooms ∨ ∀ y ∈ s.rooms, y.id ≠ i := by
  cases hf : s.rooms.find? (fun r => r.id = i) with
  | none =>
    right
    intro y hy
    have := List.find?_eq_none.mp hf y hy
    simpa using this
  | some r =>
    left
    rw [getRoom_of_find hf]
    exact List.mem_of_find?_eq_some hf

theorem coreQ_getRoom {Q : Int × Cell × Cell → Prop} {s : MazeState} (hQ : coreQ Q s)
    (i : Int) : (∃ y ∈ s.rooms, y.id = (s.getRoom i).id) → Q (core (s.getRoom i)) := by
  intro hex
  rcases getRoom_mem_or s i with hm | hnone
  · exact hQ _ hm
  · exfalso
    rcases hex with ⟨y, hy, hyid⟩
    exact hnone y hy (by rwa [getRoom_id] at hyid)

theorem coreQ_expandStep {Q : Int × Cell × Cell → Prop} {s : MazeState} (hQ : coreQ Q s)
    (top nb : Int) (g : RNG) : coreQ Q (expandStep s top nb g) := by
  have h1 : coreQ Q { s with rng := g, paths := (nb, top) :: s.paths } := hQ
  exact coreQ_add_door h1 (coreQ_getRoom h1 top) (coreQ_getRoom h1 nb)

theorem coreQ_phase1 {Q : Int × Cell × Cell → Prop} :
    ∀ (fuel : Nat) (s : MazeState) (stack visited : List Int),
      coreQ Q s → coreQ Q (phase1 fuel s stack visited).1 := by
  intro fuel
  induction fuel with
  | zero => intro s stack visited h; simpa [phase1] using h
  | succ n ih =>
    intro s stack visited h
    cases hl : stack.getLast? with
    | none => rw [phase1_nil n s stack visited hl]; exact h
    | some top =>
      by_cases ht : top = -1
      · subst ht
        rw [phase1_goal_top n s stack visited hl]
        exact h
      · cases hfr : (frontier s visited top).isEmpty with
        | true => rw [phase1_pop n s stack visited top hl ht hfr]; exact ih _ _ _ h
        | false =>
          rw [phase1_push n s stack visited top hl ht hfr]
          exact ih _ _ _ (coreQ_expandStep h _ _ _)

theorem coreQ_phase2 {Q : Int × Cell × Cell → Prop} :
    ∀ (fuel : Nat) (s : MazeState) (stack visited : List Int),
      coreQ Q s → coreQ Q (phase2 fuel s stack visited).1 := by
  intro fuel
  induction fuel with
  | zero => intro s stack visited h; simpa [phase2] using h
  | succ n ih =>
    intro s stack visited h
    cases hl : stack.isEmpty with
    | true => rw [phase2_nil n s stack visited hl]; exact h
    | false =>
      cases hfr : (frontier s visited
          (stack.getD (randint 0 (stack.length - 1) s.rng).1 0)).isEmpty with
      | true => rw [phase2_pop n s stack visited hl hfr]; exact ih _ _ _ h
      | false =>
        rw [phase2_push n s stack visited hl hfr]
        exact ih _ _ _ (coreQ_expandStep h _ _ _)

theorem coreQ_generate_maze_network {Q : Int × Cell × Cell → Prop} {s : MazeState}
    (hQ : coreQ Q s) : coreQ Q (generate_maze_network s) := by
  intro x hx
  rcases List.mem_map.mp hx with ⟨y, hy, rfl⟩
  rw [core_build_network_room]
  exact hQ y hy

theorem coreQ_build {Q : Int × Cell × Cell → Prop} (cfg : Config) (g : RNG)
    (hQ : coreQ Q (roomsStage cfg g)) : coreQ Q (Maze.build cfg g) := by
  have h2 := coreQ_generate_maze_network hQ
  unfold Maze.build generate_spanning_tree
  intro r hr
  exact coreQ_phase2 _ _ _ _ (coreQ_phase1 _ _ _ _ h2) r hr

/-- C8: for every valid configuration and every random stream, every room of
the finished maze other than the start room (id 0) and the goal room (id -1)
has each axis extent in the interval `[1, max_room_size[axis]]`. -/
theorem C8_size_bounds (cfg : Config) (g : RNG) (hv : validConfig cfg = true) :
    ∀ r ∈ (Maze.build cfg g).rooms, r.id ≠ 0 → r.id ≠ -1 →
      (1 ≤ r.size.1 ∧ r.size.1 ≤ cfg.max_room_size.1) ∧
      (1 ≤ r.size.2.1 ∧ r.size.2.1 ≤ cfg.max_room_size.2.1) ∧
      (1 ≤ r.size.2.2 ∧ r.size.2.2 ≤ cfg.max_room_size.2.2) := by
  obtain ⟨hI, -, -, -, -⟩ := roomsStage_spec cfg g hv
  have hQ : coreQ (fun t => t.1 ≠ 0 → t.1 ≠ -1 →
      (1 ≤ t.2.2.1 ∧ t.2.2.1 ≤ cfg.max_room_size.1) ∧
      (1 ≤ t.2.2.2.1 ∧ t.2.2.2.1 ≤ cfg.max_room_size.2.1) ∧
      (1 ≤ t.2.2.2.2 ∧ t.2.2.2.2 ≤ cfg.max_room_size.2.2)) (roomsStage cfg g) := by
    intro r hr h0 h1
    have hb := hI.boxes r hr
    have hg := hI.genBound r hr h0 h1
    exact ⟨⟨hb.1, hg.1⟩, ⟨hb.2.1, hg.2.1⟩, ⟨hb.2.2.1, hg.2.2⟩⟩
  intro r hr h0 h1
  exact coreQ_build cfg g hQ r hr h0 h1

theorem C8_size_bounds_witness :
    validConfig cfgTiny = true ∧
    (Maze.build cfgTiny rngZero).getRoom 1 ∈ (Maze.build cfgTiny rngZero).rooms ∧
    ((1 ≤ ((Maze.build cfgTiny rngZero).getRoom 1).size.1 ∧
      ((Maze.build cfgTiny rngZero).getRoom 1).size.1 ≤ cfgTiny.max_room_size.1) ∧
     (1 ≤ ((Maze.build cfgTiny rngZero).getRoom 1).size.2.1 ∧
      ((Maze.build cfgTiny rngZero).getRoom 1).size.2.1 ≤ cfgTiny.max_room_size.2.1) ∧
     (1 ≤ ((Maze.build cfgTiny rngZero).getRoom 1).size.2.2 ∧
      ((Maze.build cfgTiny rngZero).getRoom 1).size.2.2 ≤ cfgTiny.max_room_size.2.2)) :=
  ⟨by decide, by decide,
    C8_size_bounds cfgTiny rngZero (by decide) ((Maze.build cfgTiny rngZero).getRoom 1)
      (by decide) (by decide) (by decide)⟩

end AMazeIng

namespace AMazeIng

/-- The recorded (neighbour id, direction) pairs of a room, in order. -/
def nbrPairs (r : Room) : List (Int × Nat) := r.neighbors.zip r.neighbors_directions

theorem zip_exists_of_mem_left {α β : Type _} :
    ∀ (as : List α) (bs : List β), as.length = bs.length →
      ∀ a ∈ as, ∃ b, (a, b) ∈ as.zip bs := by
  intro as
  induction as with
  | nil => intro bs _ a ha; simp at ha
  | cons x xs ih =>
    intro bs hlen a ha
    cases bs with
    | nil => simp at hlen
    | cons y ys =>
      rcases List.mem_cons.mp ha with rfl | ha
      · exact ⟨y, by simp⟩
      · rcases ih ys (by simpa using hlen) a ha with ⟨b, hb⟩
        exact ⟨b, List.mem_cons_of_mem _ hb⟩

theorem mem_neighbors_add_neighbor (r : Room) (m n : Int) (d : Nat) :
    n ∈ (r.add_neighbor m d).neighbors ↔ n ∈ r.neighbors ∨ n = m := by
  unfold Room.add_neighbor
  split
  · rename_i hm
    constructor
    · exact fun h => Or.inl h
    · rintro (h | rfl)
      · exact h
      · exact hm
  · simp [List.mem_append]

theorem nbrPairs_add_neighbor_sub {r : Room} (hWF : roomWF r) (m : Int) (dm : Nat)
    {n : Int} {d : Nat} (h : (n, d) ∈ nbrPairs (r.add_neighbor m dm)) :
    (n, d) ∈ nbrPairs r ∨ (n = m ∧ d = dm) := by
  unfold Room.add_neighbor at h
  split at h
  · exact Or.inl h
  · have he : nbrPairs ({ r with neighbors := r.neighbors ++ [m], neighbors_directions := r.neighbors_directions ++ [dm] } : Room) = nbrPairs r ++ [(m, dm)] := by
      unfold nbrPairs
      simp only
      rw [List.zip_append hWF.1]
      rfl
    rw [he] at h
    rcases List.mem_append.mp h with h | h
    · exact Or.inl h
    · simp only [List.mem_singleton, Prod.mk.injEq] at h
      exact Or.inr h

theorem neighbors_scanFace (g : Cell → Option Int) (cells : List Cell) :
    ∀ (r : Room) (d : Nat) (n : Int),
      n ∈ (scanFace g r cells d).neighbors ↔
        n ∈ r.neighbors ∨ ∃ c ∈ cells, (g c).getD (-2) = n := by
  induction cells with
  | nil => intro r d n; simp [scanFace]
  | cons c cs ih =>
    intro r d n
    have hstep : scanFace g r (c :: cs) d =
        scanFace g (r.add_neighbor ((g c).getD (-2)) d) cs d := rfl
    rw [hstep, ih, mem_neighbors_add_neighbor]
    constructor
    · rintro ((h | rfl) | ⟨c', hc', he⟩)
      · exact Or.inl h
      · exact Or.inr ⟨c, List.mem_cons_self c cs, rfl⟩
      · exact Or.inr ⟨c', List.mem_cons_of_mem _ hc', he⟩
    · rintro (h | ⟨c', hc', he⟩)
      · exact Or.inl (Or.inl h)
      · rcases List.mem_cons.mp hc' with rfl | hc'
        · exact Or.inl (Or.inr he.symm)
        · exact Or.inr ⟨c', hc', he⟩

theorem nbrPairs_scanFace_sub (g : Cell → Option Int) (cells : List Cell) :
    ∀ (r : Room), roomWF r → ∀ (d : Nat) (n : Int) (d' : Nat),
      (n, d') ∈ nbrPairs (scanFace g r cells d) →
      (n, d') ∈ nbrPairs r ∨ (d' = d ∧ ∃ c ∈ cells, (g c).getD (-2) = n) := by
  induction cells with
  | nil => intro r _ d n d' h; exact Or.inl h
  | cons c cs ih =>
    intro r hWF d n d' h
    have hstep : scanFace g r (c :: cs) d =
        scanFace g (r.add_neighbor ((g c).getD (-2)) d) cs d := rfl
    rw [hstep] at h
    rcases ih _ (roomWF_add_neighbor hWF _ _) d n d' h with h1 | ⟨rfl, c', hc', he⟩
    · rcases nbrPairs_add_neighbor_sub hWF _ _ h1 with h2 | ⟨rfl, rfl⟩
      · exact Or.inl h2
      · exact Or.inr ⟨rfl, c, List.mem_cons_self c cs, rfl⟩
    · exact Or.inr ⟨rfl, c', List.mem_cons_of_mem _ hc', he⟩

/-- The direction fold of `_generate_maze_network` for one room, with the face
source room made explicit. -/
def scanDirs (s : MazeState) (r0 : Room) (ds : List Nat) (r : Room) : Room :=
  ds.foldl (fun acc d => scanFace s.maze acc (faceCells s r0 d) d) r

theorem build_network_room_eq (s : MazeState) (r : Room) :
    build_network_room s r = scanDirs s r [0, 1, 2, 3, 4, 5] r := rfl

theorem neighbors_scanDirs (s : MazeState) (r0 : Room) :
    ∀ (ds : List Nat) (r : Room) (n : Int),
      n ∈ (scanDirs s r0 ds r).neighbors ↔
        n ∈ r.neighbors ∨ ∃ d ∈ ds, ∃ c ∈ faceCells s r0 d, (s.maze c).getD (-2) = n := by
  intro ds
  induction ds with
  | nil => intro r n; simp [scanDirs]
  | cons d dt ih =>
    intro r n
    have hstep : scanDirs s r0 (d :: dt) r =
        scanDirs s r0 dt (scanFace s.maze r (faceCells s r0 d) d) := rfl
    rw [hstep, ih, neighbors_scanFace]
    constructor
    · rintro ((h | ⟨c, hc, he⟩) | ⟨d', hd', hf⟩)
      · exact Or.inl h
      · exact Or.inr ⟨d, List.mem_cons_self d dt, c, hc, he⟩
      · exact Or.inr ⟨d', List.mem_cons_of_mem _ hd', hf⟩
    · rintro (h | ⟨d', hd', hf⟩)
      · exact Or.inl (Or.inl h)
      · rcases List.mem_cons.mp hd' with rfl | hd'
        · exact Or.inl (Or.inr hf)
        · exact Or.inr ⟨d', hd', hf⟩

theorem nbrPairs_scanDirs_sub (s : MazeState) (r0 : Room) :
    ∀ (ds : List Nat) (r : Room), roomWF r → ∀ (n : Int) (d' : Nat),
      (n, d') ∈ nbrPairs (scanDirs s r0 ds r) →
      (n, d') ∈ nbrPairs r ∨
        (d' ∈ ds ∧ ∃ c ∈ faceCells s r0 d', (s.maze c).getD (-2) = n) := by
  intro ds
  induction ds with
  | nil => intro r _ n d' h; exact Or.inl h
  | cons d dt ih =>
    intro r hWF n d' h
    have hstep : scanDirs s r0 (d :: dt) r =
        scanDirs s r0 dt (scanFace s.maze r (faceCells s r0 d) d) := rfl
    rw [hstep] at h
    rcases ih _ (roomWF_scanFace hWF _ _ _) n d' h with h1 | ⟨hd', hf⟩
    · rcases nbrPairs_scanFace_sub s.maze _ r hWF d n d' h1 with h2 | ⟨rfl, hf⟩
      · exact Or.inl h2
      · exact Or.inr ⟨List.mem_cons_self _ _, hf⟩
    · exact Or.inr ⟨List.mem_cons_of_mem _ hd', hf⟩

end AMazeIng

namespace AMazeIng

theorem rangeFrom_mem (a n x : Nat) : x ∈ rangeFrom a n ↔ a ≤ x ∧ x < a + n := by
  simp only [rangeFrom, List.mem_map, List.mem_range]
  constructor
  · rintro ⟨k, hk, rfl⟩
    omega
  · rintro ⟨h1, h2⟩
    exact ⟨x - a, by omega, by omega⟩

theorem faceCells_mem0 (s : MazeState) (A : Room) (c : Cell) :
    c ∈ faceCells s A 0 ↔ 0 < A.loc.1 ∧ c.1 = A.loc.1 - 1 ∧
      A.loc.2.1 ≤ c.2.1 ∧ c.2.1 < A.loc.2.1 + A.size.2.1 ∧
      A.loc.2.2 ≤ c.2.2 ∧ c.2.2 < A.loc.2.2 + A.size.2.2 := by
  rcases c with ⟨a, b, d⟩
  show (a, b, d) ∈ (if 0 < A.loc.1 then _ else []) ↔ _
  split
  · rename_i hg
    simp only [List.mem_flatMap, List.mem_map, rangeFrom_mem]
    constructor
    · rintro ⟨ri, hri, ci, hci, heq⟩
      simp only [Prod.mk.injEq] at heq
      obtain ⟨e1, e2, e3⟩ := heq
      subst e1; subst e2; subst e3
      exact ⟨hg, rfl, hri.1, hri.2, hci.1, hci.2⟩
    · rintro ⟨-, e1, h1, h2, h3, h4⟩
      subst e1
      exact ⟨b, ⟨h1, h2⟩, d, ⟨h3, h4⟩, rfl⟩
  · rename_i hg
    constructor
    · intro h; exact absurd h (List.not_mem_nil _)
    · rintro ⟨h, -⟩; exact absurd h hg

theorem faceCells_mem1 (s : MazeState) (A : Room) (c : Cell) :
    c ∈ faceCells s A 1 ↔ A.loc.1 + A.size.1 < s.mh ∧ c.1 = A.loc.1 + A.size.1 ∧
      A.loc.2.1 ≤ c.2.1 ∧ c.2.1 < A.loc.2.1 + A.size.2.1 ∧
      A.loc.2.2 ≤ c.2.2 ∧ c.2.2 < A.loc.2.2 + A.size.2.2 := by
  rcases c with ⟨a, b, d⟩
  show (a, b, d) ∈ (if A.loc.1 + A.size.1 < s.mh then _ else []) ↔ _
  split
  · rename_i hg
    simp only [List.mem_flatMap, List.mem_map, rangeFrom_mem]
    constructor
    · rintro ⟨ri, hri, ci, hci, heq⟩
      simp only [Prod.mk.injEq] at heq
      obtain ⟨e1, e2, e3⟩ := heq
      subst e1; subst e2; subst e3
      exact ⟨hg, rfl, hri.1, hri.2, hci.1, hci.2⟩
    · rintro ⟨-, e1, h1, h2, h3, h4⟩
      subst e1
      exact ⟨b, ⟨h1, h2⟩, d, ⟨h3, h4⟩, rfl⟩
  · rename_i hg
    constructor
    · intro h; exact absurd h (List.not_mem_nil _)
    · rintro ⟨h, -⟩; exact absurd h hg

theorem faceCells_mem2 (s : MazeState) (A : Room) (c : Cell) :
    c ∈ faceCells s A 2 ↔ 0 < A.loc.2.1 ∧ c.2.1 = A.loc.2.1 - 1 ∧
      A.loc.1 ≤ c.1 ∧ c.1 < A.loc.1 + A.size.1 ∧
      A.loc.2.2 ≤ c.2.2 ∧ c.2.2 < A.loc.2.2 + A.size.2.2 := by
  rcases c with ⟨a, b, d⟩
  show (a, b, d) ∈ (if 0 < A.loc.2.1 then _ else []) ↔ _
  split
  · rename_i hg
    simp only [List.mem_flatMap, List.mem_map, rangeFrom_mem]
    constructor
    · rintro ⟨hi, hhi, ci, hci, heq⟩
      simp only [Prod.mk.injEq] at heq
      obtain ⟨e1, e2, e3⟩ := heq
      subst e1; subst e2; subst e3
      exact ⟨hg, rfl, hhi.1, hhi.2, hci.1, hci.2⟩
    · rintro ⟨-, e1, h1, h2, h3, h4⟩
      subst e1
      exact ⟨a, ⟨h1, h2⟩, d, ⟨h3, h4⟩, rfl⟩
  · rename_i hg
    constructor
    · intro h; exact absurd h (List.not_mem_nil _)
    · rintro ⟨h, -⟩; exact absurd h hg

theorem faceCells_mem3 (s : MazeState) (A : Room) (c : Cell) :
    c ∈ faceCells s A 3 ↔ A.loc.2.1 + A.size.2.1 < s.mr ∧ c.2.1 = A.loc.2.1 + A.size.2.1 ∧
      A.loc.1 ≤ c.1 ∧ c.1 < A.loc.1 + A.size.1 ∧
      A.loc.2.2 ≤ c.2.2 ∧ c.2.2 < A.loc.2.2 + A.size.2.2 := by
  rcases c with ⟨a, b, d⟩
  show (a, b, d) ∈ (if A.loc.2.1 + A.size.2.1 < s.mr then _ else []) ↔ _
  split
  · rename_i hg
    simp only [List.mem_flatMap, List.mem_map, rangeFrom_mem]
    constructor
    · rintro ⟨hi, hhi, ci, hci, heq⟩
      simp only [Prod.mk.injEq] at heq
      obtain ⟨e1, e2, e3⟩ := heq
      subst e1; subst e2; subst e3
      exact ⟨hg, rfl, hhi.1, hhi.2, hci.1, hci.2⟩
    · rintro ⟨-, e1, h1, h2, h3, h4⟩
      subst e1
      exact ⟨a, ⟨h1, h2⟩, d, ⟨h3, h4⟩, rfl⟩
  · rename_i hg
    constructor
    · intro h; exact absurd h (List.not_mem_nil _)
    · rintro ⟨h, -⟩; exact absurd h hg

theorem faceCells_mem4 (s : MazeState) (A : Room) (c : Cell) :
    c ∈ faceCells s A 4 ↔ 0 < A.loc.2.2 ∧ c.2.2 = A.loc.2.2 - 1 ∧
      A.loc.1 ≤ c.1 ∧ c.1 < A.loc.1 + A.size.1 ∧
      A.loc.2.1 ≤ c.2.1 ∧ c.2.1 < A.loc.2.1 + A.size.2.1 := by
  rcases c with ⟨a, b, d⟩
  show (a, b, d) ∈ (if 0 < A.loc.2.2 then _ else []) ↔ _
  split
  · rename_i hg
    simp only [List.mem_flatMap, List.mem_map, rangeFrom_mem]
    constructor
    · rintro ⟨hi, hhi, ri, hri, heq⟩
      simp only [Prod.mk.injEq] at heq
      obtain ⟨e1, e2, e3⟩ := heq
      subst e1; subst e2; subst e3
      exact ⟨hg, rfl, hhi.1, hhi.2, hri.1, hri.2⟩
    · rintro ⟨-, e1, h1, h2, h3, h4⟩
      subst e1
      exact ⟨a, ⟨h1, h2⟩, b, ⟨h3, h4⟩, rfl⟩
  · rename_i hg
    constructor
    · intro h; exact absurd h (List.not_mem_nil _)
    · rintro ⟨h, -⟩; exact absurd h hg

theorem faceCells_mem5 (s : MazeState) (A : Room) (c : Cell) :
    c ∈ faceCells s A 5 ↔ A.loc.2.2 + A.size.2.2 < s.mc ∧ c.2.2 = A.loc.2.2 + A.size.2.2 ∧
      A.loc.1 ≤ c.1 ∧ c.1 < A.loc.1 + A.size.1 ∧
      A.loc.2.1 ≤ c.2.1 ∧ c.2.1 < A.loc.2.1 + A.size.2.1 := by
  rcases c with ⟨a, b, d⟩
  show (a, b, d) ∈ (if A.loc.2.2 + A.size.2.2 < s.mc then _ else []) ↔ _
  split
  · rename_i hg
    simp only [List.mem_flatMap, List.mem_map, rangeFrom_mem]
    constructor
    · rintro ⟨hi, hhi, ri, hri, heq⟩
      simp only [Prod.mk.injEq] at heq
      obtain ⟨e1, e2, e3⟩ := heq
      subst e1; subst e2; subst e3
      exact ⟨hg, rfl, hhi.1, hhi.2, hri.1, hri.2⟩
    · rintro ⟨-, e1, h1, h2, h3, h4⟩
      subst e1
      exact ⟨a, ⟨h1, h2⟩, b, ⟨h3, h4⟩, rfl⟩
  · rename_i hg
    constructor
    · intro h; exact absurd h (List.not_mem_nil _)
    · rintro ⟨h, -⟩; exact absurd h hg

theorem faceCells_ge6 (s : MazeState) (A : Room) (n : Nat) :
    faceCells s A (n + 6) = [] := rfl

theorem maze_getD_eq_some (cfg : Config) {s : MazeState} (hI : PartInv cfg s)
    {B : Room} (hB : B ∈ s.rooms) {c : Cell}
    (h : (s.maze c).getD (-2) = B.id) : s.maze c = some B.id := by
  have hsane := hI.sane B hB
  cases hm : s.maze c with
  | none =>
    rw [hm] at h
    simp only [Option.getD_none] at h
    omega
  | some i =>
    rw [hm] at h
    simp only [Option.getD_some] at h
    rw [h]

end AMazeIng

namespace AMazeIng

theorem inBox_mk (loc size : Cell) (x y z : Nat) :
    inBox loc size (x, y, z) = true ↔
      loc.1 ≤ x ∧ x < loc.1 + size.1 ∧ loc.2.1 ≤ y ∧ y < loc.2.1 + size.2.1 ∧
      loc.2.2 ≤ z ∧ z < loc.2.2 + size.2.2 :=
  inBox_iff loc size (x, y, z)

theorem faceCells_mk0 (s : MazeState) (A : Room) (x y z : Nat) :
    (x, y, z) ∈ faceCells s A 0 ↔ 0 < A.loc.1 ∧ x = A.loc.1 - 1 ∧
      A.loc.2.1 ≤ y ∧ y < A.loc.2.1 + A.size.2.1 ∧
      A.loc.2.2 ≤ z ∧ z < A.loc.2.2 + A.size.2.2 :=
  faceCells_mem0 s A (x, y, z)

theorem faceCells_mk1 (s : MazeState) (A : Room) (x y z : Nat) :
    (x, y, z) ∈ faceCells s A 1 ↔ A.loc.1 + A.size.1 < s.mh ∧ x = A.loc.1 + A.size.1 ∧
      A.loc.2.1 ≤ y ∧ y < A.loc.2.1 + A.size.2.1 ∧
      A.loc.2.2 ≤ z ∧ z < A.loc.2.2 + A.size.2.2 :=
  faceCells_mem1 s A (x, y, z)

theorem faceCells_mk2 (s : MazeState) (A : Room) (x y z : Nat) :
    (x, y, z) ∈ faceCells s A 2 ↔ 0 < A.loc.2.1 ∧ y = A.loc.2.1 - 1 ∧
      A.loc.1 ≤ x ∧ x < A.loc.1 + A.size.1 ∧
      A.loc.2.2 ≤ z ∧ z < A.loc.2.2 + A.size.2.2 :=
  faceCells_mem2 s A (x, y, z)

theorem faceCells_mk3 (s : MazeState) (A : Room) (x y z : Nat) :
    (x, y, z) ∈ faceCells s A 3 ↔ A.loc.2.1 + A.size.2.1 < s.mr ∧ y = A.loc.2.1 + A.size.2.1 ∧
      A.loc.1 ≤ x ∧ x < A.loc.1 + A.size.1 ∧
      A.loc.2.2 ≤ z ∧ z < A.loc.2.2 + A.size.2.2 :=
  faceCells_mem3 s A (x, y, z)

theorem faceCells_mk4 (s : MazeState) (A : Room) (x y z : Nat) :
    (x, y, z) ∈ faceCells s A 4 ↔ 0 < A.loc.2.2 ∧ z = A.loc.2.2 - 1 ∧
      A.loc.1 ≤ x ∧ x < A.loc.1 + A.size.1 ∧
      A.loc.2.1 ≤ y ∧ y < A.loc.2.1 + A.size.2.1 :=
  faceCells_mem4 s A (x, y, z)

theorem faceCells_mk5 (s : MazeState) (A : Room) (x y z : Nat) :
    (x, y, z) ∈ faceCells s A 5 ↔ A.loc.2.2 + A.size.2.2 < s.mc ∧ z = A.loc.2.2 + A.size.2.2 ∧
      A.loc.1 ≤ x ∧ x < A.loc.1 + A.size.1 ∧
      A.loc.2.1 ≤ y ∧ y < A.loc.2.1 + A.size.2.1 :=
  faceCells_mem5 s A (x, y, z)

theorem boxes_disjoint_cell (cfg : Config) {s : MazeState} (hI : PartInv cfg s) {A B : Room}
    (hA : A ∈ s.rooms) (hB : B ∈ s.rooms) {c : Cell}
    (h1 : inBox A.loc A.size c = true) (h2 : inBox B.loc B.size c = true) : A = B := by
  have e1 := (hI.gm c A.id).mpr ⟨A, hA, rfl, h1⟩
  have e2 := (hI.gm c B.id).mpr ⟨B, hB, rfl, h2⟩
  rw [e1] at e2
  exact rooms_id_inj hI hA hB (Option.some.inj e2)

theorem foundAt_iff0 (cfg : Config) {s : MazeState} (hI : PartInv cfg s)
    {A B : Room} (hA : A ∈ s.rooms) (hB : B ∈ s.rooms) :
    (∃ c ∈ faceCells s A 0, (s.maze c).getD (-2) = B.id) ↔ boxAdjAt A B 0 := by
  obtain ⟨sA1, sA2, sA3, fA1, fA2, fA3⟩ := hI.boxes A hA
  obtain ⟨sB1, sB2, sB3, fB1, fB2, fB3⟩ := hI.boxes B hB
  constructor
  · rintro ⟨⟨x, y, z⟩, hc, hid⟩
    rw [faceCells_mk0] at hc
    obtain ⟨hg, he, hy1, hy2, hz1, hz2⟩ := hc
    have hmz := maze_getD_eq_some cfg hI hB hid
    obtain ⟨B', hB', hBid, hbox⟩ := (hI.gm (x, y, z) B.id).mp hmz
    obtain rfl := rooms_id_inj hI hB' hB hBid
    rw [inBox_mk] at hbox
    obtain ⟨hb1, hb2, hb3, hb4, hb5, hb6⟩ := hbox
    have hflush : A.loc.1 = B'.loc.1 + B'.size.1 := by
      by_contra hne
      have hAB : A = B' := by
        apply boxes_disjoint_cell cfg hI hA hB' (c := (A.loc.1, y, z))
        · rw [inBox_mk]
          exact ⟨by omega, by omega, hy1, hy2, hz1, hz2⟩
        · rw [inBox_mk]
          exact ⟨by omega, by omega, hb3, hb4, hb5, hb6⟩
      subst hAB
      omega
    refine ⟨by omega, ?_, ?_⟩
    · show decide (A.loc.1 = B'.loc.1 + B'.size.1) = true
      rw [decide_eq_true_eq]
      exact hflush
    · intro ax h3 hne
      have hne0 : ax ≠ 0 := fun h => hne (h.trans rfl)
      have hax : ax = 1 ∨ ax = 2 := by omega
      rcases hax with rfl | rfl
      · show decide (max A.loc.2.1 B'.loc.2.1 <
          min (A.loc.2.1 + A.size.2.1) (B'.loc.2.1 + B'.size.2.1)) = true
        rw [decide_eq_true_eq]
        omega
      · show decide (max A.loc.2.2 B'.loc.2.2 <
          min (A.loc.2.2 + A.size.2.2) (B'.loc.2.2 + B'.size.2.2)) = true
        rw [decide_eq_true_eq]
        omega
  · rintro ⟨-, ht, hov⟩
    have hflush : A.loc.1 = B.loc.1 + B.size.1 := by
      have ht' : decide (A.loc.1 = B.loc.1 + B.size.1) = true := ht
      rwa [decide_eq_true_eq] at ht'
    have hov1 : max A.loc.2.1 B.loc.2.1 <
        min (A.loc.2.1 + A.size.2.1) (B.loc.2.1 + B.size.2.1) := by
      have h := hov 1 (by omega) (by decide)
      have h' : decide (max A.loc.2.1 B.loc.2.1 <
        min (A.loc.2.1 + A.size.2.1) (B.loc.2.1 + B.size.2.1)) = true := h
      rwa [decide_eq_true_eq] at h'
    have hov2 : max A.loc.2.2 B.loc.2.2 <
        min (A.loc.2.2 + A.size.2.2) (B.loc.2.2 + B.size.2.2) := by
      have h := hov 2 (by omega) (by decide)
      have h' : decide (max A.loc.2.2 B.loc.2.2 <
        min (A.loc.2.2 + A.size.2.2) (B.loc.2.2 + B.size.2.2)) = true := h
      rwa [decide_eq_true_eq] at h'
    refine ⟨(A.loc.1 - 1, max A.loc.2.1 B.loc.2.1, max A.loc.2.2 B.loc.2.2), ?_, ?_⟩
    · rw [faceCells_mk0]
      exact ⟨by omega, rfl, by omega, by omega, by omega, by omega⟩
    · have hbox : inBox B.loc B.size
          (A.loc.1 - 1, max A.loc.2.1 B.loc.2.1, max A.loc.2.2 B.loc.2.2) = true := by
        rw [inBox_mk]
        exact ⟨by omega, by omega, by omega, by omega, by omega, by omega⟩
      have hm := (hI.gm _ B.id).mpr ⟨B, hB, rfl, hbox⟩
      rw [hm]
      rfl

theorem foundAt_iff1 (cfg : Config) {s : MazeState} (hI : PartInv cfg s)
    {A B : Room} (hA : A ∈ s.rooms) (hB : B ∈ s.rooms) :
    (∃ c ∈ faceCells s A 1, (s.maze c).getD (-2) = B.id) ↔ boxAdjAt A B 1 := by
  obtain ⟨sA1, sA2, sA3, fA1, fA2, fA3⟩ := hI.boxes A hA
  obtain ⟨sB1, sB2, sB3, fB1, fB2, fB3⟩ := hI.boxes B hB
  constructor
  · rintro ⟨⟨x, y, z⟩, hc, hid⟩
    rw [faceCells_mk1] at hc
    obtain ⟨hg, he, hy1, hy2, hz1, hz2⟩ := hc
    have hmz := maze_getD_eq_some cfg hI hB hid
    obtain ⟨B', hB', hBid, hbox⟩ := (hI.gm (x, y, z) B.id).mp hmz
    obtain rfl := rooms_id_inj hI hB' hB hBid
    rw [inBox_mk] at hbox
    obtain ⟨hb1, hb2, hb3, hb4, hb5, hb6⟩ := hbox
    have hflush : B'.loc.1 = A.loc.1 + A.size.1 := by
      by_contra hne
      have hAB : A = B' := by
        apply boxes_disjoint_cell cfg hI hA hB' (c := (A.loc.1 + A.size.1 - 1, y, z))
        · rw [inBox_mk]
          exact ⟨by omega, by omega, hy1, hy2, hz1, hz2⟩
        · rw [inBox_mk]
          exact ⟨by omega, by omega, hb3, hb4, hb5, hb6⟩
      subst hAB
      omega
    refine ⟨by omega, ?_, ?_⟩
    · show decide (B'.loc.1 = A.loc.1 + A.size.1) = true
      rw [decide_eq_true_eq]
      exact hflush
    · intro ax h3 hne
      have hne0 : ax ≠ 0 := fun h => hne (h.trans rfl)
      have hax : ax = 1 ∨ ax = 2 := by omega
      rcases hax with rfl | rfl
      · show decide (max A.loc.2.1 B'.loc.2.1 <
          min (A.loc.2.1 + A.size.2.1) (B'.loc.2.1 + B'.size.2.1)) = true
        rw [decide_eq_true_eq]
        omega
      · show decide (max A.loc.2.2 B'.loc.2.2 <
          min (A.loc.2.2 + A.size.2.2) (B'.loc.2.2 + B'.size.2.2)) = true
        rw [decide_eq_true_eq]
        omega
  · rintro ⟨-, ht, hov⟩
    have hflush : B.loc.1 = A.loc.1 + A.size.1 := by
      have ht' : decide (B.loc.1 = A.loc.1 + A.size.1) = true := ht
      rwa [decide_eq_true_eq] at ht'
    have hov1 : max A.loc.2.1 B.loc.2.1 <
        min (A.loc.2.1 + A.size.2.1) (B.loc.2.1 + B.size.2.1) := by
      have h := hov 1 (by omega) (by decide)
      have h' : decide (max A.loc.2.1 B.loc.2.1 <
        min (A.loc.2.1 + A.size.2.1) (B.loc.2.1 + B.size.2.1)) = true := h
      rwa [decide_eq_true_eq] at h'
    have hov2 : max A.loc.2.2 B.loc.2.2 <
        min (A.loc.2.2 + A.size.2.2) (B.loc.2.2 + B.size.2.2) := by
      have h := hov 2 (by omega) (by decide)
      have h' : decide (max A.loc.2.2 B.loc.2.2 <
        min (A.loc.2.2 + A.size.2.2) (B.loc.2.2 + B.size.2.2)) = true := h
      rwa [decide_eq_true_eq] at h'
    refine ⟨(A.loc.1 + A.size.1, max A.loc.2.1 B.loc.2.1, max A.loc.2.2 B.loc.2.2), ?_, ?_⟩
    · rw [faceCells_mk1]
      exact ⟨by omega, rfl, by omega, by omega, by omega, by omega⟩
    · have hbox : inBox B.loc B.size
          (A.loc.1 + A.size.1, max A.loc.2.1 B.loc.2.1, max A.loc.2.2 B.loc.2.2) = true := by
        rw [inBox_mk]
        exact ⟨by omega, by omega, by omega, by omega, by omega, by omega⟩
      have hm := (hI.gm _ B.id).mpr ⟨B, hB, rfl, hbox⟩
      rw [hm]
      rfl

end AMazeIng

namespace AMazeIng

theorem foundAt_iff2 (cfg : Config) {s : MazeState} (hI : PartInv cfg s)
    {A B : Room} (hA : A ∈ s.rooms) (hB : B ∈ s.rooms) :
    (∃ c ∈ faceCells s A 2, (s.maze c).getD (-2) = B.id) ↔ boxAdjAt A B 2 := by
  obtain ⟨sA1, sA2, sA3, fA1, fA2, fA3⟩ := hI.boxes A hA
  obtain ⟨sB1, sB2, sB3, fB1, fB2, fB3⟩ := hI.boxes B hB
  constructor
  · rintro ⟨⟨x, y, z⟩, hc, hid⟩
    rw [faceCells_mk2] at hc
    obtain ⟨hg, he, hx1, hx2, hz1, hz2⟩ := hc
    have hmz := maze_getD_eq_some cfg hI hB hid
    obtain ⟨B', hB', hBid, hbox⟩ := (hI.gm (x, y, z) B.id).mp hmz
    obtain rfl := rooms_id_inj hI hB' hB hBid
    rw [inBox_mk] at hbox
    obtain ⟨hb1, hb2, hb3, hb4, hb5, hb6⟩ := hbox
    have hflush : A.loc.2.1 = B'.loc.2.1 + B'.size.2.1 := by
      by_contra hne
      have hAB : A = B' := by
        apply boxes_disjoint_cell cfg hI hA hB' (c := (x, A.loc.2.1, z))
        · rw [inBox_mk]
          exact ⟨hx1, hx2, by omega, by omega, hz1, hz2⟩
        · rw [inBox_mk]
          exact ⟨hb1, hb2, by omega, by omega, hb5, hb6⟩
      subst hAB
      omega
    refine ⟨by omega, ?_, ?_⟩
    · show decide (A.loc.2.1 = B'.loc.2.1 + B'.size.2.1) = true
      rw [decide_eq_true_eq]
      exact hflush
    · intro ax h3 hne
      have hne1 : ax ≠ 1 := fun h => hne (h.trans rfl)
      have hax : ax = 0 ∨ ax = 2 := by omega
      rcases hax with rfl | rfl
      · show decide (max A.loc.1 B'.loc.1 <
          min (A.loc.1 + A.size.1) (B'.loc.1 + B'.size.1)) = true
        rw [decide_eq_true_eq]
        omega
      · show decide (max A.loc.2.2 B'.loc.2.2 <
          min (A.loc.2.2 + A.size.2.2) (B'.loc.2.2 + B'.size.2.2)) = true
        rw [decide_eq_true_eq]
        omega
  · rintro ⟨-, ht, hov⟩
    have hflush : A.loc.2.1 = B.loc.2.1 + B.size.2.1 := by
      have ht' : decide (A.loc.2.1 = B.loc.2.1 + B.size.2.1) = true := ht
      rwa [decide_eq_true_eq] at ht'
    have hov0 : max A.loc.1 B.loc.1 < min (A.loc.1 + A.size.1) (B.loc.1 + B.size.1) := by
      have h := hov 0 (by omega) (by decide)
      have h' : decide (max A.loc.1 B.loc.1 <
        min (A.loc.1 + A.size.1) (B.loc.1 + B.size.1)) = true := h
      rwa [decide_eq_true_eq] at h'
    have hov2 : max A.loc.2.2 B.loc.2.2 <
        min (A.loc.2.2 + A.size.2.2) (B.loc.2.2 + B.size.2.2) := by
      have h := hov 2 (by omega) (by decide)
      have h' : decide (max A.loc.2.2 B.loc.2.2 <
        min (A.loc.2.2 + A.size.2.2) (B.loc.2.2 + B.size.2.2)) = true := h
      rwa [decide_eq_true_eq] at h'
    refine ⟨(max A.loc.1 B.loc.1, A.loc.2.1 - 1, max A.loc.2.2 B.loc.2.2), ?_, ?_⟩
    · rw [faceCells_mk2]
      exact ⟨by omega, rfl, by omega, by omega, by omega, by omega⟩
    · have hbox : inBox B.loc B.size
          (max A.loc.1 B.loc.1, A.loc.2.1 - 1, max A.loc.2.2 B.loc.2.2) = true := by
        rw [inBox_mk]
        exact ⟨by omega, by omega, by omega, by omega, by omega, by omega⟩
      have hm := (hI.gm _ B.id).mpr ⟨B, hB, rfl, hbox⟩
      rw [hm]
      rfl

theorem foundAt_iff3 (cfg : Config) {s : MazeState} (hI : PartInv cfg s)
    {A B : Room} (hA : A ∈ s.rooms) (hB : B ∈ s.rooms) :
    (∃ c ∈ faceCells s A 3, (s.maze c).getD (-2) = B.id) ↔ boxAdjAt A B 3 := by
  obtain ⟨sA1, sA2, sA3, fA1, fA2, fA3⟩ := hI.boxes A hA
  obtain ⟨sB1, sB2, sB3, fB1, fB2, fB3⟩ := hI.boxes B hB
  constructor
  · rintro ⟨⟨x, y, z⟩, hc, hid⟩
    rw [faceCells_mk3] at hc
    obtain ⟨hg, he, hx1, hx2, hz1, hz2⟩ := hc
    have hmz := maze_getD_eq_some cfg hI hB hid
    obtain ⟨B', hB', hBid, hbox⟩ := (hI.gm (x, y, z) B.id).mp hmz
    obtain rfl := rooms_id_inj hI hB' hB hBid
    rw [inBox_mk] at hbox
    obtain ⟨hb1, hb2, hb3, hb4, hb5, hb6⟩ := hbox
    have hflush : B'.loc.2.1 = A.loc.2.1 + A.size.2.1 := by
      by_contra hne
      have hAB : A = B' := by
        apply boxes_disjoint_cell cfg hI hA hB'
          (c := (x, A.loc.2.1 + A.size.2.1 - 1, z))
        · rw [inBox_mk]
          exact ⟨hx1, hx2, by omega, by omega, hz1, hz2⟩
        · rw [inBox_mk]
          exact ⟨hb1, hb2, by omega, by omega, hb5, hb6⟩
      subst hAB
      omega
    refine ⟨by omega, ?_, ?_⟩
    · show decide (B'.loc.2.1 = A.loc.2.1 + A.size.2.1) = true
      rw [decide_eq_true_eq]
      exact hflush
    · intro ax h3 hne
      have hne1 : ax ≠ 1 := fun h => hne (h.trans rfl)
      have hax : ax = 0 ∨ ax = 2 := by omega
      rcases hax with rfl | rfl
      · show decide (max A.loc.1 B'.loc.1 <
          min (A.loc.1 + A.size.1) (B'.loc.1 + B'.size.1)) = true
        rw [decide_eq_true_eq]
        omega
      · show decide (max A.loc.2.2 B'.loc.2.2 <
          min (A.loc.2.2 + A.size.2.2) (B'.loc.2.2 + B'.size.2.2)) = true
        rw [decide_eq_true_eq]
        omega
  · rintro ⟨-, ht, hov⟩
    have hflush : B.loc.2.1 = A.loc.2.1 + A.size.2.1 := by
      have ht' : decide (B.loc.2.1 = A.loc.2.1 + A.size.2.1) = true := ht
      rwa [decide_eq_true_eq] at ht'
    have hov0 : max A.loc.1 B.loc.1 < min (A.loc.1 + A.size.1) (B.loc.1 + B.size.1) := by
      have h := hov 0 (by omega) (by decide)
      have h' : decide (max A.loc.1 B.loc.1 <
        min (A.loc.1 + A.size.1) (B.loc.1 + B.size.1)) = true := h
      rwa [decide_eq_true_eq] at h'
    have hov2 : max A.loc.2.2 B.loc.2.2 <
        min (A.loc.2.2 + A.size.2.2) (B.loc.2.2 + B.size.2.2) := by
      have h := hov 2 (by omega) (by decide)
      have h' : decide (max A.loc.2.2 B.loc.2.2 <
        min (A.loc.2.2 + A.size.2.2) (B.loc.2.2 + B.size.2.2)) = true := h
      rwa [decide_eq_true_eq] at h'
    refine ⟨(max A.loc.1 B.loc.1, A.loc.2.1 + A.size.2.1, max A.loc.2.2 B.loc.2.2), ?_, ?_⟩
    · rw [faceCells_mk3]
      exact ⟨by omega, rfl, by omega, by omega, by omega, by omega⟩
    · have hbox : inBox B.loc B.size
          (max A.loc.1 B.loc.1, A.loc.2.1 + A.size.2.1, max A.loc.2.2 B.loc.2.2) = true := by
        rw [inBox_mk]
        exact ⟨by omega, by omega, by omega, by omega, by omega, by omega⟩
      have hm := (hI.gm _ B.id).mpr ⟨B, hB, rfl, hbox⟩
      rw [hm]
      rfl

theorem foundAt_iff4 (cfg : Config) {s : MazeState} (hI : PartInv cfg s)
    {A B : Room} (hA : A ∈ s.rooms) (hB : B ∈ s.rooms) :
    (∃ c ∈ faceCells s A 4, (s.maze c).getD (-2) = B.id) ↔ boxAdjAt A B 4 := by
  obtain ⟨sA1, sA2, sA3, fA1, fA2, fA3⟩ := hI.boxes A hA
  obtain ⟨sB1, sB2, sB3, fB1, fB2, fB3⟩ := hI.boxes B hB
  constructor
  · rintro ⟨⟨x, y, z⟩, hc, hid⟩
    rw [faceCells_mk4] at hc
    obtain ⟨hg, he, hx1, hx2, hy1, hy2⟩ := hc
    have hmz := maze_getD_eq_some cfg hI hB hid
    obtain ⟨B', hB', hBid, hbox⟩ := (hI.gm (x, y, z) B.id).mp hmz
    obtain rfl := rooms_id_inj hI hB' hB hBid
    rw [inBox_mk] at hbox
    obtain ⟨hb1, hb2, hb3, hb4, hb5, hb6⟩ := hbox
    have hflush : A.loc.2.2 = B'.loc.2.2 + B'.size.2.2 := by
      by_contra hne
      have hAB : A = B' := by
        apply boxes_disjoint_cell cfg hI hA hB' (c := (x, y, A.loc.2.2))
        · rw [inBox_mk]
          exact ⟨hx1, hx2, hy1, hy2, by omega, by omega⟩
        · rw [inBox_mk]
          exact ⟨hb1, hb2, hb3, hb4, by omega, by omega⟩
      subst hAB
      omega
    refine ⟨by omega, ?_, ?_⟩
    · show decide (A.loc.2.2 = B'.loc.2.2 + B'.size.2.2) = true
      rw [decide_eq_true_eq]
      exact hflush
    · intro ax h3 hne
      have hne2 : ax ≠ 2 := fun h => hne (h.trans rfl)
      have hax : ax = 0 ∨ ax = 1 := by omega
      rcases hax with rfl | rfl
      · show decide (max A.loc.1 B'.loc.1 <
          min (A.loc.1 + A.size.1) (B'.loc.1 + B'.size.1)) = true
        rw [decide_eq_true_eq]
        omega
      · show decide (max A.loc.2.1 B'.loc.2.1 <
          min (A.loc.2.1 + A.size.2.1) (B'.loc.2.1 + B'.size.2.1)) = true
        rw [decide_eq_true_eq]
        omega
  · rintro ⟨-, ht, hov⟩
    have hflush : A.loc.2.2 = B.loc.2.2 + B.size.2.2 := by
      have ht' : decide (A.loc.2.2 = B.loc.2.2 + B.size.2.2) = true := ht
      rwa [decide_eq_true_eq] at ht'
    have hov0 : max A.loc.1 B.loc.1 < min (A.loc.1 + A.size.1) (B.loc.1 + B.size.1) := by
      have h := hov 0 (by omega) (by decide)
      have h' : decide (max A.loc.1 B.loc.1 <
        min (A.loc.1 + A.size.1) (B.loc.1 + B.size.1)) = true := h
      rwa [decide_eq_true_eq] at h'
    have hov1 : max A.loc.2.1 B.loc.2.1 <
        min (A.loc.2.1 + A.size.2.1) (B.loc.2.1 + B.size.2.1) := by
      have h := hov 1 (by omega) (by decide)
      have h' : decide (max A.loc.2.1 B.loc.2.1 <
        min (A.loc.2.1 + A.size.2.1) (B.loc.2.1 + B.size.2.1)) = true := h
      rwa [decide_eq_true_eq] at h'
    refine ⟨(max A.loc.1 B.loc.1, max A.loc.2.1 B.loc.2.1, A.loc.2.2 - 1), ?_, ?_⟩
    · rw [faceCells_mk4]
      exact ⟨by omega, rfl, by omega, by omega, by omega, by omega⟩
    · have hbox : inBox B.loc B.size
          (max A.loc.1 B.loc.1, max A.loc.2.1 B.loc.2.1, A.loc.2.2 - 1) = true := by
        rw [inBox_mk]
        exact ⟨by omega, by omega, by omega, by omega, by omega, by omega⟩
      have hm := (hI.gm _ B.id).mpr ⟨B, hB, rfl, hbox⟩
      rw [hm]
      rfl

theorem foundAt_iff5 (cfg : Config) {s : MazeState} (hI : PartInv cfg s)
    {A B : Room} (hA : A ∈ s.rooms) (hB : B ∈ s.rooms) :
    (∃ c ∈ faceCells s A 5, (s.maze c).getD (-2) = B.id) ↔ boxAdjAt A B 5 := by
  obtain ⟨sA1, sA2, sA3, fA1, fA2, fA3⟩ := hI.boxes A hA
  obtain ⟨sB1, sB2, sB3, fB1, fB2, fB3⟩ := hI.boxes B hB
  constructor
  · rintro ⟨⟨x, y, z⟩, hc, hid⟩
    rw [faceCells_mk5] at hc
    obtain ⟨hg, he, hx1, hx2, hy1, hy2⟩ := hc
    have hmz := maze_getD_eq_some cfg hI hB hid
    obtain ⟨B', hB', hBid, hbox⟩ := (hI.gm (x, y, z) B.id).mp hmz
    obtain rfl := rooms_id_inj hI hB' hB hBid
    rw [inBox_mk] at hbox
    obtain ⟨hb1, hb2, hb3, hb4, hb5, hb6⟩ := hbox
    have hflush : B'.loc.2.2 = A.loc.2.2 + A.size.2.2 := by
      by_contra hne
      have hAB : A = B' := by
        apply boxes_disjoint_cell cfg hI hA hB'
          (c := (x, y, A.loc.2.2 + A.size.2.2 - 1))
        · rw [inBox_mk]
          exact ⟨hx1, hx2, hy1, hy2, by omega, by omega⟩
        · rw [inBox_mk]
          exact ⟨hb1, hb2, hb3, hb4, by omega, by omega⟩
      subst hAB
      omega
    refine ⟨by omega, ?_, ?_⟩
    · show decide (B'.loc.2.2 = A.loc.2.2 + A.size.2.2) = true
      rw [decide_eq_true_eq]
      exact hflush
    · intro ax h3 hne
      have hne2 : ax ≠ 2 := fun h => hne (h.trans rfl)
      have hax : ax = 0 ∨ ax = 1 := by omega
      rcases hax with rfl | rfl
      · show decide (max A.loc.1 B'.loc.1 <
          min (A.loc.1 + A.size.1) (B'.loc.1 + B'.size.1)) = true
        rw [decide_eq_true_eq]
        omega
      · show decide (max A.loc.2.1 B'.loc.2.1 <
          min (A.loc.2.1 + A.size.2.1) (B'.loc.2.1 + B'.size.2.1)) = true
        rw [decide_eq_true_eq]
        omega
  · rintro ⟨-, ht, hov⟩
    have hflush : B.loc.2.2 = A.loc.2.2 + A.size.2.2 := by
      have ht' : decide (B.loc.2.2 = A.loc.2.2 + A.size.2.2) = true := ht
      rwa [decide_eq_true_eq] at ht'
    have hov0 : max A.loc.1 B.loc.1 < min (A.loc.1 + A.size.1) (B.loc.1 + B.size.1) := by
      have h := hov 0 (by omega) (by decide)
      have h' : decide (max A.loc.1 B.loc.1 <
        min (A.loc.1 + A.size.1) (B.loc.1 + B.size.1)) = true := h
      rwa [decide_eq_true_eq] at h'
    have hov1 : max A.loc.2.1 B.loc.2.1 <
        min (A.loc.2.1 + A.size.2.1) (B.loc.2.1 + B.size.2.1) := by
      have h := hov 1 (by omega) (by decide)
      have h' : decide (max A.loc.2.1 B.loc.2.1 <
        min (A.loc.2.1 + A.size.2.1) (B.loc.2.1 + B.size.2.1)) = true := h
      rwa [decide_eq_true_eq] at h'
    refine ⟨(max A.loc.1 B.loc.1, max A.loc.2.1 B.loc.2.1, A.loc.2.2 + A.size.2.2), ?_, ?_⟩
    · rw [faceCells_mk5]
      exact ⟨by omega, rfl, by omega, by omega, by omega, by omega⟩
    · have hbox : inBox B.loc B.size
          (max A.loc.1 B.loc.1, max A.loc.2.1 B.loc.2.1, A.loc.2.2 + A.size.2.2) = true := by
        rw [inBox_mk]
        exact ⟨by omega, by omega, by omega, by omega, by omega, by omega⟩
      have hm := (hI.gm _ B.id).mpr ⟨B, hB, rfl, hbox⟩
      rw [hm]
      rfl

theorem foundAt_iff (cfg : Config) {s : MazeState} (hI : PartInv cfg s)
    {A B : Room} (hA : A ∈ s.rooms) (hB : B ∈ s.rooms) :
    ∀ d : Nat, (∃ c ∈ faceCells s A d, (s.maze c).getD (-2) = B.id) ↔ boxAdjAt A B d := by
  intro d
  rcases d with _ | _ | _ | _ | _ | _ | n
  · exact foundAt_iff0 cfg hI hA hB
  · exact foundAt_iff1 cfg hI hA hB
  · exact foundAt_iff2 cfg hI hA hB
  · exact foundAt_iff3 cfg hI hA hB
  · exact foundAt_iff4 cfg hI hA hB
  · exact foundAt_iff5 cfg hI hA hB
  · constructor
    · rintro ⟨c, hc, -⟩
      rw [faceCells_ge6] at hc
      exact absurd hc (List.not_mem_nil _)
    · rintro ⟨h6, -, -⟩
      omega

end AMazeIng

namespace AMazeIng

theorem touchesAt_false_iff (a b : Room) (ax : Nat) :
    touchesAt a b ax false = true ↔ proj a.loc ax = proj b.loc ax + proj b.size ax := by
  simp [touchesAt]

theorem touchesAt_true_iff (a b : Room) (ax : Nat) :
    touchesAt a b ax true = true ↔ proj b.loc ax = proj a.loc ax + proj a.size ax := by
  simp [touchesAt]

theorem boxAdjAt_unique {A B : Room}
    (hA : ∀ ax, ax < 3 → 1 ≤ proj A.size ax) (hB : ∀ ax, ax < 3 → 1 ≤ proj B.size ax)
    {d d' : Nat} (h : boxAdjAt A B d) (h' : boxAdjAt A B d') : d = d' := by
  obtain ⟨hd6, ht, hov⟩ := h
  obtain ⟨hd6', ht', hov'⟩ := h'
  by_contra hne
  have hax3 : axOf d < 3 := by unfold axOf; omega
  have hax3' : axOf d' < 3 := by unfold axOf; omega
  by_cases hax : axOf d = axOf d'
  · have hp : d % 2 ≠ d' % 2 := by
      unfold axOf at hax
      omega
    have hsa := hA (axOf d) hax3
    have hsb := hB (axOf d) hax3
    rcases Nat.mod_two_eq_zero_or_one d with he | he
    · have he' : d' % 2 = 1 := by omega
      have hpf : posOf d = false := by simp [posOf, he]
      have hpt : posOf d' = true := by simp [posOf, he']
      rw [hpf, touchesAt_false_iff] at ht
      rw [hpt, touchesAt_true_iff, ← hax] at ht'
      omega
    · have he' : d' % 2 = 0 := by omega
      have hpt : posOf d = true := by simp [posOf, he]
      have hpf : posOf d' = false := by simp [posOf, he']
      rw [hpt, touchesAt_true_iff] at ht
      rw [hpf, touchesAt_false_iff, ← hax] at ht'
      omega
  · have hov1 := hov' (axOf d) hax3 hax
    simp only [overlapsAt, overlapLo, overlapHi, decide_eq_true_eq] at hov1
    have hsa := hA (axOf d) hax3
    have hsb := hB (axOf d) hax3
    cases hpp : posOf d with
    | true =>
      rw [hpp, touchesAt_true_iff] at ht
      omega
    | false =>
      rw [hpp, touchesAt_false_iff] at ht
      omega

theorem oppDir_axOf (d : Nat) : axOf (oppDir d) = axOf d := by
  unfold oppDir axOf
  rcases Nat.mod_two_eq_zero_or_one d with h | h
  · rw [if_pos h]; omega
  · rw [if_neg (by omega)]; omega

theorem oppDir_posOf (d : Nat) : posOf (oppDir d) = !posOf d := by
  rcases Nat.mod_two_eq_zero_or_one d with h | h
  · have e2 : (d + 1) % 2 = 1 := by omega
    simp [oppDir, posOf, h, e2]
  · have e2 : (d - 1) % 2 = 0 := by omega
    simp [oppDir, posOf, h, e2]

theorem oppDir_lt6 (d : Nat) : oppDir d < 6 ↔ d < 6 := by
  unfold oppDir
  split <;> omega

theorem touchesAt_flip (a b : Room) (ax : Nat) (pos : Bool) :
    touchesAt b a ax (!pos) = touchesAt a b ax pos := by
  cases pos <;> rfl

theorem overlapsAt_comm (a b : Room) (ax : Nat) : overlapsAt b a ax = overlapsAt a b ax := by
  unfold overlapsAt
  rw [overlapLo_comm, overlapHi_comm]

theorem boxAdjAt_symm (A B : Room) (d : Nat) : boxAdjAt A B d ↔ boxAdjAt B A (oppDir d) := by
  constructor
  · rintro ⟨h6, ht, hov⟩
    refine ⟨by rw [oppDir_lt6]; exact h6, ?_, ?_⟩
    · rw [oppDir_axOf, oppDir_posOf, touchesAt_flip]
      exact ht
    · intro ax h3 hne
      rw [oppDir_axOf] at hne
      rw [overlapsAt_comm]
      exact hov ax h3 hne
  · rintro ⟨h6, ht, hov⟩
    rw [oppDir_lt6] at h6
    refine ⟨h6, ?_, ?_⟩
    · rw [oppDir_axOf, oppDir_posOf, touchesAt_flip] at ht
      exact ht
    · intro ax h3 hne
      have h := hov ax h3 (by rwa [oppDir_axOf])
      rwa [overlapsAt_comm] at h

theorem boxAdjAt_core_congr {A A' B B' : Room} (hA : core A' = core A)
    (hB : core B' = core B) (d : Nat) : boxAdjAt A' B' d ↔ boxAdjAt A B d := by
  have hlA : A'.loc = A.loc := congrArg (fun t => t.2.1) hA
  have hsA : A'.size = A.size := congrArg (fun t => t.2.2) hA
  have hlB : B'.loc = B.loc := congrArg (fun t => t.2.1) hB
  have hsB : B'.size = B.size := congrArg (fun t => t.2.2) hB
  simp only [boxAdjAt, touchesAt, overlapsAt, overlapLo, overlapHi, hlA, hsA, hlB, hsB]

end AMazeIng

namespace AMazeIng

theorem proj_size_pos (cfg : Config) {s : MazeState} (hI : PartInv cfg s)
    {A : Room} (hA : A ∈ s.rooms) : ∀ ax, ax < 3 → 1 ≤ proj A.size ax := by
  obtain ⟨s1, s2, s3, -, -, -⟩ := hI.boxes A hA
  intro ax h3
  have hax : ax = 0 ∨ ax = 1 ∨ ax = 2 := by omega
  rcases hax with rfl | rfl | rfl
  · exact s1
  · exact s2
  · exact s3

theorem fresh_roomWF {cfg : Config} {s : MazeState} (hI : PartInv cfg s)
    {A : Room} (hA : A ∈ s.rooms) : roomWF A := by
  obtain ⟨h1, h2, -⟩ := hI.fresh A hA
  exact ⟨by simp [h1, h2], by rw [h1]; exact List.nodup_nil⟩

theorem network_mem (cfg : Config) {s : MazeState} (hI : PartInv cfg s)
    {A B : Room} (hA : A ∈ s.rooms) (hB : B ∈ s.rooms) :
    (B.id ∈ (build_network_room s A).neighbors ↔ ∃ d, boxAdjAt A B d) := by
  have hfreshA := hI.fresh A hA
  constructor
  · intro hm
    rw [build_network_room_eq, neighbors_scanDirs] at hm
    rcases hm with h | ⟨d, -, hf⟩
    · rw [hfreshA.1] at h
      exact absurd h (List.not_mem_nil _)
    · exact ⟨d, (foundAt_iff cfg hI hA hB d).mp hf⟩
  · rintro ⟨d, hadj⟩
    rw [build_network_room_eq, neighbors_scanDirs]
    right
    refine ⟨d, ?_, (foundAt_iff cfg hI hA hB d).mpr hadj⟩
    have h6 := hadj.1
    have hd : d = 0 ∨ d = 1 ∨ d = 2 ∨ d = 3 ∨ d = 4 ∨ d = 5 := by omega
    rcases hd with rfl | rfl | rfl | rfl | rfl | rfl <;> simp

theorem network_pairs (cfg : Config) {s : MazeState} (hI : PartInv cfg s)
    {A B : Room} (hA : A ∈ s.rooms) (hB : B ∈ s.rooms) (d : Nat) :
    ((B.id, d) ∈ nbrPairs (build_network_room s A) ↔ boxAdjAt A B d) := by
  have hfreshA := hI.fresh A hA
  have hWF : roomWF A := fresh_roomWF hI hA
  constructor
  · intro hp
    rcases nbrPairs_scanDirs_sub s A [0, 1, 2, 3, 4, 5] A hWF B.id d
      (by rw [← build_network_room_eq]; exact hp) with h1 | ⟨-, hf⟩
    · rw [nbrPairs, hfreshA.1] at h1
      exact absurd h1 (List.not_mem_nil _)
    · exact (foundAt_iff cfg hI hA hB d).mp hf
  · intro hadj
    have hmem : B.id ∈ (build_network_room s A).neighbors :=
      (network_mem cfg hI hA hB).mpr ⟨d, hadj⟩
    have hWF' : roomWF (build_network_room s A) := roomWF_build_network_room hWF s
    rcases zip_exists_of_mem_left _ _ hWF'.1 B.id hmem with ⟨d0, hd0⟩
    rcases nbrPairs_scanDirs_sub s A [0, 1, 2, 3, 4, 5] A hWF B.id d0
      (by rw [← build_network_room_eq]; exact hd0) with h1 | ⟨-, hf0⟩
    · rw [nbrPairs, hfreshA.1] at h1
      exact absurd h1 (List.not_mem_nil _)
    · have hadj0 := (foundAt_iff cfg hI hA hB d0).mp hf0
      have hdd : d = d0 := boxAdjAt_unique (proj_size_pos cfg hI hA)
        (proj_size_pos cfg hI hB) hadj hadj0
      rw [hdd]
      exact hd0

/-- C5: after the adjacency-building pass, for every valid configuration and
stream and every pair of recorded rooms, room A lists room B with direction
code d exactly when B lists A with the axis-opposite code; the two are mutual
neighbours; and B appears in A's neighbour list exactly when the two rooms'
boxes share at least one unit of wall area (flush touch on one face with
overlap on both cross axes). -/
theorem C5_adjacency (cfg : Config) (g : RNG) (hv : validConfig cfg = true) :
    ∀ A B, A ∈ (networkStage cfg g).rooms → B ∈ (networkStage cfg g).rooms →
      (∀ d, ((B.id, d) ∈ nbrPairs A ↔ (A.id, oppDir d) ∈ nbrPairs B)) ∧
      (B.id ∈ A.neighbors ↔ A.id ∈ B.neighbors) ∧
      (B.id ∈ A.neighbors ↔ ∃ d, boxAdjAt A B d) := by
  obtain ⟨hI, -, -, -, -⟩ := roomsStage_spec cfg g hv
  intro A' B' hA' hB'
  have hshape : (networkStage cfg g).rooms =
      (roomsStage cfg g).rooms.map (build_network_room (roomsStage cfg g)) := rfl
  rw [hshape] at hA' hB'
  rcases List.mem_map.mp hA' with ⟨A, hA, rfl⟩
  rcases List.mem_map.mp hB' with ⟨B, hB, rfl⟩
  have hcoreA := core_build_network_room (roomsStage cfg g) A
  have hcoreB := core_build_network_room (roomsStage cfg g) B
  have hidA : (build_network_room (roomsStage cfg g) A).id = A.id :=
    congrArg (fun t => t.1) hcoreA
  have hidB : (build_network_room (roomsStage cfg g) B).id = B.id :=
    congrArg (fun t => t.1) hcoreB
  refine ⟨?_, ?_, ?_⟩
  · intro d
    rw [hidA, hidB]
    rw [network_pairs cfg hI hA hB d, network_pairs cfg hI hB hA (oppDir d)]
    exact boxAdjAt_symm A B d
  · rw [hidA, hidB]
    have e1 : core (build_network_room (roomsStage cfg g) A) = core A := hcoreA
    have hmA : B.id ∈ (build_network_room (roomsStage cfg g) A).neighbors ↔
        ∃ d, boxAdjAt A B d := network_mem cfg hI hA hB
    have hmB : A.id ∈ (build_network_room (roomsStage cfg g) B).neighbors ↔
        ∃ d, boxAdjAt B A d := network_mem cfg hI hB hA
    rw [hmA, hmB]
    constructor
    · rintro ⟨d, h⟩
      exact ⟨oppDir d, (boxAdjAt_symm A B d).mp h⟩
    · rintro ⟨d, h⟩
      exact ⟨oppDir d, (boxAdjAt_symm B A d).mp h⟩
  · rw [hidB]
    rw [network_mem cfg hI hA hB]
    constructor
    · rintro ⟨d, h⟩
      exact ⟨d, (boxAdjAt_core_congr hcoreA hcoreB d).mpr h⟩
    · rintro ⟨d, h⟩
      exact ⟨d, (boxAdjAt_core_congr hcoreA hcoreB d).mp h⟩

/-- The network stage of the specification's walkthrough scenario. -/
def netTiny : MazeState := networkStage cfgTiny rngZero

/-- The start room and a generated room of that scenario, after the adjacency
pass. -/
def nroomT0 : Room := netTiny.getRoom 0

/-- A generated room of the walkthrough scenario, after the adjacency pass. -/
def nroomT2 : Room := netTiny.getRoom 2

theorem C5_adjacency_witness :
    validConfig cfgTiny = true ∧
    ((∀ d, ((nroomT2.id, d) ∈ nbrPairs nroomT0 ↔
        (nroomT0.id, oppDir d) ∈ nbrPairs nroomT2)) ∧
      (nroomT2.id ∈ nroomT0.neighbors ↔ nroomT0.id ∈ nroomT2.neighbors) ∧
      (nroomT2.id ∈ nroomT0.neighbors ↔ ∃ d, boxAdjAt nroomT0 nroomT2 d)) :=
  ⟨by decide, C5_adjacency cfgTiny rngZero (by decide) nroomT0 nroomT2
    (by decide) (by decide)⟩

end AMazeIng

namespace AMazeIng

/-- The neighbour ids of the room registered under id `i`. -/
def nbrsOf (s : MazeState) (i : Int) : List Int := (s.getRoom i).neighbors

theorem find?_map_bnr (s : MazeState) (i : Int) :
    ∀ rooms : List Room,
      (rooms.map (build_network_room s)).find? (fun y => y.id = i) =
        (rooms.find? (fun y => y.id = i)).map (build_network_room s) := by
  intro rooms
  induction rooms with
  | nil => rfl
  | cons a t ih =>
    have hid : (build_network_room s a).id = a.id :=
      congrArg (fun t => t.1) (core_build_network_room s a)
    simp only [List.map_cons, List.find?_cons, hid]
    cases hd : decide (a.id = i) with
    | true => rfl
    | false => exact ih

theorem find?_of_mem_nodup {rooms : List Room} (hnd : (rooms.map (fun r => r.id)).Nodup)
    {A : Room} (hA : A ∈ rooms) : rooms.find? (fun y => y.id = A.id) = some A := by
  induction rooms with
  | nil => simp at hA
  | cons a t ih =>
    rcases List.mem_cons.mp hA with rfl | hA'
    · simp [List.find?]
    · have hane : a.id ≠ A.id := by
        simp only [List.map_cons, List.nodup_cons] at hnd
        intro he
        exact hnd.1 (he ▸ List.mem_map_of_mem (fun r => r.id) hA')
      have hnd' : (t.map (fun r => r.id)).Nodup := by
        simp only [List.map_cons, List.nodup_cons] at hnd
        exact hnd.2
      simp only [List.find?]
      rw [decide_eq_false hane]
      exact ih hnd' hA'

theorem add_door_neighbors (r : Room) (n : Int) (c : Cell) (d : Nat) :
    (r.add_door n c d).neighbors = r.neighbors := by
  rw [Room.add_door]
  split <;> rfl

theorem find?_replaceRoom_nbrs (r' : Room) :
    ∀ (rooms : List Room), (∀ x ∈ rooms, x.id = r'.id → x.neighbors = r'.neighbors) →
      ∀ (i : Int),
      ((replaceRoom rooms r').find? (fun y => y.id = i)).map (fun y => y.neighbors) =
        (rooms.find? (fun y => y.id = i)).map (fun y => y.neighbors) := by
  intro rooms
  induction rooms with
  | nil => intro _ i; rfl
  | cons a t ih =>
    intro hr' i
    have hstep : replaceRoom (a :: t) r' = (if a.id = r'.id then r' else a) :: replaceRoom t r' :=
      rfl
    rw [hstep]
    have hhd : (if a.id = r'.id then r' else a).id = a.id := by
      split
      · rename_i h; rw [h]
      · rfl
    by_cases hi : a.id = i
    · rw [List.find?_cons_of_pos _ (by rw [hhd]; exact decide_eq_true hi),
        List.find?_cons_of_pos _ (by simp [hi])]
      split
      · rename_i h
        have hn : a.neighbors = r'.neighbors := hr' a (List.mem_cons_self a t) h
        simp [hn]
      · rfl
    · rw [List.find?_cons_of_neg _ (by rw [hhd]; simp [hi]),
        List.find?_cons_of_neg _ (by simp [hi])]
      exact ih (fun x hx => hr' x (List.mem_cons_of_mem a hx)) i

theorem nbrsOf_replaceRoom_aux {s s' : MazeState} (r' : Room)
    (hrooms : s'.rooms = replaceRoom s.rooms r')
    (hr' : ∀ x ∈ s.rooms, x.id = r'.id → x.neighbors = r'.neighbors) (i : Int) :
    nbrsOf s' i = nbrsOf s i := by
  unfold nbrsOf MazeState.getRoom
  rw [hrooms]
  have h := find?_replaceRoom_nbrs r' s.rooms hr' i
  cases h1 : (replaceRoom s.rooms r').find? (fun y => y.id = i) with
  | none =>
    rw [h1] at h
    cases h2 : s.rooms.find? (fun y => y.id = i) with
    | none => rfl
    | some x => rw [h2] at h; simp at h
  | some x =>
    rw [h1] at h
    cases h2 : s.rooms.find? (fun y => y.id = i) with
    | none => rw [h2] at h; simp at h
    | some y =>
      rw [h2] at h
      simp at h
      simpa using h

theorem nbrsOf_doorFinish (s : MazeState) (r1 r2 : Room) (dd : Nat) (cell : Cell) (g : RNG)
    (h1 : ∀ x ∈ s.rooms, x.id = r1.id → x.neighbors = r1.neighbors)
    (h2 : ∀ x ∈ s.rooms, x.id = r2.id → x.neighbors = r2.neighbors) (i : Int) :
    nbrsOf (doorFinish s r1 r2 dd cell g) i = nbrsOf s i := by
  have e1 : (doorFinish s r1 r2 dd cell g).rooms =
      replaceRoom (replaceRoom s.rooms (r1.add_door r2.id cell (dd * 2 + 1)))
        (r2.add_door r1.id (bumpAxis cell dd) (dd * 2)) := doorFinish_rooms s r1 r2 dd cell g
  have step2 : nbrsOf (doorFinish s r1 r2 dd cell g) i =
      nbrsOf ({ s with rooms := replaceRoom s.rooms (r1.add_door r2.id cell (dd * 2 + 1)) } :
        MazeState) i := by
    apply nbrsOf_replaceRoom_aux (r2.add_door r1.id (bumpAxis cell dd) (dd * 2))
    · rw [e1]
    · intro x hx hxid
      rw [add_door_id] at hxid
      rw [add_door_neighbors]
      rcases mem_replaceRoom_cases _ hx with hx1 | ⟨rfl, hex⟩
      · exact h2 x hx1 hxid
      · rw [add_door_neighbors]
        rw [add_door_id] at hxid
        obtain ⟨y, hy, hyid⟩ := hex
        rw [add_door_id] at hyid
        have ey1 := h1 y hy hyid
        have ey2 := h2 y hy (by rw [hyid]; exact hxid)
        rw [← ey1]
        exact ey2
  rw [step2]
  apply nbrsOf_replaceRoom_aux (r1.add_door r2.id cell (dd * 2 + 1))
  · rfl
  · intro x hx hxid
    rw [add_door_id] at hxid
    rw [add_door_neighbors]
    exact h1 x hx hxid

theorem getRoom_unique {s : MazeState} (hnd : (roomIds s).Nodup) (t : Int) :
    ∀ x ∈ s.rooms, x.id = (s.getRoom t).id → x = s.getRoom t := by
  intro x hx hxid
  cases hf : s.rooms.find? (fun r => r.id = t) with
  | none =>
    exfalso
    have hall := List.find?_eq_none.mp hf x hx
    simp only [decide_eq_true_eq] at hall
    have hdid : (s.getRoom t).id = t := getRoom_id s t
    exact hall (hxid.trans hdid)
  | some y =>
    have hgr : s.getRoom t = y := getRoom_of_find hf
    rw [hgr] at hxid ⊢
    exact List.inj_on_of_nodup_map hnd hx (List.mem_of_find?_eq_some hf) hxid

theorem nbrsOf_add_door {s : MazeState} (hnd : (roomIds s).Nodup) (top nb : Int) (i : Int) :
    nbrsOf (add_door s (s.getRoom top) (s.getRoom nb)) i = nbrsOf s i := by
  obtain ⟨r1, r2, dd, cell, g, heq, hcases⟩ := add_door_shape s (s.getRoom top) (s.getRoom nb)
  rw [heq]
  have htop : ∀ x ∈ s.rooms, x.id = (s.getRoom top).id → x.neighbors = (s.getRoom top).neighbors :=
    fun x hx hid => congrArg Room.neighbors (getRoom_unique hnd top x hx hid)
  have hnb : ∀ x ∈ s.rooms, x.id = (s.getRoom nb).id → x.neighbors = (s.getRoom nb).neighbors :=
    fun x hx hid => congrArg Room.neighbors (getRoom_unique hnd nb x hx hid)
  rcases hcases with ⟨e1, e2⟩ | ⟨e1, e2⟩ <;> subst e1 <;> subst e2
  · exact nbrsOf_doorFinish s _ _ dd cell g htop hnb i
  · exact nbrsOf_doorFinish s _ _ dd cell g hnb htop i

theorem roomIds_replaceRoom (rooms : List Room) (r' : Room) :
    (replaceRoom rooms r').map (fun r => r.id) = rooms.map (fun r => r.id) := by
  induction rooms with
  | nil => rfl
  | cons a t ih =>
    have hstep : replaceRoom (a :: t) r' = (if a.id = r'.id then r' else a) :: replaceRoom t r' :=
      rfl
    rw [hstep, List.map_cons, List.map_cons, ih]
    congr 1
    split
    · rename_i h; rw [h]
    · rfl

theorem roomIds_doorFinish (s : MazeState) (r1 r2 : Room) (dd : Nat) (cell : Cell) (g : RNG) :
    roomIds (doorFinish s r1 r2 dd cell g) = roomIds s := by
  unfold roomIds
  rw [doorFinish_rooms, roomIds_replaceRoom, roomIds_replaceRoom]

theorem roomIds_add_door (s : MazeState) (room1 room2 : Room) :
    roomIds (add_door s room1 room2) = roomIds s := by
  obtain ⟨r1, r2, dd, cell, g, heq, -⟩ := add_door_shape s room1 room2
  rw [heq]
  exact roomIds_doorFinish s r1 r2 dd cell g

theorem paths_add_door (s : MazeState) (room1 room2 : Room) :
    (add_door s room1 room2).paths = s.paths := by
  obtain ⟨r1, r2, dd, cell, g, heq, -⟩ := add_door_shape s room1 room2
  rw [heq]
  rfl

theorem nbrsOf_expandStep {s : MazeState} (hnd : (roomIds s).Nodup) (top nb : Int) (g : RNG)
    (i : Int) : nbrsOf (expandStep s top nb g) i = nbrsOf s i := by
  have hnd1 : (roomIds ({ s with rng := g, paths := (nb, top) :: s.paths } : MazeState)).Nodup :=
    hnd
  have h := nbrsOf_add_door hnd1 top nb i
  exact h

theorem roomIds_expandStep (s : MazeState) (top nb : Int) (g : RNG) :
    roomIds (expandStep s top nb g) = roomIds s :=
  roomIds_add_door _ _ _

theorem paths_expandStep (s : MazeState) (top nb : Int) (g : RNG) :
    (expandStep s top nb g).paths = (nb, top) :: s.paths :=
  paths_add_door _ _ _

theorem rooms_length_expandStep (s : MazeState) (top nb : Int) (g : RNG) :
    (expandStep s top nb g).rooms.length = s.rooms.length := by
  have h := roomIds_expandStep s top nb g
  have h1 : (roomIds (expandStep s top nb g)).length = (roomIds s).length := by rw [h]
  simpa [roomIds] using h1

end AMazeIng



namespace AMazeIng

theorem alookup_cons_ne {α β : Type _} [DecidableEq α] (k k2 : α) (v : β)
    (l : List (α × β)) (h : k2 ≠ k) : alookup k ((k2, v) :: l) = alookup k l := by
  show (if k2 = k then some v else alookup k l) = alookup k l
  rw [if_neg h]

theorem alookup_cons_self {α β : Type _} [DecidableEq α] (k : α) (v : β)
    (l : List (α × β)) : alookup k ((k, v) :: l) = some v := by
  show (if k = k then some v else alookup k l) = some v
  rw [if_pos rfl]

/-- The visit list is a well-founded parent chain: each element other than the
final start-room entry has a recorded parent strictly later in the list. -/
def chainOK (paths : List (Int × Int)) : List Int → Prop
  | [] => True
  | a :: rest =>
    ((a = 0 ∧ rest = []) ∨ ∃ p, alookup a paths = some p ∧ p ∈ rest) ∧ chainOK paths rest

theorem chainOK_mono (paths paths' : List (Int × Int)) :
    ∀ v : List Int, (∀ a ∈ v, alookup a paths' = alookup a paths) →
      chainOK paths v → chainOK paths' v := by
  intro v
  induction v with
  | nil => intro _ _; trivial
  | cons a rest ih =>
    intro hsame hc
    obtain ⟨hhead, hrest⟩ := hc
    refine ⟨?_, ih (fun x hx => hsame x (List.mem_cons_of_mem a hx)) hrest⟩
    rcases hhead with h | ⟨p, hp, hpm⟩
    · exact Or.inl h
    · exact Or.inr ⟨p, by rw [hsame a (List.mem_cons_self a rest)]; exact hp, hpm⟩

theorem nodup_subset_length {α : Type _} [DecidableEq α] :
    ∀ (l1 l2 : List α), l1.Nodup → (∀ a ∈ l1, a ∈ l2) → l1.length ≤ l2.length := by
  intro l1
  induction l1 with
  | nil => intro l2 _ _; simp
  | cons a t ih =>
    intro l2 hnd hsub
    have ha : a ∈ l2 := hsub a (List.mem_cons_self a t)
    have hnd' : t.Nodup := (List.nodup_cons.mp hnd).2
    have hna : a ∉ t := (List.nodup_cons.mp hnd).1
    have hsub' : ∀ x ∈ t, x ∈ l2.erase a := by
      intro x hx
      have hne : x ≠ a := fun he => hna (by rwa [he] at hx)
      exact (List.mem_erase_of_ne hne).mpr (hsub x (List.mem_cons_of_mem a hx))
    have := ih (l2.erase a) hnd' hsub'
    have hlen := List.length_erase_of_mem ha
    have hpos := List.length_pos_of_mem ha
    simp only [List.length_cons]
    omega

theorem suffix_of_mem (paths : List (Int × Int)) :
    ∀ v : List Int, chainOK paths v → ∀ a ∈ v,
      ∃ t, chainOK paths t ∧ t.head? = some a ∧ t.length ≤ v.length := by
  intro v
  induction v with
  | nil => intro _ a ha; simp at ha
  | cons b rest ih =>
    intro hc a ha
    rcases List.mem_cons.mp ha with rfl | ha'
    · exact ⟨a :: rest, hc, rfl, le_refl _⟩
    · obtain ⟨-, hrest⟩ := hc
      obtain ⟨t, h1, h2, h3⟩ := ih hrest a ha'
      exact ⟨t, h1, h2, by simp only [List.length_cons]; omega⟩

theorem buildSolution_walk (paths : List (Int × Int)) :
    ∀ (n : Nat) (t : List Int), t.length ≤ n → chainOK paths t →
      ∀ a, t.head? = some a →
      ∀ (acc : List Int) (fuel : Nat), acc.head? = some a →
        acc.getLast? = some (-1) →
        List.Chain' (fun p c => alookup c paths = some p) acc →
        t.length ≤ fuel →
        ∃ sol, buildSolution paths fuel acc = some sol ∧ sol.head? = some 0 ∧
          sol.getLast? = some (-1) ∧
          List.Chain' (fun p c => alookup c paths = some p) sol := by
  intro n
  induction n with
  | zero =>
    intro t ht _ a hha
    rcases t with _ | ⟨b, t'⟩
    · simp at hha
    · simp at ht
  | succ n ih =>
    intro t htn hc a hha acc fuel hacc hlast hch hfuel
    rcases t with _ | ⟨b, t'⟩
    · simp at hha
    · have hb : b = a := by simpa using hha
      subst hb
      obtain ⟨hhead, hrest⟩ := hc
      rcases acc with _ | ⟨a0, accT⟩
      · simp at hacc
      · have ha0 : a0 = b := by simpa using hacc
        subst ha0
        by_cases h0 : a0 = 0
        · subst h0
          refine ⟨(0 : Int) :: accT, ?_, rfl, hlast, hch⟩
          rcases fuel with _ | k
          · have e0 : buildSolution paths 0 ((0 : Int) :: accT) =
                if (0 : Int) = 0 then some ((0 : Int) :: accT) else none := rfl
            rw [e0, if_pos rfl]
          · have e0 : buildSolution paths (k + 1) ((0 : Int) :: accT) =
                if (0 : Int) = 0 then some ((0 : Int) :: accT)
                else (alookup (0 : Int) paths).bind
                  fun p => buildSolution paths k (p :: (0 : Int) :: accT) := rfl
            rw [e0, if_pos rfl]
        · rcases hhead with ⟨h00, -⟩ | ⟨p, hlook, hpmem⟩
          · exact absurd h00 h0
          · rcases fuel with _ | k
            · simp at hfuel
            · have e1 : buildSolution paths (k + 1) (a0 :: accT) =
                  if a0 = 0 then some (a0 :: accT)
                  else (alookup a0 paths).bind
                    fun q => buildSolution paths k (q :: a0 :: accT) := rfl
              have hstep : buildSolution paths (k + 1) (a0 :: accT) =
                  buildSolution paths k (p :: a0 :: accT) := by
                rw [e1, if_neg h0, hlook]
                rfl
              rw [hstep]
              obtain ⟨t2, hc2, hh2, hl2⟩ := suffix_of_mem paths t' hrest p hpmem
              refine ih t2 ?_ hc2 p hh2 (p :: a0 :: accT) k (by simp) ?_ ?_ ?_
              · simp only [List.length_cons] at htn
                omega
              · rw [List.getLast?_cons_cons]
                exact hlast
              · rw [List.chain'_cons]
                exact ⟨hlook, hch⟩
              · simp only [List.length_cons] at hfuel
                omega

end AMazeIng

namespace AMazeIng

/-- Reachability in the room adjacency graph of state `s0`. -/
def Reach (s0 : MazeState) (a b : Int) : Prop :=
  Relation.ReflTransGen (fun x y => y ∈ nbrsOf s0 x) a b

theorem roomIds_network (s : MazeState) :
    roomIds (generate_maze_network s) = roomIds s := by
  unfold roomIds
  show ((s.rooms.map (build_network_room s)).map (fun r => r.id)) = _
  rw [List.map_map]
  apply List.map_congr_left
  intro a _
  exact congrArg (fun t => t.1) (core_build_network_room s a)

theorem network_getRoom (cfg : Config) (g : RNG)
    (hI : PartInv cfg (roomsStage cfg g)) {A : Room} (hA : A ∈ (roomsStage cfg g).rooms) :
    (networkStage cfg g).getRoom A.id =
      build_network_room (roomsStage cfg g) A := by
  unfold MazeState.getRoom
  have hrm : (networkStage cfg g).rooms =
      (roomsStage cfg g).rooms.map (build_network_room (roomsStage cfg g)) := rfl
  rw [hrm, find?_map_bnr, find?_of_mem_nodup hI.nodup hA]
  rfl

theorem edge_of_adj (cfg : Config) (g : RNG)
    (hI : PartInv cfg (roomsStage cfg g)) {A B : Room}
    (hA : A ∈ (roomsStage cfg g).rooms) (hB : B ∈ (roomsStage cfg g).rooms)
    (d : Nat) (hadj : boxAdjAt A B d) :
    B.id ∈ nbrsOf (networkStage cfg g) A.id := by
  unfold nbrsOf
  rw [network_getRoom cfg g hI hA]
  exact (network_mem cfg hI hA hB).mpr ⟨d, hadj⟩

theorem cellIn_mk (s : MazeState) (x y z : Nat) :
    cellIn s (x, y, z) ↔ x < s.mh ∧ y < s.mr ∧ z < s.mc := Iff.rfl

theorem faceCells_in_grid {cfg : Config} {s : MazeState} (hI : PartInv cfg s)
    {A : Room} (hA : A ∈ s.rooms) (d : Nat) {c : Cell} (hc : c ∈ faceCells s A d) :
    cellIn s c := by
  obtain ⟨s1, s2, s3, f1, f2, f3⟩ := hI.boxes A hA
  rcases c with ⟨x, y, z⟩
  rw [cellIn_mk]
  rcases d with _ | _ | _ | _ | _ | _ | n
  · rw [faceCells_mk0] at hc
    exact ⟨by omega, by omega, by omega⟩
  · rw [faceCells_mk1] at hc
    exact ⟨by omega, by omega, by omega⟩
  · rw [faceCells_mk2] at hc
    exact ⟨by omega, by omega, by omega⟩
  · rw [faceCells_mk3] at hc
    exact ⟨by omega, by omega, by omega⟩
  · rw [faceCells_mk4] at hc
    exact ⟨by omega, by omega, by omega⟩
  · rw [faceCells_mk5] at hc
    exact ⟨by omega, by omega, by omega⟩
  · rw [faceCells_ge6] at hc
    exact absurd hc (List.not_mem_nil _)

theorem nbrs_sub_ids (cfg : Config) (g : RNG) (hv : validConfig cfg = true) :
    ∀ a b, b ∈ nbrsOf (networkStage cfg g) a → b ∈ roomIds (networkStage cfg g) := by
  obtain ⟨hI, hcov, -, -, -⟩ := roomsStage_spec cfg g hv
  intro a b hb
  unfold nbrsOf MazeState.getRoom at hb
  cases hf : (networkStage cfg g).rooms.find? (fun r => r.id = a) with
  | none =>
    rw [hf] at hb
    simp at hb
  | some r' =>
    rw [hf] at hb
    simp only [Option.getD_some] at hb
    have hr'm : r' ∈ (networkStage cfg g).rooms := List.mem_of_find?_eq_some hf
    have hrm : (networkStage cfg g).rooms =
        (roomsStage cfg g).rooms.map (build_network_room (roomsStage cfg g)) := rfl
    rw [hrm] at hr'm
    rcases List.mem_map.mp hr'm with ⟨A, hAm, rfl⟩
    rw [build_network_room_eq, neighbors_scanDirs] at hb
    rcases hb with h | ⟨d, -, c, hc, hgd⟩
    · rw [(hI.fresh A hAm).1] at h
      exact absurd h (List.not_mem_nil _)
    · have hcin : cellIn (roomsStage cfg g) c := faceCells_in_grid hI hAm d hc
      have hsome := hcov c hcin
      rcases Option.isSome_iff_exists.mp hsome with ⟨i, hi⟩
      rw [hi] at hgd
      simp only [Option.getD_some] at hgd
      obtain ⟨r, hr, hrid, -⟩ := (hI.gm c i).mp hi
      rw [show networkStage cfg g = generate_maze_network (roomsStage cfg g) from rfl,
        roomIds_network]
      rw [← hgd, ← hrid]
      exact List.mem_map_of_mem (fun r => r.id) hr

end AMazeIng

namespace AMazeIng

theorem step_adj_h (cfg : Config) {s : MazeState} (hI : PartInv cfg s) {A B : Room}
    (hA : A ∈ s.rooms) (hB : B ∈ s.rooms) (x y z : Nat)
    (hcA : inBox A.loc A.size (x, y, z) = true)
    (hcB : inBox B.loc B.size (x + 1, y, z) = true) : A = B ∨ boxAdjAt A B 1 := by
  by_cases hab : A = B
  · exact Or.inl hab
  right
  rw [inBox_mk] at hcA hcB
  obtain ⟨a1, a2, a3, a4, a5, a6⟩ := hcA
  obtain ⟨b1, b2, b3, b4, b5, b6⟩ := hcB
  have hBlo : B.loc.1 = x + 1 := by
    by_contra hne
    exact hab (boxes_disjoint_cell cfg hI hA hB (c := (x, y, z))
      ((inBox_mk _ _ _ _ _).mpr ⟨a1, a2, a3, a4, a5, a6⟩)
      ((inBox_mk _ _ _ _ _).mpr ⟨by omega, by omega, b3, b4, b5, b6⟩))
  have hAhi : A.loc.1 + A.size.1 = x + 1 := by
    by_contra hne
    exact hab (boxes_disjoint_cell cfg hI hA hB (c := (x + 1, y, z))
      ((inBox_mk _ _ _ _ _).mpr ⟨by omega, by omega, a3, a4, a5, a6⟩)
      ((inBox_mk _ _ _ _ _).mpr ⟨b1, b2, b3, b4, b5, b6⟩))
  refine ⟨by omega, ?_, ?_⟩
  · show decide (B.loc.1 = A.loc.1 + A.size.1) = true
    rw [decide_eq_true_eq]
    omega
  · intro ax h3 hne
    have hne0 : ax ≠ 0 := fun h => hne (h.trans rfl)
    have hax : ax = 1 ∨ ax = 2 := by omega
    rcases hax with rfl | rfl
    · show decide (max A.loc.2.1 B.loc.2.1 <
        min (A.loc.2.1 + A.size.2.1) (B.loc.2.1 + B.size.2.1)) = true
      rw [decide_eq_true_eq]
      omega
    · show decide (max A.loc.2.2 B.loc.2.2 <
        min (A.loc.2.2 + A.size.2.2) (B.loc.2.2 + B.size.2.2)) = true
      rw [decide_eq_true_eq]
      omega

theorem step_adj_r (cfg : Config) {s : MazeState} (hI : PartInv cfg s) {A B : Room}
    (hA : A ∈ s.rooms) (hB : B ∈ s.rooms) (x y z : Nat)
    (hcA : inBox A.loc A.size (x, y, z) = true)
    (hcB : inBox B.loc B.size (x, y + 1, z) = true) : A = B ∨ boxAdjAt A B 3 := by
  by_cases hab : A = B
  · exact Or.inl hab
  right
  rw [inBox_mk] at hcA hcB
  obtain ⟨a1, a2, a3, a4, a5, a6⟩ := hcA
  obtain ⟨b1, b2, b3, b4, b5, b6⟩ := hcB
  have hBlo : B.loc.2.1 = y + 1 := by
    by_contra hne
    exact hab (boxes_disjoint_cell cfg hI hA hB (c := (x, y, z))
      ((inBox_mk _ _ _ _ _).mpr ⟨a1, a2, a3, a4, a5, a6⟩)
      ((inBox_mk _ _ _ _ _).mpr ⟨b1, b2, by omega, by omega, b5, b6⟩))
  have hAhi : A.loc.2.1 + A.size.2.1 = y + 1 := by
    by_contra hne
    exact hab (boxes_disjoint_cell cfg hI hA hB (c := (x, y + 1, z))
      ((inBox_mk _ _ _ _ _).mpr ⟨a1, a2, by omega, by omega, a5, a6⟩)
      ((inBox_mk _ _ _ _ _).mpr ⟨b1, b2, b3, b4, b5, b6⟩))
  refine ⟨by omega, ?_, ?_⟩
  · show decide (B.loc.2.1 = A.loc.2.1 + A.size.2.1) = true
    rw [decide_eq_true_eq]
    omega
  · intro ax h3 hne
    have hne1 : ax ≠ 1 := fun h => hne (h.trans rfl)
    have hax : ax = 0 ∨ ax = 2 := by omega
    rcases hax with rfl | rfl
    · show decide (max A.loc.1 B.loc.1 <
        min (A.loc.1 + A.size.1) (B.loc.1 + B.size.1)) = true
      rw [decide_eq_true_eq]
      omega
    · show decide (max A.loc.2.2 B.loc.2.2 <
        min (A.loc.2.2 + A.size.2.2) (B.loc.2.2 + B.size.2.2)) = true
      rw [decide_eq_true_eq]
      omega

theorem step_adj_c (cfg : Config) {s : MazeState} (hI : PartInv cfg s) {A B : Room}
    (hA : A ∈ s.rooms) (hB : B ∈ s.rooms) (x y z : Nat)
    (hcA : inBox A.loc A.size (x, y, z) = true)
    (hcB : inBox B.loc B.size (x, y, z + 1) = true) : A = B ∨ boxAdjAt A B 5 := by
  by_cases hab : A = B
  · exact Or.inl hab
  right
  rw [inBox_mk] at hcA hcB
  obtain ⟨a1, a2, a3, a4, a5, a6⟩ := hcA
  obtain ⟨b1, b2, b3, b4, b5, b6⟩ := hcB
  have hBlo : B.loc.2.2 = z + 1 := by
    by_contra hne
    exact hab (boxes_disjoint_cell cfg hI hA hB (c := (x, y, z))
      ((inBox_mk _ _ _ _ _).mpr ⟨a1, a2, a3, a4, a5, a6⟩)
      ((inBox_mk _ _ _ _ _).mpr ⟨b1, b2, b3, b4, by omega, by omega⟩))
  have hAhi : A.loc.2.2 + A.size.2.2 = z + 1 := by
    by_contra hne
    exact hab (boxes_disjoint_cell cfg hI hA hB (c := (x, y, z + 1))
      ((inBox_mk _ _ _ _ _).mpr ⟨a1, a2, a3, a4, by omega, by omega⟩)
      ((inBox_mk _ _ _ _ _).mpr ⟨b1, b2, b3, b4, b5, b6⟩))
  refine ⟨by omega, ?_, ?_⟩
  · show decide (B.loc.2.2 = A.loc.2.2 + A.size.2.2) = true
    rw [decide_eq_true_eq]
    omega
  · intro ax h3 hne
    have hne2 : ax ≠ 2 := fun h => hne (h.trans rfl)
    have hax : ax = 0 ∨ ax = 1 := by omega
    rcases hax with rfl | rfl
    · show decide (max A.loc.1 B.loc.1 <
        min (A.loc.1 + A.size.1) (B.loc.1 + B.size.1)) = true
      rw [decide_eq_true_eq]
      omega
    · show decide (max A.loc.2.1 B.loc.2.1 <
        min (A.loc.2.1 + A.size.2.1) (B.loc.2.1 + B.size.2.1)) = true
      rw [decide_eq_true_eq]
      omega

end AMazeIng

namespace AMazeIng

/-- Componentwise L1 distance between cells. -/
def cdist (c1 c2 : Cell) : Nat :=
  (c1.1 - c2.1) + (c2.1 - c1.1) + (c1.2.1 - c2.2.1) + (c2.2.1 - c1.2.1) +
  (c1.2.2 - c2.2.2) + (c2.2.2 - c1.2.2)

theorem cdist_mk (x1 y1 z1 x2 y2 z2 : Nat) :
    cdist (x1, y1, z1) (x2, y2, z2) =
      (x1 - x2) + (x2 - x1) + (y1 - y2) + (y2 - y1) + (z1 - z2) + (z2 - z1) := rfl

theorem cells_connected (cfg : Config) (g : RNG) (hv : validConfig cfg = true) :
    ∀ (n : Nat) (c1 c2 : Cell), cdist c1 c2 ≤ n →
      cellIn (roomsStage cfg g) c1 → cellIn (roomsStage cfg g) c2 →
      ∀ A B, A ∈ (roomsStage cfg g).rooms → B ∈ (roomsStage cfg g).rooms →
        inBox A.loc A.size c1 = true → inBox B.loc B.size c2 = true →
        Reach (networkStage cfg g) A.id B.id := by
  obtain ⟨hI, hcov, -, -, -⟩ := roomsStage_spec cfg g hv
  intro n
  induction n with
  | zero =>
    intro c1 c2 hd hin1 hin2 A B hA hB hbA hbB
    rcases c1 with ⟨x1, y1, z1⟩
    rcases c2 with ⟨x2, y2, z2⟩
    rw [cdist_mk] at hd
    have he1 : x1 = x2 := by omega
    have he2 : y1 = y2 := by omega
    have he3 : z1 = z2 := by omega
    subst he1; subst he2; subst he3
    rw [boxes_disjoint_cell cfg hI hA hB hbA hbB]
    exact Relation.ReflTransGen.refl
  | succ n ih =>
    intro c1 c2 hd hin1 hin2 A B hA hB hbA hbB
    rcases c1 with ⟨x1, y1, z1⟩
    rcases c2 with ⟨x2, y2, z2⟩
    rw [cdist_mk] at hd
    rw [cellIn_mk] at hin1 hin2
    by_cases hz : z1 ≠ z2
    · rcases Nat.lt_or_ge z1 z2 with hlt | hge
      · have hin1' : cellIn (roomsStage cfg g) (x1, y1, z1 + 1) := by
          rw [cellIn_mk]; omega
        rcases Option.isSome_iff_exists.mp (hcov _ hin1') with ⟨i, hi⟩
        obtain ⟨A', hA', -, hbox'⟩ := (hI.gm _ i).mp hi
        have hreach1 : Reach (networkStage cfg g) A.id A'.id := by
          rcases step_adj_c cfg hI hA hA' x1 y1 z1 hbA hbox' with heq | hadj
          · subst heq; exact Relation.ReflTransGen.refl
          · exact Relation.ReflTransGen.single (edge_of_adj cfg g hI hA hA' 5 hadj)
        exact hreach1.trans (ih (x1, y1, z1 + 1) (x2, y2, z2) (by rw [cdist_mk]; omega)
          hin1' (by rw [cellIn_mk]; omega) A' B hA' hB hbox' hbB)
      · have hz1 : 1 ≤ z1 := by omega
        have hin1' : cellIn (roomsStage cfg g) (x1, y1, z1 - 1) := by
          rw [cellIn_mk]; omega
        rcases Option.isSome_iff_exists.mp (hcov _ hin1') with ⟨i, hi⟩
        obtain ⟨A', hA', -, hbox'⟩ := (hI.gm _ i).mp hi
        have hbA1 : inBox A.loc A.size (x1, y1, z1 - 1 + 1) = true := by
          rw [show z1 - 1 + 1 = z1 from by omega]
          exact hbA
        have hreach1 : Reach (networkStage cfg g) A.id A'.id := by
          rcases step_adj_c cfg hI hA' hA x1 y1 (z1 - 1) hbox' hbA1 with heq | hadj
          · subst heq; exact Relation.ReflTransGen.refl
          · exact Relation.ReflTransGen.single
              (edge_of_adj cfg g hI hA hA' (oppDir 5) ((boxAdjAt_symm A' A 5).mp hadj))
        exact hreach1.trans (ih (x1, y1, z1 - 1) (x2, y2, z2) (by rw [cdist_mk]; omega)
          hin1' (by rw [cellIn_mk]; omega) A' B hA' hB hbox' hbB)
    · by_cases hy : y1 ≠ y2
      · rcases Nat.lt_or_ge y1 y2 with hlt | hge
        · have hin1' : cellIn (roomsStage cfg g) (x1, y1 + 1, z1) := by
            rw [cellIn_mk]; omega
          rcases Option.isSome_iff_exists.mp (hcov _ hin1') with ⟨i, hi⟩
          obtain ⟨A', hA', -, hbox'⟩ := (hI.gm _ i).mp hi
          have hreach1 : Reach (networkStage cfg g) A.id A'.id := by
            rcases step_adj_r cfg hI hA hA' x1 y1 z1 hbA hbox' with heq | hadj
            · subst heq; exact Relation.ReflTransGen.refl
            · exact Relation.ReflTransGen.single (edge_of_adj cfg g hI hA hA' 3 hadj)
          exact hreach1.trans (ih (x1, y1 + 1, z1) (x2, y2, z2) (by rw [cdist_mk]; omega)
            hin1' (by rw [cellIn_mk]; omega) A' B hA' hB hbox' hbB)
        · have hy1 : 1 ≤ y1 := by omega
          have hin1' : cellIn (roomsStage cfg g) (x1, y1 - 1, z1) := by
            rw [cellIn_mk]; omega
          rcases Option.isSome_iff_exists.mp (hcov _ hin1') with ⟨i, hi⟩
          obtain ⟨A', hA', -, hbox'⟩ := (hI.gm _ i).mp hi
          have hbA1 : inBox A.loc A.size (x1, y1 - 1 + 1, z1) = true := by
            rw [show y1 - 1 + 1 = y1 from by omega]
            exact hbA
          have hreach1 : Reach (networkStage cfg g) A.id A'.id := by
            rcases step_adj_r cfg hI hA' hA x1 (y1 - 1) z1 hbox' hbA1 with heq | hadj
            · subst heq; exact Relation.ReflTransGen.refl
            · exact Relation.ReflTransGen.single
                (edge_of_adj cfg g hI hA hA' (oppDir 3) ((boxAdjAt_symm A' A 3).mp hadj))
          exact hreach1.trans (ih (x1, y1 - 1, z1) (x2, y2, z2) (by rw [cdist_mk]; omega)
            hin1' (by rw [cellIn_mk]; omega) A' B hA' hB hbox' hbB)
      · by_cases hx : x1 ≠ x2
        · rcases Nat.lt_or_ge x1 x2 with hlt | hge
          · have hin1' : cellIn (roomsStage cfg g) (x1 + 1, y1, z1) := by
              rw [cellIn_mk]; omega
            rcases Option.isSome_iff_exists.mp (hcov _ hin1') with ⟨i, hi⟩
            obtain ⟨A', hA', -, hbox'⟩ := (hI.gm _ i).mp hi
            have hreach1 : Reach (networkStage cfg g) A.id A'.id := by
              rcases step_adj_h cfg hI hA hA' x1 y1 z1 hbA hbox' with heq | hadj
              · subst heq; exact Relation.ReflTransGen.refl
              · exact Relation.ReflTransGen.single (edge_of_adj cfg g hI hA hA' 1 hadj)
            exact hreach1.trans (ih (x1 + 1, y1, z1) (x2, y2, z2) (by rw [cdist_mk]; omega)
              hin1' (by rw [cellIn_mk]; omega) A' B hA' hB hbox' hbB)
          · have hx1 : 1 ≤ x1 := by omega
            have hin1' : cellIn (roomsStage cfg g) (x1 - 1, y1, z1) := by
              rw [cellIn_mk]; omega
            rcases Option.isSome_iff_exists.mp (hcov _ hin1') with ⟨i, hi⟩
            obtain ⟨A', hA', -, hbox'⟩ := (hI.gm _ i).mp hi
            have hbA1 : inBox A.loc A.size (x1 - 1 + 1, y1, z1) = true := by
              rw [show x1 - 1 + 1 = x1 from by omega]
              exact hbA
            have hreach1 : Reach (networkStage cfg g) A.id A'.id := by
              rcases step_adj_h cfg hI hA' hA (x1 - 1) y1 z1 hbox' hbA1 with heq | hadj
              · subst heq; exact Relation.ReflTransGen.refl
              · exact Relation.ReflTransGen.single
                  (edge_of_adj cfg g hI hA hA' (oppDir 1) ((boxAdjAt_symm A' A 1).mp hadj))
            exact hreach1.trans (ih (x1 - 1, y1, z1) (x2, y2, z2) (by rw [cdist_mk]; omega)
              hin1' (by rw [cellIn_mk]; omega) A' B hA' hB hbox' hbB)
        · push_neg at hz hy hx
          subst hz; subst hy; subst hx
          rw [boxes_disjoint_cell cfg hI hA hB hbA hbB]
          exact Relation.ReflTransGen.refl

end AMazeIng

namespace AMazeIng

/-- The start room recorded by the constructor. -/
def startRoom (cfg : Config) : Room :=
  { loc := cfg.start_loc, size := cfg.start_room_size, id := 0 }

/-- The goal room recorded by the constructor. -/
def goalRoom (cfg : Config) : Room :=
  { loc := cfg.goal_loc, size := cfg.goal_room_size, id := -1 }

theorem mem_rooms_genRoomAt {cfg : Config} {s : MazeState} {r : Room}
    (h : r ∈ s.rooms) (cell : Cell) : r ∈ (genRoomAt cfg s cell).rooms := by
  rcases cell with ⟨hi, ri, ci⟩
  rcases genRoomAt_rooms cfg s hi ri ci with he | he
  · rw [he]; exact h
  · rw [he]; exact List.mem_append_left _ h

theorem startRoom_mem (cfg : Config) (g : RNG) :
    startRoom cfg ∈ (roomsStage cfg g).rooms := by
  have h0 : startRoom cfg ∈ (initStage cfg g).rooms := by
    rw [show (initStage cfg g).rooms = [startRoom cfg, goalRoom cfg] from rfl]
    exact List.mem_cons_self _ _
  show startRoom cfg ∈ ((allCells (initStage cfg g).mh (initStage cfg g).mr
    (initStage cfg g).mc).foldl (genRoomAt cfg) (initStage cfg g)).rooms
  exact foldl_preserves (fun s => startRoom cfg ∈ s.rooms) (genRoomAt cfg) _ _ h0
    (fun s c _ hs => mem_rooms_genRoomAt hs c)

theorem goalRoom_mem (cfg : Config) (g : RNG) :
    goalRoom cfg ∈ (roomsStage cfg g).rooms := by
  have h0 : goalRoom cfg ∈ (initStage cfg g).rooms := by
    rw [show (initStage cfg g).rooms = [startRoom cfg, goalRoom cfg] from rfl]
    exact List.mem_cons_of_mem _ (List.mem_cons_self _ _)
  show goalRoom cfg ∈ ((allCells (initStage cfg g).mh (initStage cfg g).mr
    (initStage cfg g).mc).foldl (genRoomAt cfg) (initStage cfg g)).rooms
  exact foldl_preserves (fun s => goalRoom cfg ∈ s.rooms) (genRoomAt cfg) _ _ h0
    (fun s c _ hs => mem_rooms_genRoomAt hs c)

theorem goal_reachable (cfg : Config) (g : RNG) (hv : validConfig cfg = true) :
    Reach (networkStage cfg g) 0 (-1) := by
  obtain ⟨hI, -, hd1, hd2, hd3⟩ := roomsStage_spec cfg g hv
  have hv' := hv
  rw [validConfig] at hv'
  simp only [Bool.and_eq_true, decide_eq_true_eq] at hv'
  obtain ⟨⟨⟨⟨⟨hfs, hfg⟩, -⟩, -⟩, -⟩, -⟩ := hv'
  rw [boxFits] at hfs hfg
  simp only [Bool.and_eq_true, decide_eq_true_eq] at hfs hfg
  obtain ⟨⟨⟨⟨⟨s1, s2⟩, s3⟩, s4⟩, s5⟩, s6⟩ := hfs
  obtain ⟨⟨⟨⟨⟨g1, g2⟩, g3⟩, g4⟩, g5⟩, g6⟩ := hfg
  have hbs : inBox (startRoom cfg).loc (startRoom cfg).size cfg.start_loc = true := by
    rw [show (startRoom cfg).loc = cfg.start_loc from rfl,
      show (startRoom cfg).size = cfg.start_room_size from rfl, inBox_iff]
    omega
  have hbg : inBox (goalRoom cfg).loc (goalRoom cfg).size cfg.goal_loc = true := by
    rw [show (goalRoom cfg).loc = cfg.goal_loc from rfl,
      show (goalRoom cfg).size = cfg.goal_room_size from rfl, inBox_iff]
    omega
  have hins : cellIn (roomsStage cfg g) cfg.start_loc := by
    refine ⟨?_, ?_, ?_⟩
    · rw [hd1]; omega
    · rw [hd2]; omega
    · rw [hd3]; omega
  have hing : cellIn (roomsStage cfg g) cfg.goal_loc := by
    refine ⟨?_, ?_, ?_⟩
    · rw [hd1]; omega
    · rw [hd2]; omega
    · rw [hd3]; omega
  exact cells_connected cfg g hv (cdist cfg.start_loc cfg.goal_loc) cfg.start_loc
    cfg.goal_loc (le_refl _) hins hing (startRoom cfg) (goalRoom cfg)
    (startRoom_mem cfg g) (goalRoom_mem cfg g) hbs hbg

end AMazeIng

namespace AMazeIng

/-- The joint invariant of the two spanning-tree loops, relative to the state
`s0` at loop entry. -/
structure DFSInv (s0 s : MazeState) (stack visited : List Int) : Prop where
  nbrs : ∀ i, nbrsOf s i = nbrsOf s0 i
  ids : roomIds s = roomIds s0
  stack_sub : ∀ a ∈ stack, a ∈ visited
  stack_nd : stack.Nodup
  vis_univ : ∀ a ∈ visited, a ∈ (0 : Int) :: roomIds s0
  vis_nd : visited.Nodup
  chain : chainOK s.paths visited
  keys : ∀ a : Int, (alookup a s.paths).isSome = true → a ∈ visited ∧ ¬ a = 0
  zero_vis : (0 : Int) ∈ visited
  vals_goal : ∀ p ∈ s.paths, p.2 ≠ (-1 : Int)
  len : s.rooms.length = s0.rooms.length

theorem frontier_mem {s : MazeState} {visited : List Int} {top nb : Int}
    (h : nb ∈ frontier s visited top) : nb ∈ nbrsOf s top ∧ nb ∉ visited := by
  unfold frontier at h
  have h2 := List.mem_filter.mp h
  exact ⟨h2.1, by simpa using h2.2⟩

theorem choice_mem {xs : List Int} (h : xs ≠ []) (g : RNG) : (choice xs g).1 ∈ xs := by
  have hl : 0 < xs.length := List.length_pos.mpr h
  have hi : (g 0) % xs.length < xs.length := Nat.mod_lt _ hl
  show xs.getD (g 0 % xs.length) 0 ∈ xs
  rw [List.getD_eq_getElem?_getD, List.getElem?_eq_getElem hi]
  exact List.getElem_mem _
  
theorem getD_mem {xs : List Int} {i : Nat} (h : i < xs.length) (d : Int) :
    xs.getD i d ∈ xs := by
  rw [List.getD_eq_getElem?_getD, List.getElem?_eq_getElem h]
  exact List.getElem_mem _

theorem DFSInv_expand {s0 s : MazeState} {stack visited : List Int}
    (hsub : ∀ a b, b ∈ nbrsOf s0 a → b ∈ roomIds s0)
    (hnd0 : (roomIds s0).Nodup)
    (hI : DFSInv s0 s stack visited) {top nb : Int}
    (htop_vis : top ∈ visited) (htop_goal : top ≠ -1)
    (hnb_fr : nb ∈ frontier s visited top) (g : RNG) :
    DFSInv s0 (expandStep s top nb g) (stack ++ [nb]) (nb :: visited) := by
  obtain ⟨hnbn, hnbv⟩ := frontier_mem hnb_fr
  have hnstack : nb ∉ stack := fun h => hnbv (hI.stack_sub nb h)
  have hnds : (roomIds s).Nodup := by rw [hI.ids]; exact hnd0
  have hnb0 : nb ∈ roomIds s0 := hsub top nb (by rw [← hI.nbrs top]; exact hnbn)
  have hnb0' : nb ≠ 0 := fun h => hnbv (h ▸ hI.zero_vis)
  have hpaths := paths_expandStep s top nb g
  refine ⟨?_, ?_, ?_, ?_, ?_, ?_, ?_, ?_, ?_, ?_, ?_⟩
  · intro i
    rw [nbrsOf_expandStep hnds top nb g i]
    exact hI.nbrs i
  · rw [roomIds_expandStep]
    exact hI.ids
  · intro a ha
    rcases List.mem_append.mp ha with h | h
    · exact List.mem_cons_of_mem _ (hI.stack_sub a h)
    · simp only [List.mem_singleton] at h
      subst h
      exact List.mem_cons_self _ _
  · rw [List.nodup_append]
    refine ⟨hI.stack_nd, by simp, ?_⟩
    intro x hx
    simp only [List.mem_singleton]
    intro he
    exact hnstack (he ▸ hx)
  · intro a ha
    rcases List.mem_cons.mp ha with rfl | h
    · exact List.mem_cons_of_mem _ hnb0
    · exact hI.vis_univ a h
  · exact List.nodup_cons.mpr ⟨hnbv, hI.vis_nd⟩
  · rw [hpaths]
    refine ⟨Or.inr ⟨top, alookup_cons_self nb top s.paths, htop_vis⟩, ?_⟩
    apply chainOK_mono s.paths
    · intro a ha
      exact alookup_cons_ne a nb top s.paths (fun he => hnbv (he ▸ ha))
    · exact hI.chain
  · intro a hk
    rw [hpaths] at hk
    by_cases he : nb = a
    · subst he
      exact ⟨List.mem_cons_self _ _, hnb0'⟩
    · rw [alookup_cons_ne a nb top s.paths he] at hk
      obtain ⟨h1, h2⟩ := hI.keys a hk
      exact ⟨List.mem_cons_of_mem _ h1, h2⟩
  · exact List.mem_cons_of_mem _ hI.zero_vis
  · intro p hp
    rw [hpaths] at hp
    rcases List.mem_cons.mp hp with rfl | h
    · exact htop_goal
    · exact hI.vals_goal p h
  · rw [rooms_length_expandStep]
    exact hI.len

theorem closed_reach {s0 : MazeState} {V : List Int}
    (hcl : ∀ a ∈ V, ∀ b, b ∈ nbrsOf s0 a → b ∈ V) {x y : Int}
    (hr : Reach s0 x y) (hx : x ∈ V) : y ∈ V := by
  induction hr with
  | refl => exact hx
  | tail h1 h2 ih => exact hcl _ ih _ h2

theorem getLast?_decomp {α : Type _} :
    ∀ {l : List α} {a : α}, l.getLast? = some a → l = l.dropLast ++ [a] := by
  intro l
  induction l with
  | nil => intro a h; simp at h
  | cons x t ih =>
    intro a h
    cases t with
    | nil =>
      simp only [List.getLast?_singleton, Option.some.injEq] at h
      subst h
      rfl
    | cons y u =>
      rw [List.getLast?_cons_cons] at h
      have ht := ih h
      have e : (x :: y :: u).dropLast ++ [a] = x :: ((y :: u).dropLast ++ [a]) := rfl
      rw [e, ← ht]

theorem frontier_empty_closed {s s0 : MazeState} {visited : List Int} {top : Int}
    (hnbrs : ∀ i, nbrsOf s i = nbrsOf s0 i)
    (hempty : (frontier s visited top).isEmpty = true) :
    ∀ b, b ∈ nbrsOf s0 top → b ∈ visited := by
  intro b hb
  rw [← hnbrs top] at hb
  have hnil : frontier s visited top = [] := List.isEmpty_iff.mp hempty
  unfold frontier at hnil
  have := List.filter_eq_nil_iff.mp hnil b hb
  simpa using this

theorem U_push {univ : List Int} (hnd : univ.Nodup) {nb : Int} (visited : List Int)
    (hnb : nb ∈ univ) (hnv : nb ∉ visited) :
    (univ.filter (fun a => decide (a ∉ nb :: visited))).length + 1 =
      (univ.filter (fun a => decide (a ∉ visited))).length := by
  induction univ with
  | nil => simp at hnb
  | cons x t ih =>
    have hxt : x ∉ t := (List.nodup_cons.mp hnd).1
    have hnd' : t.Nodup := (List.nodup_cons.mp hnd).2
    rcases List.mem_cons.mp hnb with rfl | hmem
    · have hfe : t.filter (fun a => decide (a ∉ nb :: visited)) =
          t.filter (fun a => decide (a ∉ visited)) := by
        apply List.filter_congr
        intro a ha
        have hax : a ≠ nb := fun he => hxt (he ▸ ha)
        simp [hax]
      rw [List.filter_cons, List.filter_cons,
        show (decide (nb ∉ nb :: visited)) = false from by simp,
        show (decide (nb ∉ visited)) = true from by simp [hnv], hfe]
      simp
    · have hxnb : x ≠ nb := fun he => hxt (he ▸ hmem)
      rw [List.filter_cons, List.filter_cons]
      by_cases hx : x ∈ visited
      · rw [show (decide (x ∉ nb :: visited)) = false from by simp [hx],
          show (decide (x ∉ visited)) = false from by simp [hx]]
        simpa using ih hnd' hmem
      · rw [show (decide (x ∉ nb :: visited)) = true from by simp [hx, hxnb],
          show (decide (x ∉ visited)) = true from by simp [hx]]
        have hih := ih hnd' hmem
        simp only [if_pos rfl, List.length_cons]
        simp at hih ⊢
        omega

end AMazeIng

namespace AMazeIng

theorem phase1_master (s0 : MazeState) (hnd0 : (roomIds s0).Nodup)
    (hsub : ∀ a b, b ∈ nbrsOf s0 a → b ∈ roomIds s0) :
    ∀ (fuel : Nat) (s : MazeState) (stack visited : List Int),
      DFSInv s0 s stack visited →
      (-1 : Int) ∉ stack.dropLast →
      (∀ a ∈ visited, a ∉ stack → ∀ b, b ∈ nbrsOf s0 a → b ∈ visited) →
      2 * ((roomIds s0).filter (fun a => decide (a ∉ visited))).length + stack.length < fuel →
      DFSInv s0 (phase1 fuel s stack visited).1 (phase1 fuel s stack visited).2.1
          (phase1 fuel s stack visited).2.2 ∧
        (-1 : Int) ∉ (phase1 fuel s stack visited).2.1 ∧
        ((-1 : Int) ∈ (phase1 fuel s stack visited).2.2 ∨
          (∀ a ∈ (phase1 fuel s stack visited).2.2, ∀ b, b ∈ nbrsOf s0 a →
            b ∈ (phase1 fuel s stack visited).2.2)) := by
  intro fuel
  induction fuel with
  | zero =>
    intro s stack visited _ _ _ hm
    omega
  | succ n ih =>
    intro s stack visited hI hdrop hclosed hm
    cases hl : stack.getLast? with
    | none =>
      rw [phase1_nil n s stack visited hl]
      have hse : stack = [] := List.getLast?_eq_none_iff.mp hl
      refine ⟨hI, by rw [hse]; simp, Or.inr ?_⟩
      intro a ha
      exact hclosed a ha (by rw [hse]; simp)
    | some top =>
      have hdecomp := getLast?_decomp hl
      have htops : top ∈ stack := by
        rw [hdecomp]
        exact List.mem_append_right _ (List.mem_cons_self _ _)
      by_cases ht : top = -1
      · subst ht
        rw [phase1_goal_top n s stack visited hl]
        refine ⟨?_, hdrop, Or.inl (hI.stack_sub _ htops)⟩
        exact ⟨hI.nbrs, hI.ids,
          fun a ha => hI.stack_sub a ((List.dropLast_sublist _).subset ha),
          List.Nodup.sublist (List.dropLast_sublist _) hI.stack_nd,
          hI.vis_univ, hI.vis_nd, hI.chain, hI.keys, hI.zero_vis, hI.vals_goal, hI.len⟩
      · cases hfr : (frontier s visited top).isEmpty with
        | true =>
          rw [phase1_pop n s stack visited top hl ht hfr]
          have hIn : DFSInv s0 s stack.dropLast visited :=
            ⟨hI.nbrs, hI.ids,
              fun a ha => hI.stack_sub a ((List.dropLast_sublist _).subset ha),
              List.Nodup.sublist (List.dropLast_sublist _) hI.stack_nd,
              hI.vis_univ, hI.vis_nd, hI.chain, hI.keys, hI.zero_vis, hI.vals_goal, hI.len⟩
          apply ih s stack.dropLast visited hIn
          · intro h
            exact hdrop ((List.dropLast_sublist _).subset h)
          · intro a ha hnst b hb
            by_cases hat : a = top
            · subst hat
              exact frontier_empty_closed hI.nbrs hfr b hb
            · apply hclosed a ha ?_ b hb
              intro hast
              rw [hdecomp] at hast
              rcases List.mem_append.mp hast with h | h
              · exact hnst h
              · simp only [List.mem_singleton] at h
                exact hat h
          · have hlen : stack.length = stack.dropLast.length + 1 := by
              rw [hdecomp]
              simp
            omega
        | false =>
          rw [phase1_push n s stack visited top hl ht hfr]
          have hfne : frontier s visited top ≠ [] := by
            intro h
            rw [h] at hfr
            simp at hfr
          have hnbm : (choice (frontier s visited top) s.rng).1 ∈ frontier s visited top :=
            choice_mem hfne s.rng
          obtain ⟨hnbn, hnbv⟩ := frontier_mem hnbm
          have hIn := DFSInv_expand hsub hnd0 hI (hI.stack_sub top htops) ht hnbm
            (choice (frontier s visited top) s.rng).2
          apply ih _ _ _ hIn
          · rw [List.dropLast_concat]
            rw [hdecomp]
            intro h
            rcases List.mem_append.mp h with h | h
            · exact hdrop h
            · simp only [List.mem_singleton] at h
              exact ht h.symm
          · intro a ha hnst b hb
            rcases List.mem_cons.mp ha with rfl | ha'
            · exact absurd (List.mem_append_right _ (List.mem_cons_self _ _)) hnst
            · exact List.mem_cons_of_mem _
                (hclosed a ha' (fun h => hnst (List.mem_append_left _ h)) b hb)
          · have hU := U_push hnd0 visited
              (hsub top _ (by rw [← hI.nbrs top]; exact hnbn)) hnbv
            have hlen : (stack ++ [(choice (frontier s visited top) s.rng).1]).length =
                stack.length + 1 := by simp
            omega

theorem phase2_master (s0 : MazeState) (hnd0 : (roomIds s0).Nodup)
    (hsub : ∀ a b, b ∈ nbrsOf s0 a → b ∈ roomIds s0) :
    ∀ (fuel : Nat) (s : MazeState) (stack visited : List Int),
      DFSInv s0 s stack visited →
      (-1 : Int) ∈ visited → (-1 : Int) ∉ stack →
      DFSInv s0 (phase2 fuel s stack visited).1 (phase2 fuel s stack visited).2.1
          (phase2 fuel s stack visited).2.2 ∧
        (-1 : Int) ∈ (phase2 fuel s stack visited).2.2 := by
  intro fuel
  induction fuel with
  | zero =>
    intro s stack visited hI hg hgs
    exact ⟨hI, hg⟩
  | succ n ih =>
    intro s stack visited hI hg hgs
    cases hl : stack.isEmpty with
    | true =>
      rw [phase2_nil n s stack visited hl]
      exact ⟨hI, hg⟩
    | false =>
      have hsne : stack ≠ [] := by
        intro h
        rw [h] at hl
        simp at hl
      have hslen : 0 < stack.length := List.length_pos.mpr hsne
      have hilt : (randint 0 (stack.length - 1) s.rng).1 < stack.length := by
        show 0 + s.rng 0 % (stack.length - 1 + 1 - 0) < stack.length
        have he : stack.length - 1 + 1 - 0 = stack.length := by omega
        rw [he]
        have := Nat.mod_lt (s.rng 0) hslen
        omega
      have htopm : stack.getD (randint 0 (stack.length - 1) s.rng).1 0 ∈ stack :=
        getD_mem hilt 0
      have htopv : stack.getD (randint 0 (stack.length - 1) s.rng).1 0 ∈ visited :=
        hI.stack_sub _ htopm
      have htopg : stack.getD (randint 0 (stack.length - 1) s.rng).1 0 ≠ -1 :=
        fun h => hgs (h ▸ htopm)
      cases hfr : (frontier s visited
          (stack.getD (randint 0 (stack.length - 1) s.rng).1 0)).isEmpty with
      | true =>
        rw [phase2_pop n s stack visited hl hfr]
        have hIn : DFSInv s0 { s with rng := (randint 0 (stack.length - 1) s.rng).2 }
            (stack.eraseIdx (randint 0 (stack.length - 1) s.rng).1) visited := by
          have hI' : DFSInv s0 ({ s with rng := (randint 0 (stack.length - 1) s.rng).2 } :
              MazeState) stack visited :=
            ⟨hI.nbrs, hI.ids, hI.stack_sub, hI.stack_nd, hI.vis_univ, hI.vis_nd,
              hI.chain, hI.keys, hI.zero_vis, hI.vals_goal, hI.len⟩
          exact ⟨hI'.nbrs, hI'.ids,
            fun a ha => hI'.stack_sub a ((List.eraseIdx_sublist _ _).subset ha),
            List.Nodup.sublist (List.eraseIdx_sublist _ _) hI'.stack_nd,
            hI'.vis_univ, hI'.vis_nd, hI'.chain, hI'.keys, hI'.zero_vis,
            hI'.vals_goal, hI'.len⟩
        exact ih _ _ _ hIn hg
          (fun h => hgs ((List.eraseIdx_sublist _ _).subset h))
      | false =>
        rw [phase2_push n s stack visited hl hfr]
        have hfne : frontier s visited
            (stack.getD (randint 0 (stack.length - 1) s.rng).1 0) ≠ [] := by
          intro h
          rw [h] at hfr
          simp at hfr
        have hnbm := choice_mem hfne (randint 0 (stack.length - 1) s.rng).2
        obtain ⟨hnbn, hnbv⟩ := frontier_mem hnbm
        have hnbg : (choice (frontier s visited
            (stack.getD (randint 0 (stack.length - 1) s.rng).1 0))
            (randint 0 (stack.length - 1) s.rng).2).1 ≠ -1 :=
          fun h => hnbv (h ▸ hg)
        have hI' : DFSInv s0 ({ s with rng := (randint 0 (stack.length - 1) s.rng).2 } :
            MazeState) stack visited :=
          ⟨hI.nbrs, hI.ids, hI.stack_sub, hI.stack_nd, hI.vis_univ, hI.vis_nd,
            hI.chain, hI.keys, hI.zero_vis, hI.vals_goal, hI.len⟩
        have hIn := DFSInv_expand hsub hnd0 hI' htopv htopg hnbm
          (choice (frontier s visited
            (stack.getD (randint 0 (stack.length - 1) s.rng).1 0))
            (randint 0 (stack.length - 1) s.rng).2).2
        apply ih _ _ _ hIn (List.mem_cons_of_mem _ hg)
        intro h
        rcases List.mem_append.mp h with h | h
        · exact hgs h
        · simp only [List.mem_singleton] at h
          exact hnbg h.symm

end AMazeIng

namespace AMazeIng

theorem genRoomAt_paths (cfg : Config) (s : MazeState) (cell : Cell) :
    (genRoomAt cfg s cell).paths = s.paths := by
  rcases cell with ⟨hi, ri, ci⟩
  by_cases hocc : (s.maze (hi, ri, ci)).isSome
  · simp [genRoomAt, hocc]
  · simp [genRoomAt, hocc, MazeState.set_room]

theorem roomsStage_paths (cfg : Config) (g : RNG) : (roomsStage cfg g).paths = [] := by
  show ((allCells (initStage cfg g).mh (initStage cfg g).mr
    (initStage cfg g).mc).foldl (genRoomAt cfg) (initStage cfg g)).paths = []
  exact foldl_preserves (fun s => s.paths = []) (genRoomAt cfg) _ (initStage cfg g) rfl
    (fun s c _ hs => by
      show (genRoomAt cfg s c).paths = []
      rw [genRoomAt_paths]; exact hs)

theorem networkStage_paths (cfg : Config) (g : RNG) : (networkStage cfg g).paths = [] :=
  roomsStage_paths cfg g

theorem networkStage_nodup (cfg : Config) (g : RNG) (hv : validConfig cfg = true) :
    (roomIds (networkStage cfg g)).Nodup := by
  obtain ⟨hI, -, -, -, -⟩ := roomsStage_spec cfg g hv
  rw [show networkStage cfg g = generate_maze_network (roomsStage cfg g) from rfl,
    roomIds_network]
  exact hI.nodup

theorem entry_DFSInv (cfg : Config) (g : RNG) :
    DFSInv (networkStage cfg g) (networkStage cfg g) [0] [0] := by
  refine ⟨fun i => rfl, rfl, fun a ha => ha, by simp, ?_, by simp,
    ⟨Or.inl ⟨rfl, rfl⟩, trivial⟩, ?_, List.mem_cons_self _ _, ?_, rfl⟩
  · intro a ha
    simp only [List.mem_singleton] at ha
    subst ha
    exact List.mem_cons_self _ _
  · intro a hk
    rw [networkStage_paths] at hk
    simp [alookup] at hk
  · intro p hp
    rw [networkStage_paths] at hp
    exact absurd hp (List.not_mem_nil _)

theorem spanning_tree_out (cfg : Config) (g : RNG) (hv : validConfig cfg = true) :
    DFSInv (networkStage cfg g)
      (phase2 (2 * (networkStage cfg g).rooms.length + 2)
        (phase1 (2 * (networkStage cfg g).rooms.length + 2) (networkStage cfg g) [0] [0]).1
        (phase1 (2 * (networkStage cfg g).rooms.length + 2) (networkStage cfg g) [0] [0]).2.1
        (phase1 (2 * (networkStage cfg g).rooms.length + 2) (networkStage cfg g) [0] [0]).2.2).1
      (phase2 (2 * (networkStage cfg g).rooms.length + 2)
        (phase1 (2 * (networkStage cfg g).rooms.length + 2) (networkStage cfg g) [0] [0]).1
        (phase1 (2 * (networkStage cfg g).rooms.length + 2) (networkStage cfg g) [0] [0]).2.1
        (phase1 (2 * (networkStage cfg g).rooms.length + 2) (networkStage cfg g) [0] [0]).2.2).2.1
      (phase2 (2 * (networkStage cfg g).rooms.length + 2)
        (phase1 (2 * (networkStage cfg g).rooms.length + 2) (networkStage cfg g) [0] [0]).1
        (phase1 (2 * (networkStage cfg g).rooms.length + 2) (networkStage cfg g) [0] [0]).2.1
        (phase1 (2 * (networkStage cfg g).rooms.length + 2) (networkStage cfg g) [0] [0]).2.2).2.2 ∧
    (-1 : Int) ∈ (phase2 (2 * (networkStage cfg g).rooms.length + 2)
        (phase1 (2 * (networkStage cfg g).rooms.length + 2) (networkStage cfg g) [0] [0]).1
        (phase1 (2 * (networkStage cfg g).rooms.length + 2) (networkStage cfg g) [0] [0]).2.1
        (phase1 (2 * (networkStage cfg g).rooms.length + 2) (networkStage cfg g) [0] [0]).2.2).2.2 := by
  have hnd0 := networkStage_nodup cfg g hv
  have hsub := nbrs_sub_ids cfg g hv
  have hm0 : 2 * ((roomIds (networkStage cfg g)).filter
      (fun a => decide (a ∉ ([0] : List Int)))).length + ([0] : List Int).length <
      2 * (networkStage cfg g).rooms.length + 2 := by
    have h1 := List.length_filter_le (fun a => decide (a ∉ ([0] : List Int)))
      (roomIds (networkStage cfg g))
    have h2 : (roomIds (networkStage cfg g)).length = (networkStage cfg g).rooms.length :=
      List.length_map _ _
    simp only [List.length_singleton]
    omega
  have h1 := phase1_master (networkStage cfg g) hnd0 hsub
    (2 * (networkStage cfg g).rooms.length + 2) (networkStage cfg g) [0] [0]
    (entry_DFSInv cfg g) (by simp)
    (fun a ha hna => absurd ha hna) hm0
  have hgvis : (-1 : Int) ∈ (phase1 (2 * (networkStage cfg g).rooms.length + 2)
      (networkStage cfg g) [0] [0]).2.2 := by
    rcases h1.2.2 with h | hcl
    · exact h
    · exact closed_reach hcl (goal_reachable cfg g hv) h1.1.zero_vis
  exact phase2_master (networkStage cfg g) hnd0 hsub
    (2 * (networkStage cfg g).rooms.length + 2) _ _ _ h1.1 hgvis h1.2.1

/-- C9: for every valid configuration and every random stream, the goal room
is a leaf of the spanning tree: the goal id -1 never occurs as a parent value
in the paths map of the finished maze. -/
theorem C9_goal_leaf (cfg : Config) (g : RNG) (hv : validConfig cfg = true) :
    ∀ p ∈ (Maze.build cfg g).paths, p.2 ≠ (-1 : Int) := by
  intro p hp
  exact (spanning_tree_out cfg g hv).1.vals_goal p hp

theorem C9_goal_leaf_witness :
    validConfig cfgTiny = true ∧
    ((1 : Int), (0 : Int)) ∈ (Maze.build cfgTiny rngZero).paths ∧
    ((1 : Int), (0 : Int)).2 ≠ (-1 : Int) :=
  ⟨by decide, by decide,
    C9_goal_leaf cfgTiny rngZero (by decide) ((1 : Int), (0 : Int)) (by decide)⟩

end AMazeIng

namespace AMazeIng

/-- Each node has at most one parent, so backward parent chains ending at the
root 0 are unique once their head is fixed. -/
theorem chain_backward_det (paths : List (Int × Int)) (h0 : alookup (0 : Int) paths = none) :
    ∀ l1 l2 : List Int,
      List.Chain' (fun c p => alookup c paths = some p) l1 →
      List.Chain' (fun c p => alookup c paths = some p) l2 →
      l1.head? = l2.head? → l1.getLast? = some 0 → l2.getLast? = some 0 → l1 = l2 := by
  intro l1
  induction l1 with
  | nil => intro l2 _ _ _ hg1 _; simp at hg1
  | cons a t ih =>
    intro l2 hc1 hc2 hh hg1 hg2
    rcases l2 with _ | ⟨b, t2⟩
    · simp at hg2
    · simp only [List.head?_cons, Option.some.injEq] at hh
      subst hh
      rcases t with _ | ⟨x, t'⟩
      · have ha : a = 0 := by simpa using hg1
        subst ha
        rcases t2 with _ | ⟨y, t2'⟩
        · rfl
        · have hstep := (List.chain'_cons.mp hc2).1
          rw [h0] at hstep; cases hstep
      · rcases t2 with _ | ⟨y, t2'⟩
        · have ha : a = 0 := by simpa using hg2
          subst ha
          have hstep := (List.chain'_cons.mp hc1).1
          rw [h0] at hstep; cases hstep
        · have h1 := List.chain'_cons.mp hc1
          have h2 := List.chain'_cons.mp hc2
          have hxy : x = y := Option.some.inj (h1.1.symm.trans h2.1)
          subst hxy
          have htail := ih (x :: t2') h1.2 h2.2 rfl
            (by rwa [List.getLast?_cons_cons] at hg1)
            (by rwa [List.getLast?_cons_cons] at hg2)
          rw [htail]

theorem chain_rev {α : Type _} {R : α → α → Prop} {l : List α}
    (h : List.Chain' R l) : List.Chain' (fun a b => R b a) l.reverse :=
  List.chain'_reverse.mpr h

theorem build_paths_eq (cfg : Config) (g : RNG) :
    (Maze.build cfg g).paths =
      (phase2 (2 * (networkStage cfg g).rooms.length + 2)
        (phase1 (2 * (networkStage cfg g).rooms.length + 2) (networkStage cfg g) [0] [0]).1
        (phase1 (2 * (networkStage cfg g).rooms.length + 2) (networkStage cfg g) [0] [0]).2.1
        (phase1 (2 * (networkStage cfg g).rooms.length + 2) (networkStage cfg g) [0] [0]).2.2).1.paths :=
  rfl

theorem build_solution_eq (cfg : Config) (g : RNG) :
    (Maze.build cfg g).solution_path =
      buildSolution
        (phase2 (2 * (networkStage cfg g).rooms.length + 2)
          (phase1 (2 * (networkStage cfg g).rooms.length + 2) (networkStage cfg g) [0] [0]).1
          (phase1 (2 * (networkStage cfg g).rooms.length + 2) (networkStage cfg g) [0] [0]).2.1
          (phase1 (2 * (networkStage cfg g).rooms.length + 2) (networkStage cfg g) [0] [0]).2.2).1.paths
        ((phase2 (2 * (networkStage cfg g).rooms.length + 2)
          (phase1 (2 * (networkStage cfg g).rooms.length + 2) (networkStage cfg g) [0] [0]).1
          (phase1 (2 * (networkStage cfg g).rooms.length + 2) (networkStage cfg g) [0] [0]).2.1
          (phase1 (2 * (networkStage cfg g).rooms.length + 2) (networkStage cfg g) [0] [0]).2.2).1.rooms.length + 1)
        [-1] :=
  rfl

/-- C6: for every valid configuration and stream the finished maze carries a
solution path: a sequence of room ids starting at the start id 0, ending at the
goal id -1, in which every consecutive pair (p, c) is a tree edge of the paths
parent map (paths[c] = p); moreover it is the unique such root-to-goal parent
chain, so its length is the tree depth of the goal room plus one. -/
theorem C6_solution_path (cfg : Config) (g : RNG) (hv : validConfig cfg = true) :
    ∃ sol, (Maze.build cfg g).solution_path = some sol ∧
      sol.head? = some 0 ∧ sol.getLast? = some (-1) ∧
      List.Chain' (fun p c => alookup c (Maze.build cfg g).paths = some p) sol ∧
      ∀ l : List Int, l.head? = some 0 → l.getLast? = some (-1) →
        List.Chain' (fun p c => alookup c (Maze.build cfg g).paths = some p) l → l = sol := by
  simp only [build_paths_eq cfg g, build_solution_eq cfg g]
  obtain ⟨hI, hg⟩ := spanning_tree_out cfg g hv
  set s0 := networkStage cfg g with hs0d
  set F := 2 * s0.rooms.length + 2 with hFd
  set P1 := phase1 F s0 [0] [0] with hP1d
  set P2 := phase2 F P1.1 P1.2.1 P1.2.2 with hP2d
  obtain ⟨t, htc, hth, htl⟩ := suffix_of_mem P2.1.paths P2.2.2 hI.chain (-1) hg
  have hvlen : P2.2.2.length ≤ s0.rooms.length + 1 := by
    have hle := nodup_subset_length P2.2.2 ((0 : Int) :: roomIds s0) hI.vis_nd hI.vis_univ
    have hlm : (roomIds s0).length = s0.rooms.length := List.length_map _ _
    simp only [List.length_cons, hlm] at hle
    omega
  have hfuel : t.length ≤ P2.1.rooms.length + 1 := by
    rw [hI.len]; omega
  obtain ⟨sol, hbs, hh0, hlast, hchain⟩ :=
    buildSolution_walk P2.1.paths t.length t le_rfl htc (-1) hth [-1]
      (P2.1.rooms.length + 1) rfl (by simp) (List.chain'_singleton _) hfuel
  refine ⟨sol, hbs, hh0, hlast, hchain, ?_⟩
  intro l hlh hll hlc
  have h0lookup : alookup (0 : Int) P2.1.paths = none := by
    cases hcase : alookup (0 : Int) P2.1.paths with
    | none => rfl
    | some p => exact absurd rfl (hI.keys 0 (by rw [hcase]; rfl)).2
  have hrev := chain_backward_det P2.1.paths h0lookup l.reverse sol.reverse
    (chain_rev hlc) (chain_rev hchain)
    (by rw [List.head?_reverse, List.head?_reverse, hll, hlast])
    (by rw [List.getLast?_reverse]; exact hlh)
    (by rw [List.getLast?_reverse]; exact hh0)
  have hrr := congrArg List.reverse hrev
  simpa using hrr

end AMazeIng

namespace AMazeIng

theorem C6_solution_path_witness :
    validConfig cfgTiny = true ∧
    ∃ sol, (Maze.build cfgTiny rngZero).solution_path = some sol ∧
      sol.head? = some 0 ∧ sol.getLast? = some (-1) ∧
      List.Chain' (fun p c => alookup c (Maze.build cfgTiny rngZero).paths = some p) sol ∧
      ∀ l : List Int, l.head? = some 0 → l.getLast? = some (-1) →
        List.Chain' (fun p c => alookup c (Maze.build cfgTiny rngZero).paths = some p) l →
        l = sol :=
  ⟨by decide, C6_solution_path cfgTiny rngZero (by decide)⟩

end AMazeIng
